import Mathlib

/-!
Pocket-nim: a shallow embedding of the game core.

Sources embedded: `src/pocket-nim/main.c` (firmware) and `src/nim_desktop.c`
(desktop variant).

* Bytes (`unsigned char`) are natural numbers.  With at most `MAXROWS` rows no
  counter of the game core wraps (`unityheaps` stays below 31, `quality` below
  13), and a heap is only ever decremented when it is positive.  The `char`
  accumulator `check_winner` of `main` and the byte `playable_rows_bitmap` are
  reduced modulo 256 explicitly, the 16-bit random register modulo 65536.
* `char` is read as unsigned, as on the firmware's target; for heap sizes
  below 128 its signedness plays no role.  In the desktop `computer_play` the
  variable `char temp` is read as a signed byte (`schar`), as on a desktop
  build.
* The array `numsticks` is a list; the heap vector of a state is made of its
  first `rows` entries, the entries beyond are carried along untouched.
* The local array `candidate` of `computer_play` is not initialised by the
  code.  A slot is `none` until the code assigns it, and a read of an
  unassigned slot yields the byte that the stack held there, passed to
  `computer_play` as the argument `cand0`.
* The main loop is taken pass by pass (`main_step`), one button event per
  pass; of the timer interrupt `fast_tick` only the increment of the random
  register concerns the game state.  The sounds, the display and the waits
  are left out; the announcements are the list of `Outcome` of a pass.
* The button handling of `fast_tick` is a function of the button variables,
  the pin values read at the tick and the value of `playing`; the write of
  `user_play` to `button_status` is one run of its loop over the buttons,
  taken as one step between ticks.
-/

namespace PocketNim

/-! ## Constants and global state -/

/-- Constant `MAXROWS` (`#define MAXROWS 5`): the extent of `numsticks`. -/
def MAXROWS : Nat := 5

/-- Constant `NUM_BUTTONS` (`#define NUM_BUTTONS 6`). -/
def NUM_BUTTONS : Nat := 6

/-- Constant `COMPUTER_BUTTON` (`#define COMPUTER_BUTTON NUM_BUTTONS-1`). -/
def COMPUTER_BUTTON : Nat := NUM_BUTTONS - 1

/-- Constant `WEAKNESS` (`#define WEAKNESS 200U`). -/
def WEAKNESS : Nat := 200

/-- The file-scope variables of the game core: `numsticks[MAXROWS]`, `level`,
`rows`, `randreg` and `current_selection` (the row lock). -/
structure Game where
  numsticks : List Nat
  level : Nat
  rows : Nat
  randreg : Nat
  current_selection : Nat
  deriving DecidableEq

/-! ## random_num -/

/-- One round of the body of the loop in `random_num`, on the 16-bit
register: `r ^= r>>7; r ^= r<<9; r ^= r>>13`. -/
def random_round (r : Nat) : Nat :=
  let r1 := r ^^^ (r >>> 7)
  let r2 := (r1 ^^^ (r1 <<< 9)) % 65536
  r2 ^^^ (r2 >>> 13)

/-- Function `random_num`: eight rounds on `randreg`; returns the low byte and
the new register. -/
def random_num (randreg : Nat) : Nat × Nat :=
  let r := random_round (random_round (random_round (random_round
    (random_round (random_round (random_round (random_round randreg)))))))
  (r % 256, r)

/-! ## setup_game -/

/-- One iteration of the loops of `setup_game` at levels 4 and 5:
`numsticks[i]=random_num() & 0x07; numsticks[i]++`. -/
def setup_row (st : List Nat × Nat) (i : Nat) : List Nat × Nat :=
  let r := random_num st.2
  (st.1.set i ((r.1 &&& 7) + 1), r.2)

/-- Function `setup_game` of the firmware: initialises `rows` and the first
`rows` entries of `numsticks` from `level`; a level outside 1..5 changes
nothing (the `switch` has no default). -/
def setup_game (g : Game) : Game :=
  if g.level = 5 then
    let st := (List.range 5).foldl setup_row (g.numsticks, g.randreg)
    { g with rows := 5, numsticks := st.1, randreg := st.2 }
  else if g.level = 4 then
    let st := (List.range 4).foldl setup_row (g.numsticks, g.randreg)
    { g with rows := 4, numsticks := st.1, randreg := st.2 }
  else if g.level = 3 then
    { g with rows := 4, numsticks := (((g.numsticks.set 3 7).set 2 5).set 1 3).set 0 1 }
  else if g.level = 2 then
    { g with rows := 4, numsticks := (((g.numsticks.set 3 7).set 2 5).set 1 3).set 0 1 }
  else if g.level = 1 then
    { g with rows := 3, numsticks := ((g.numsticks.set 2 5).set 1 3).set 0 1 }
  else g

/-! ## count_ones -/

/-- Function `count_ones`: the number of set bits among bits 0..7 of `value`. -/
def count_ones (value : Nat) : Nat :=
  (List.range 8).foldl
    (fun sum i => if value &&& (1 <<< i) ≠ 0 then sum + 1 else sum) 0

/-! ## computer_play -/

/-- The first loop of `computer_play`: `x = numsticks[0]; for (i=1; i<rows; i++)
x = x ^ numsticks[i]`. -/
def nim_x (numsticks : List Nat) (rows : Nat) : Nat :=
  (List.range' 1 (rows - 1)).foldl
    (fun x i => x ^^^ numsticks.getD i 0) (numsticks.getD 0 0)

/-- The array `interim_xor` after the loop `for (i=0; i<rows; i++)
interim_xor[i] = x ^ numsticks[i]`. -/
def interim_xor (numsticks : List Nat) (rows x : Nat) : List Nat :=
  (List.range rows).map (fun i => x ^^^ numsticks.getD i 0)

/-- The byte `playable_rows_bitmap` after the same loop: bit `i` is set when
`interim_xor[i] < numsticks[i]`. -/
def playable_rows_bitmap (numsticks : List Nat) (rows x : Nat) : Nat :=
  (List.range rows).foldl
    (fun bm i =>
      if (interim_xor numsticks rows x).getD i 0 < numsticks.getD i 0
      then (bm ||| (1 <<< i)) % 256 else bm) 0

/-- The inner loop over `j` of the candidate loop: starting from the running
`unityheaps`, counts the other rows equal to one and raises
`unitychecknotneeded` when another row is larger than one.  Returns
`(unityheaps, unitychecknotneeded)`. -/
def scan_others (numsticks : List Nat) (rows i unityheaps : Nat) : Nat × Nat :=
  (List.range rows).foldl
    (fun (acc : Nat × Nat) j =>
      if j ≠ i then
        if numsticks.getD j 0 = 1 then (acc.1 + 1, acc.2)
        else if numsticks.getD j 0 > 1 then (acc.1, 1)
        else acc
      else acc) (unityheaps, 0)

/-- The variables carried through the candidate loop of `computer_play`.
The local array `candidate` is not initialised by the code: an entry `none`
is a slot that has not been assigned yet. -/
structure CandState where
  unityheaps : Nat
  quality : List Nat
  candidate : List (Option Nat)
  deriving DecidableEq

/-- One iteration (row `i`) of the candidate loop
`for (i=rows-1; i>=0; i--)`.  `unityheaps` is not reset between rows. -/
def candidate_row (numsticks : List Nat) (rows x bitmap : Nat) (e : CandState)
    (i : Nat) : CandState :=
  if bitmap &&& (1 <<< i) ≠ 0 then
    let temp := (interim_xor numsticks rows x).getD i 0
    let u0 := if temp = 1 then e.unityheaps + 1 else e.unityheaps
    let so := scan_others numsticks rows i u0
    let u := so.1
    if temp ≤ 1 ∧ so.2 = 0 then
      if u &&& 1 ≠ 0 then
        { unityheaps := u
          quality := e.quality.set i (e.quality.getD i 0 + 10)
          candidate := e.candidate.set i (some temp) }
      else if temp = 1 then
        { unityheaps := u
          quality := e.quality.set i (e.quality.getD i 0 + 5)
          candidate := e.candidate.set i (some 0) }
      else
        if temp = 0 then
          if numsticks.getD i 0 > 1 then
            { unityheaps := u
              quality := e.quality.set i (e.quality.getD i 0 + 9)
              candidate := e.candidate.set i (some 1) }
          else
            { unityheaps := u, quality := e.quality, candidate := e.candidate }
        else
          { unityheaps := u
            quality := e.quality.set i (e.quality.getD i 0 + 1)
            candidate := e.candidate.set i (some temp) }
    else
      { unityheaps := u
        quality := e.quality.set i (e.quality.getD i 0 + 9)
        candidate := e.candidate.set i (some temp) }
  else e

/-- The candidate loop `for (i=rows-1; i>=0; i--)`, entered with
`unityheaps = 0`, `quality` all zero and `candidate` unassigned. -/
def candidate_loop (numsticks : List Nat) (rows x bitmap : Nat) : CandState :=
  ((List.range rows).reverse).foldl (candidate_row numsticks rows x bitmap)
    { unityheaps := 0
      quality := List.replicate MAXROWS 0
      candidate := List.replicate MAXROWS none }

/-- The peak search `for (i=0; i<rows; i++) if (quality[i]>=peak_quality) ...`,
from the given `(peak_quality, peak_candidate)`. -/
def find_peak (quality : List Nat) (rows : Nat) (start : Nat × Nat) : Nat × Nat :=
  (List.range rows).foldl
    (fun (p : Nat × Nat) i =>
      if quality.getD i 0 ≥ p.1 then (quality.getD i 0, i) else p) start

/-- One iteration (row `i`) of the weakening loop of levels 1 and 2; the
state is `(quality, candidate, randreg)`. -/
def weaken_row (numsticks : List Nat) (peak_quality : Nat)
    (st : List Nat × List (Option Nat) × Nat) (i : Nat) :
    List Nat × List (Option Nat) × Nat :=
  if numsticks.getD i 0 > 1 then
    let r1 := random_num st.2.2
    if r1.1 > WEAKNESS then
      let cand := st.2.1.set i (some (numsticks.getD i 0 - 1))
      let q := st.1.set i (peak_quality + 1)
      let r2 := random_num r1.2
      if r2.1 > 128 then (q.set i (q.getD i 0 + 1), cand, r2.2)
      else (q, cand, r2.2)
    else (st.1, st.2.1, r1.2)
  else st

/-- The weakening loop `for (i=0; i<rows; i++)`. -/
def weaken (numsticks : List Nat) (rows peak_quality : Nat)
    (st : List Nat × List (Option Nat) × Nat) : List Nat × List (Option Nat) × Nat :=
  (List.range rows).foldl (weaken_row numsticks peak_quality) st

/-- The branch `num_playable_rows>=1` of `computer_play` up to, and not
including, the final store `numsticks[peak_candidate]=candidate[peak_candidate]`:
returns `(peak_candidate, candidate[peak_candidate], randreg)`, the slot being
`none` when the code never assigned it. -/
def pick_move (g : Game) (x bitmap : Nat) : Nat × Option Nat × Nat :=
  let e := candidate_loop g.numsticks g.rows x bitmap
  let p := find_peak e.quality g.rows (0, 0)
  if g.level = 1 ∨ g.level = 2 then
    let w := weaken g.numsticks g.rows p.1 (e.quality, e.candidate, g.randreg)
    let p2 := find_peak w.1 g.rows (0, p.2)
    (p2.2, w.2.1.getD p2.2 none, w.2.2)
  else (p.2, e.candidate.getD p.2 none, g.randreg)

/-- Reading a slot of `candidate`: the assigned value, or, for a slot never
assigned, the indeterminate byte `cand0[i]` that the stack held on entry. -/
def read_candidate (slot : Option Nat) (cand0 : List Nat) (i : Nat) : Nat :=
  match slot with
  | some v => v
  | none => cand0.getD i 0

/-- The loop `for (i=0; i<rows; i++) if (numsticks[i]>0) { numsticks[i]--;
i=rows; }`, entered at row `i` with `n` rows left to scan. -/
def play_any_loop (rows : Nat) : Nat → Nat → List Nat → List Nat
  | 0, _, ns => ns
  | n + 1, i, ns =>
    if i < rows then
      if ns.getD i 0 > 0 then ns.set i (ns.getD i 0 - 1)
      else play_any_loop rows n (i + 1) ns
    else ns

/-- The fallback "play any row we can". -/
def play_any (numsticks : List Nat) (rows : Nat) : List Nat :=
  play_any_loop rows rows 0 numsticks

/-- Function `computer_play`.  The argument `cand0` is the indeterminate
content of the uninitialised local array `candidate` on entry. -/
def computer_play (g : Game) (cand0 : List Nat) : Game :=
  let x := nim_x g.numsticks g.rows
  if x > 0 then
    let bitmap := playable_rows_bitmap g.numsticks g.rows x
    if count_ones bitmap ≥ 1 then
      let m := pick_move g x bitmap
      { g with
        numsticks := g.numsticks.set m.1 (read_candidate m.2.1 cand0 m.1)
        randreg := m.2.2
        current_selection := 0 }
    else
      { g with numsticks := play_any g.numsticks g.rows, current_selection := 0 }
  else
    { g with numsticks := play_any g.numsticks g.rows, current_selection := 0 }

/-! ## user_play -/

/-- The block `if ((selection<=rows) && (selection>0)) ...` that ends
`user_play` in both variants. -/
def row_select (g : Game) (selection : Int) : Game :=
  if selection ≤ (g.rows : Int) ∧ selection > 0 then
    if g.current_selection = 0 ∨ (g.current_selection : Int) = selection then
      if g.numsticks.getD (selection - 1).toNat 0 > 0 then
        { g with
          numsticks := g.numsticks.set (selection - 1).toNat
            (g.numsticks.getD (selection - 1).toNat 0 - 1)
          current_selection := selection.toNat }
      else g
    else g
  else g

/-- What the button-wait loop of the firmware `user_play` delivers: the index
`button` of the entry of `button_status` found in state `FIRST_PRESS`, and
the value of `command_press` when the loop tests it. -/
structure Press where
  button : Nat
  command_press : Nat
  deriving DecidableEq

/-- The firmware `user_play` after a button press: returns the new state and
`selection` (9 for the computer button, `100+command_press` for a command). -/
def user_play (g : Game) (p : Press) : Game × Int :=
  let sel0 : Int := if p.button = COMPUTER_BUTTON then 9 else (p.button : Int) + 1
  let selection : Int := if p.command_press ≠ 0 then 100 + (p.command_press : Int) else sel0
  let g1 : Game := if p.command_press ≠ 0 then { g with current_selection := 0 } else g
  (row_select g1 selection, selection)

/-- The conversion `return(selection)` of an `int` to the `char` result of the
desktop `user_play`, where `char` is a signed byte: the value modulo 256 in
`-128..127`. -/
def int_to_schar (v : Int) : Int := (v + 128) % 256 - 128

/-- The desktop `user_play`: `selection` is the integer read by `scanf`; the
value returned is `selection` converted to `char`. -/
def user_play_desktop (g : Game) (selection : Int) : Game × Int :=
  (row_select g selection, int_to_schar selection)

/-! ## The controller: the `sel==9` step of `main` -/

/-- The end-of-game announcements of `main`: `scroll_text("YOU WIN  ")` with
the rising tone, and `scroll_text("LOSER  ")` with the falling tone. -/
inductive Outcome where
  | you_win
  | loser
  deriving DecidableEq

/-- The game state together with the local `winner_announced` of `main`. -/
structure Ctl where
  game : Game
  winner_announced : Nat
  deriving DecidableEq

/-- The loop `for (i=0; i<rows; i++) check_winner+=numsticks[i]` on the
`char` variable `check_winner`, from the value `start`. -/
def check_sum (g : Game) (start : Nat) : Nat :=
  (List.range g.rows).foldl (fun s i => (s + g.numsticks.getD i 0) % 256) start

/-- The body of `if (sel==9)` in `main`: returns the new controller state and
the announcements made, in order. -/
def yield_step (c : Ctl) (cand0 : List Nat) : Ctl × List Outcome :=
  let check_winner := check_sum c.game 0
  let a1 : Nat × List Outcome :=
    if check_winner = 1 then
      if c.winner_announced = 0 then (1, [Outcome.you_win]) else (c.winner_announced, [])
    else (c.winner_announced, [])
  let check_winner1 := if check_winner = 1 then check_winner else 0
  let g1 := if a1.1 = 0 then computer_play c.game cand0 else c.game
  if check_winner1 = 0 ∧ a1.1 = 0 then
    if check_sum g1 check_winner1 = 1 then
      ({ game := g1, winner_announced := 1 }, a1.2 ++ [Outcome.loser])
    else ({ game := g1, winner_announced := a1.1 }, a1.2)
  else ({ game := g1, winner_announced := a1.1 }, a1.2)

/-! ## Vocabulary of the claims -/

/-- The heap vector of a state: the `rows` active entries of `numsticks`. -/
def heaps (g : Game) : List Nat := g.numsticks.take g.rows

/-- Nim-sum of a heap vector: the bitwise xor of all heap sizes. -/
def nim_sum (hs : List Nat) : Nat := hs.foldl (fun a b => a ^^^ b) 0

/-- Number of heaps of size exactly one. -/
def unity_count (hs : List Nat) : Nat := hs.countP (fun h => decide (h = 1))

/-- Number of heaps of size larger than one. -/
def big_count (hs : List Nat) : Nat := hs.countP (fun h => decide (1 < h))

/-- Some heap is larger than one. -/
def has_nonunity (hs : List Nat) : Bool := hs.any (fun h => decide (1 < h))

/-- Misere Nim, position won by the player to move: some heap is larger than
one and the nim-sum is not zero, or all heaps are at most one and the number
of unit heaps is positive and even. -/
def winning (hs : List Nat) : Bool :=
  (has_nonunity hs && decide (nim_sum hs ≠ 0)) ||
  (!has_nonunity hs && decide (0 < unity_count hs) && decide (unity_count hs % 2 = 0))

/-- Misere Nim, position lost by the player to move: some heap is larger than
one and the nim-sum is zero, or all heaps are at most one and the number of
unit heaps is odd. -/
def losing (hs : List Nat) : Bool :=
  (has_nonunity hs && decide (nim_sum hs = 0)) ||
  (!has_nonunity hs && decide (unity_count hs % 2 = 1))

/-- The heap vector `computer_play` leaves at a strict level (the level
chosen is 3) on the active rows `ns`, for stack content `cand0`. -/
def strict_play (ns : List Nat) (R : Nat) (cand0 : List Nat) : List Nat :=
  (computer_play ⟨ns, 3, R, 0, 0⟩ cand0).numsticks

/-- The array `quality` after the candidate loop of `computer_play` on `g`. -/
def quality_table (g : Game) : List Nat :=
  (candidate_loop g.numsticks g.rows (nim_x g.numsticks g.rows)
    (playable_rows_bitmap g.numsticks g.rows (nim_x g.numsticks g.rows))).quality

/-- The array `candidate` after the candidate loop of `computer_play` on `g`. -/
def candidate_table (g : Game) : List (Option Nat) :=
  (candidate_loop g.numsticks g.rows (nim_x g.numsticks g.rows)
    (playable_rows_bitmap g.numsticks g.rows (nim_x g.numsticks g.rows))).candidate

/-! ## The controller: one pass of the main loop -/

/-- The test `if (winner_announced==0)` that guards the call `computer_play()`
in the body of `if (sel==9)`: true when the call is made. -/
def yield_calls_computer (c : Ctl) : Bool :=
  decide ((if check_sum c.game 0 = 1 then
      (if c.winner_announced = 0 then 1 else c.winner_announced)
    else c.winner_announced) = 0)

/-- One pass through the body of `while(playing)` in `main` for the button
event `p`: `user_play`, then the `sel==9` branch, or, for `sel>100`, the
restart (`level=sel-100; playing=0`) followed by the head of the outer loop
(`setup_game(); winner_announced=0`).  The values `user_play` returns are 1..5,
9 and 101..105, which the `char` variable `sel` holds unchanged. -/
def main_step (c : Ctl) (p : Press) (cand0 : List Nat) : Ctl × List Outcome :=
  let u := user_play c.game p
  if u.2 = 9 then yield_step { game := u.1, winner_announced := c.winner_announced } cand0
  else if u.2 > 100 then
    ({ game := setup_game { u.1 with level := (u.2 - 100).toNat }, winner_announced := 0 }, [])
  else ({ game := u.1, winner_announced := c.winner_announced }, [])

/-- The effect of `fast_tick` on the game state: `randreg++` on the 16-bit
register. -/
def fast_tick_randreg (g : Game) : Game :=
  { g with randreg := (g.randreg + 1) % 65536 }

/-- The states the firmware reaches: `setup_game` at a level in 1..5 with the
row lock free, then any number of ticks and of passes of the main loop on
button events (`button` an index below `NUM_BUTTONS`, `command_press` a row
button number or 0), with any stack content at each pass. -/
inductive Reachable : Ctl → Prop where
  | setup (g : Game) : g.numsticks.length = MAXROWS → 1 ≤ g.level → g.level ≤ 5 →
      g.current_selection = 0 → Reachable { game := setup_game g, winner_announced := 0 }
  | tick (c : Ctl) : Reachable c →
      Reachable { game := fast_tick_randreg c.game, winner_announced := c.winner_announced }
  | step (c : Ctl) (p : Press) (cand0 : List Nat) : Reachable c →
      p.button < NUM_BUTTONS → p.command_press < NUM_BUTTONS →
      Reachable (main_step c p cand0).1

/-- A human turn on the desktop: `user_play` run once per selection read. -/
def select_rows (g : Game) (rs : List Int) : Game :=
  rs.foldl (fun s r => (user_play_desktop s r).1) g

/-- A human turn on the firmware made of button presses without command:
`user_play` run once per pressed button. -/
def press_rows (g : Game) (buttons : List Nat) : Game :=
  buttons.foldl (fun s b => (user_play s ⟨b, 0⟩).1) g

/-- The relation between the state `g0` at the start of a human turn and a
later state `g` of the same turn. -/
def LockInv (g0 g : Game) : Prop :=
  g.rows = g0.rows ∧
  ((g.current_selection = 0 ∧ g.numsticks = g0.numsticks) ∨
   (g.current_selection ≠ 0 ∧ g.current_selection ≤ g0.rows ∧
    (∀ j, j ≠ g.current_selection - 1 → g.numsticks.getD j 0 = g0.numsticks.getD j 0) ∧
    g.numsticks.getD (g.current_selection - 1) 0
      < g0.numsticks.getD (g.current_selection - 1) 0))

/-! ## The quality table of the spec -/

/-- Spec 4.3: the heaps excluding row `i`. -/
def heaps_excluding (hs : List Nat) (i : Nat) : List Nat := hs.eraseIdx i

/-- Spec 4.3: `target_i = x XOR heaps[i]` with `x` the nim-sum. -/
def spec_target (hs : List Nat) (i : Nat) : Nat := nim_sum hs ^^^ hs.getD i 0

/-- Spec 4.3: row `i` is playable iff `target_i < heaps[i]`. -/
def spec_playable (hs : List Nat) (i : Nat) : Bool :=
  decide (spec_target hs i < hs.getD i 0)

/-- Spec 4.3: `U = unity_count(heaps excluding i)` plus 1 if `target_i = 1`. -/
def spec_U (hs : List Nat) (i : Nat) : Nat :=
  unity_count (heaps_excluding hs i) + if spec_target hs i = 1 then 1 else 0

/-- Spec 4.3: `M = has_nonunity(heaps excluding i)`. -/
def spec_M (hs : List Nat) (i : Nat) : Bool := has_nonunity (heaps_excluding hs i)

/-- Spec 4.3, the table of a playable row: `(candidate, quality)`. -/
def spec_table (hs : List Nat) (i : Nat) : Nat × Nat :=
  if spec_target hs i ≤ 1 ∧ spec_M hs i = false then
    if spec_U hs i % 2 = 1 then (spec_target hs i, 10)
    else if spec_target hs i = 1 then (0, 5)
    else if spec_target hs i = 0 ∧ hs.getD i 0 > 1 then (1, 9)
    else (spec_target hs i, 1)
  else (spec_target hs i, 9)

/-! ## The weakening pass: which rows draw a byte above `WEAKNESS` -/

/-- The test `random_num()>WEAKNESS` of the weakening loop, on the byte that
`random_num` returned. -/
def weakening_fires (byte : Nat) : Bool := decide (byte > WEAKNESS)

/-- One iteration (row `i`) of the weakening loop, keeping only the draws: a
row larger than one draws a byte; when the byte is above `WEAKNESS` the row is
recorded and a second byte is drawn.  The state is `(rows recorded, randreg)`. -/
def weaken_fired_row (numsticks : List Nat) (st : List Nat × Nat) (i : Nat) :
    List Nat × Nat :=
  if numsticks.getD i 0 > 1 then
    let r1 := random_num st.2
    if r1.1 > WEAKNESS then (st.1 ++ [i], (random_num r1.2).2)
    else (st.1, r1.2)
  else st

/-- The rows of size larger than one that draw a byte above `WEAKNESS` in the
weakening loop `for (i=0; i<rows; i++)` entered with register `randreg`. -/
def weaken_fired (numsticks : List Nat) (rows randreg : Nat) : List Nat :=
  ((List.range rows).foldl (weaken_fired_row numsticks) ([], randreg)).1

/-! ## The candidate loop, up to a row -/

/-- The variables of the candidate loop `for (i=rows-1; i>=0; i--)` when it
reaches row `i`: the iterations `rows-1` down to `i+1` are done. -/
def candidate_loop_before (numsticks : List Nat) (rows x bitmap i : Nat) : CandState :=
  ((List.range' (i + 1) (rows - (i + 1))).reverse).foldl
    (candidate_row numsticks rows x bitmap)
    { unityheaps := 0
      quality := List.replicate MAXROWS 0
      candidate := List.replicate MAXROWS none }

/-- The value of `unityheaps` that the test `(unityheaps & 1) != 0` reads in
iteration `i` of the candidate loop: the running counter, plus one when
`temp==1`, plus what the inner loop over `j` adds. -/
def unityheaps_at (numsticks : List Nat) (rows x bitmap i : Nat) : Nat :=
  let e := candidate_loop_before numsticks rows x bitmap i
  let temp := (interim_xor numsticks rows x).getD i 0
  let u0 := if temp = 1 then e.unityheaps + 1 else e.unityheaps
  (scan_others numsticks rows i u0).1

/-! ## The desktop variant: computer_play and main -/

/-- A byte read as a `char` of the desktop build, where `char` is signed. -/
def schar (b : Nat) : Int :=
  if b % 256 < 128 then ((b % 256 : Nat) : Int) else ((b % 256 : Nat) : Int) - 256

/-- One iteration (row `i`) of the candidate loop of the desktop
`computer_play`.  The text is that of the firmware; the variable
`char temp` holds the byte `interim_xor[i]` as a signed value, and
`candidate[i]=temp` stores it back as a byte. -/
def candidate_row_desktop (numsticks : List Nat) (rows x bitmap : Nat) (e : CandState)
    (i : Nat) : CandState :=
  if bitmap &&& (1 <<< i) ≠ 0 then
    let temp : Int := schar ((interim_xor numsticks rows x).getD i 0)
    let u0 := if temp = 1 then e.unityheaps + 1 else e.unityheaps
    let so := scan_others numsticks rows i u0
    let u := so.1
    if temp ≤ 1 ∧ so.2 = 0 then
      if u &&& 1 ≠ 0 then
        { unityheaps := u
          quality := e.quality.set i (e.quality.getD i 0 + 10)
          candidate := e.candidate.set i (some (temp % 256).toNat) }
      else if temp = 1 then
        { unityheaps := u
          quality := e.quality.set i (e.quality.getD i 0 + 5)
          candidate := e.candidate.set i (some 0) }
      else
        if temp = 0 then
          if numsticks.getD i 0 > 1 then
            { unityheaps := u
              quality := e.quality.set i (e.quality.getD i 0 + 9)
              candidate := e.candidate.set i (some 1) }
          else
            { unityheaps := u, quality := e.quality, candidate := e.candidate }
        else
          { unityheaps := u
            quality := e.quality.set i (e.quality.getD i 0 + 1)
            candidate := e.candidate.set i (some (temp % 256).toNat) }
    else
      { unityheaps := u
        quality := e.quality.set i (e.quality.getD i 0 + 9)
        candidate := e.candidate.set i (some (temp % 256).toNat) }
  else e

/-- The candidate loop of the desktop `computer_play`. -/
def candidate_loop_desktop (numsticks : List Nat) (rows x bitmap : Nat) : CandState :=
  ((List.range rows).reverse).foldl (candidate_row_desktop numsticks rows x bitmap)
    { unityheaps := 0
      quality := List.replicate MAXROWS 0
      candidate := List.replicate MAXROWS none }

/-- Function `computer_play` of the desktop variant: no weakening, the level
is not read.  The argument `cand0` is the indeterminate content of the
uninitialised local array `candidate` on entry. -/
def computer_play_desktop (g : Game) (cand0 : List Nat) : Game :=
  let x := nim_x g.numsticks g.rows
  if x > 0 then
    let bitmap := playable_rows_bitmap g.numsticks g.rows x
    if count_ones bitmap ≥ 1 then
      let e := candidate_loop_desktop g.numsticks g.rows x bitmap
      let p := find_peak e.quality g.rows (0, 0)
      { g with
        numsticks := g.numsticks.set p.2 (read_candidate (e.candidate.getD p.2 none) cand0 p.2)
        current_selection := 0 }
    else
      { g with numsticks := play_any g.numsticks g.rows, current_selection := 0 }
  else
    { g with numsticks := play_any g.numsticks g.rows, current_selection := 0 }

/-- One pass through the body of `while(1)` in the desktop `main`:
`ret=user_play(); if (ret==9) computer_play();`. -/
def main_step_desktop (g : Game) (selection : Int) (cand0 : List Nat) : Game :=
  let u := user_play_desktop g selection
  if u.2 = 9 then computer_play_desktop u.1 cand0 else u.1

/-! ## The button debounce of fast_tick -/

/-- Constant `UNPRESSED` (`#define UNPRESSED 0`). -/
def UNPRESSED : Nat := 0

/-- Constant `FIRST_PRESS` (`#define FIRST_PRESS 1`). -/
def FIRST_PRESS : Nat := 1

/-- Constant `PRESS_ACTIONED` (`#define PRESS_ACTIONED 2`). -/
def PRESS_ACTIONED : Nat := 2

/-- Constant `DEBOUNCE_TICK_PERIOD` (`#define DEBOUNCE_TICK_PERIOD 60`). -/
def DEBOUNCE_TICK_PERIOD : Nat := 60

/-- Constant `RELEASE_TICK_PERIOD` (`#define RELEASE_TICK_PERIOD 60`). -/
def RELEASE_TICK_PERIOD : Nat := 60

/-- The file-scope variables of the button handling: `button_status[NUM_BUTTONS]`,
`do_all_button_inhibit`, `press_ticks` (an `unsigned int`) and `command_press`. -/
structure Buttons where
  button_status : List Nat
  do_all_button_inhibit : Nat
  press_ticks : Nat
  command_press : Nat
  deriving DecidableEq

/-- The loop `for (i=0; i<NUM_BUTTONS; i++)` of `fast_tick` that looks for a
button newly pressed: returns `(pressed, already_recorded_press)`.  The pin
value `DIGITAL_IO_GetInput(button_handle[i])` is `pins i`. -/
def scan_buttons (button_status : List Nat) (pins : Nat → Nat) : Nat × Nat :=
  (List.range NUM_BUTTONS).foldl
    (fun (acc : Nat × Nat) i =>
      if button_status.getD i 0 = UNPRESSED then
        if pins i ≠ 1 then (i + 1, acc.2) else acc
      else (acc.1, i + 1)) (0, 0)

/-- The button handling of `fast_tick`, for the pin values `pins` and the
value `playing` of the variable of `main` at the tick. -/
def fast_tick_buttons (b : Buttons) (pins : Nat → Nat) (playing : Nat) : Buttons :=
  if b.do_all_button_inhibit = 0 then
    let sc := scan_buttons b.button_status pins
    let pressed := sc.1
    let already_recorded_press := sc.2
    let command_press :=
      if b.button_status.getD (NUM_BUTTONS - 1) 0 ≠ UNPRESSED then
        if pressed > 0 ∧ pressed < NUM_BUTTONS then
          if playing ≠ 0 then pressed else b.command_press
        else b.command_press
      else b.command_press
    if already_recorded_press = 0 ∧ pressed > 0 then
      { b with
        button_status := b.button_status.set (pressed - 1) FIRST_PRESS
        press_ticks := 0
        command_press := command_press }
    else if already_recorded_press > 0 then
      let press_ticks := (b.press_ticks + 1) % 4294967296
      if press_ticks < DEBOUNCE_TICK_PERIOD then
        { b with press_ticks := press_ticks, command_press := command_press }
      else
        if pins (already_recorded_press - 1) ≠ 1 then
          { b with press_ticks := press_ticks, command_press := command_press }
        else
          { b with
            button_status := b.button_status.set (already_recorded_press - 1) UNPRESSED
            press_ticks := 0
            do_all_button_inhibit := 1
            command_press := command_press }
    else { b with command_press := command_press }
  else
    let press_ticks := (b.press_ticks + 1) % 4294967296
    if press_ticks < RELEASE_TICK_PERIOD then { b with press_ticks := press_ticks }
    else { b with do_all_button_inhibit := 0, press_ticks := 0 }

/-- The loop `for (i=0; i<NUM_BUTTONS; i++)` of `user_play`, from index `i`
with `n` entries left: the first entry found in state `FIRST_PRESS` is marked
`PRESS_ACTIONED` (and the loop left). -/
def mark_actioned_loop : Nat → Nat → List Nat → List Nat
  | 0, _, status => status
  | n + 1, i, status =>
    if status.getD i 0 = FIRST_PRESS then status.set i PRESS_ACTIONED
    else mark_actioned_loop n (i + 1) status

/-- The write of `user_play` to `button_status`: one run of its loop over the
buttons. -/
def user_play_mark (b : Buttons) : Buttons :=
  { b with button_status := mark_actioned_loop NUM_BUTTONS 0 b.button_status }

/-- The states of the button handling reached from the initial state of
`main` (all entries `UNPRESSED`) by ticks, with any pin values, runs of the
button loop of `user_play`, and the reset `command_press=0` of `main`. -/
inductive ButtonsReachable : Buttons → Prop where
  | init : ButtonsReachable
      { button_status := List.replicate NUM_BUTTONS UNPRESSED
        do_all_button_inhibit := 0, press_ticks := 0, command_press := 0 }
  | tick (b : Buttons) (pins : Nat → Nat) (playing : Nat) : ButtonsReachable b →
      ButtonsReachable (fast_tick_buttons b pins playing)
  | mark (b : Buttons) : ButtonsReachable b → ButtonsReachable (user_play_mark b)
  | clear (b : Buttons) : ButtonsReachable b → ButtonsReachable { b with command_press := 0 }

/-- The number of entries of `button_status` different from `UNPRESSED`. -/
def registered_count (b : Buttons) : Nat :=
  b.button_status.countP (fun s => decide (s ≠ UNPRESSED))

/-! ## The arrays of computer_play on return -/

/-- The local arrays `quality` and `candidate` of `computer_play` when the
function returns: `quality` is zeroed on entry and `candidate` is unassigned,
and only the branch `num_playable_rows>=1` of `if (x>0)` writes to them (the
candidate loop, then at levels 1 and 2 the weakening loop). -/
def final_tables (g : Game) : List Nat × List (Option Nat) :=
  let x := nim_x g.numsticks g.rows
  if x > 0 then
    let bitmap := playable_rows_bitmap g.numsticks g.rows x
    if count_ones bitmap ≥ 1 then
      let e := candidate_loop g.numsticks g.rows x bitmap
      let p := find_peak e.quality g.rows (0, 0)
      if g.level = 1 ∨ g.level = 2 then
        let w := weaken g.numsticks g.rows p.1 (e.quality, e.candidate, g.randreg)
        (w.1, w.2.1)
      else (e.quality, e.candidate)
    else (List.replicate MAXROWS 0, List.replicate MAXROWS none)
  else (List.replicate MAXROWS 0, List.replicate MAXROWS none)

/-! # Lemmas -/

/-! ## Only the active rows matter -/

theorem getD_take_lt (ns : List Nat) {i R : Nat} (h : i < R) :
    (ns.take R).getD i 0 = ns.getD i 0 := by
  simp [List.getElem?_take_of_lt h]

theorem foldl_range_congr {α : Type} (f g : α → Nat → α) (a : α) (R : Nat)
    (H : ∀ b : α, ∀ i, i < R → f b i = g b i) :
    (List.range R).foldl f a = (List.range R).foldl g a :=
  List.foldl_ext f g a (fun b i hi => H b i (List.mem_range.mp hi))

theorem nim_x_take (ns : List Nat) {R : Nat} (hR : 0 < R) :
    nim_x (ns.take R) R = nim_x ns R := by
  unfold nim_x
  rw [getD_take_lt ns hR]
  apply List.foldl_ext
  intro a i hi
  have hi2 : i < R := by
    have := List.mem_range'_1.mp hi
    omega
  rw [getD_take_lt ns hi2]

theorem interim_xor_take (ns : List Nat) (R x : Nat) :
    interim_xor (ns.take R) R x = interim_xor ns R x := by
  unfold interim_xor
  apply List.map_congr_left
  intro i hi
  rw [getD_take_lt ns (List.mem_range.mp hi)]

theorem playable_rows_bitmap_take (ns : List Nat) (R x : Nat) :
    playable_rows_bitmap (ns.take R) R x = playable_rows_bitmap ns R x := by
  unfold playable_rows_bitmap
  apply foldl_range_congr
  intro b i hi
  rw [interim_xor_take, getD_take_lt ns hi]

theorem scan_others_take (ns : List Nat) (R i u : Nat) :
    scan_others (ns.take R) R i u = scan_others ns R i u := by
  unfold scan_others
  apply foldl_range_congr
  intro b j hj
  rw [getD_take_lt ns hj]

theorem candidate_row_take (ns : List Nat) (R x bm : Nat) (e : CandState) {i : Nat}
    (hi : i < R) :
    candidate_row (ns.take R) R x bm e i = candidate_row ns R x bm e i := by
  unfold candidate_row
  rw [interim_xor_take, getD_take_lt ns hi]
  simp only [scan_others_take]

theorem candidate_loop_take (ns : List Nat) (R x bm : Nat) :
    candidate_loop (ns.take R) R x bm = candidate_loop ns R x bm := by
  unfold candidate_loop
  apply List.foldl_ext
  intro e i hi
  exact candidate_row_take ns R x bm e (List.mem_range.mp (List.mem_reverse.mp hi))

theorem weaken_take (ns : List Nat) (R pq : Nat) (st : List Nat × List (Option Nat) × Nat) :
    weaken (ns.take R) R pq st = weaken ns R pq st := by
  unfold weaken
  apply foldl_range_congr
  intro b i hi
  unfold weaken_row
  rw [getD_take_lt ns hi]

theorem play_any_loop_take (R : Nat) (n i : Nat) (ns : List Nat) :
    (play_any_loop R n i ns).take R = play_any_loop R n i (ns.take R) := by
  induction n generalizing i with
  | zero => rfl
  | succ n ih =>
    unfold play_any_loop
    by_cases hi : i < R
    · simp only [hi, if_true, getD_take_lt ns hi]
      by_cases hp : ns.getD i 0 > 0
      · simp only [hp, if_true, List.set_take]
      · simp only [hp, if_false]
        exact ih (i + 1)
    · simp only [hi, if_false]

theorem computer_play_take (g : Game) (cand0 : List Nat) (hR : 0 < g.rows) :
    (computer_play g cand0).numsticks.take g.rows
      = (computer_play { g with numsticks := g.numsticks.take g.rows } cand0).numsticks := by
  unfold computer_play pick_move play_any
  simp only [nim_x_take g.numsticks hR, playable_rows_bitmap_take, candidate_loop_take,
    weaken_take]
  split_ifs <;> simp only [List.set_take, play_any_loop_take]

/-! ## Nim-sum -/

theorem foldl_xor_start (a : Nat) (l : List Nat) :
    l.foldl (fun u v => u ^^^ v) a = a ^^^ l.foldl (fun u v => u ^^^ v) 0 := by
  induction l generalizing a with
  | nil => simp
  | cons b t ih =>
    simp only [List.foldl_cons, Nat.zero_xor]
    rw [ih (a ^^^ b), ih b, Nat.xor_assoc]

theorem nim_sum_cons (a : Nat) (t : List Nat) : nim_sum (a :: t) = a ^^^ nim_sum t := by
  unfold nim_sum
  simp only [List.foldl_cons, Nat.zero_xor]
  exact foldl_xor_start a t

theorem foldl_getD_range {α : Type} (f : α → Nat → α) (l : List Nat) (a : α) :
    (List.range l.length).foldl (fun acc i => f acc (l.getD i 0)) a = l.foldl f a := by
  induction l using List.reverseRecOn generalizing a with
  | nil => rfl
  | append_singleton t b ih =>
    rw [List.length_append, List.length_singleton, List.range_succ, List.foldl_append,
      List.foldl_append]
    have h1 : (List.range t.length).foldl (fun acc i => f acc ((t ++ [b]).getD i 0)) a
        = (List.range t.length).foldl (fun acc i => f acc (t.getD i 0)) a := by
      apply foldl_range_congr
      intro c i hi
      rw [List.getD_append _ _ _ _ hi]
    rw [h1, ih]
    simp [List.getD_append_right]

theorem nim_x_eq_nim_sum (hs : List Nat) : nim_x hs hs.length = nim_sum hs := by
  cases hs with
  | nil => rfl
  | cons a t =>
    unfold nim_x
    rw [nim_sum_cons]
    simp only [List.length_cons, Nat.add_sub_cancel, List.range'_eq_map_range, List.foldl_map]
    have h1 : (List.range t.length).foldl (fun x i => x ^^^ (a :: t).getD (1 + i) 0)
          ((a :: t).getD 0 0)
        = (List.range t.length).foldl (fun x i => x ^^^ t.getD i 0) a := by
      apply foldl_range_congr
      intro c i _
      rw [Nat.add_comm 1 i]
      rfl
    rw [h1, foldl_getD_range (fun u v => u ^^^ v) t a]
    exact foldl_xor_start a t

theorem nim_sum_set (hs : List Nat) (i v : Nat) (hi : i < hs.length) :
    nim_sum (hs.set i v) = nim_sum hs ^^^ hs.getD i 0 ^^^ v := by
  induction hs generalizing i with
  | nil => simp at hi
  | cons a t ih =>
    cases i with
    | zero =>
      simp only [List.set_cons_zero, nim_sum_cons, List.getD_cons_zero]
      rw [Nat.xor_comm a (nim_sum t), Nat.xor_cancel_right, Nat.xor_comm]
    | succ i =>
      have hi2 : i < t.length := by simpa using hi
      simp only [List.set_cons_succ, nim_sum_cons, List.getD_cons_succ, ih i hi2]
      simp only [Nat.xor_assoc]

theorem exists_playable_aux (hs : List Nat) :
    ∀ a, a < nim_sum hs →
      ∃ i, i < hs.length ∧ a ^^^ nim_sum hs ^^^ hs.getD i 0 < hs.getD i 0 := by
  induction hs with
  | nil => intro a h; simp [nim_sum] at h
  | cons b t ih =>
    intro a h
    rw [nim_sum_cons] at h
    rcases Nat.lt_xor_cases h with h1 | h1
    · refine ⟨0, by simp, ?_⟩
      rw [nim_sum_cons, List.getD_cons_zero]
      have : a ^^^ (b ^^^ nim_sum t) ^^^ b = a ^^^ nim_sum t := by
        rw [Nat.xor_comm b (nim_sum t), ← Nat.xor_assoc, Nat.xor_cancel_right]
      rw [this]; exact h1
    · obtain ⟨i, hi, hlt⟩ := ih (a ^^^ b) h1
      refine ⟨i + 1, by simpa using hi, ?_⟩
      rw [nim_sum_cons, List.getD_cons_succ]
      have : a ^^^ (b ^^^ nim_sum t) ^^^ t.getD i 0 = a ^^^ b ^^^ nim_sum t ^^^ t.getD i 0 := by
        simp only [Nat.xor_assoc]
      rw [this]; exact hlt

/-- A board with non-zero nim-sum has a playable row. -/
theorem exists_playable (hs : List Nat) (h : 0 < nim_sum hs) :
    ∃ i, i < hs.length ∧ nim_sum hs ^^^ hs.getD i 0 < hs.getD i 0 := by
  obtain ⟨i, hi, hlt⟩ := exists_playable_aux hs 0 h
  exact ⟨i, hi, by simpa using hlt⟩

/-! ## The bitmap of playable rows -/

theorem interim_xor_getD (ns : List Nat) (R x : Nat) {i : Nat} (hi : i < R) :
    (interim_xor ns R x).getD i 0 = x ^^^ ns.getD i 0 := by
  simp [interim_xor, List.getElem?_map, List.getElem?_range hi]

theorem bit_test_iff (bm i : Nat) : bm &&& (1 <<< i) ≠ 0 ↔ bm.testBit i = true := by
  rw [Nat.one_shiftLeft]
  constructor
  · intro h
    obtain ⟨j, hj⟩ := Nat.ne_zero_implies_bit_true h
    rw [Nat.testBit_and, Nat.testBit_two_pow] at hj
    simp only [Bool.and_eq_true, decide_eq_true_eq] at hj
    rw [hj.2]; exact hj.1
  · intro h h0
    have : (bm &&& 2 ^ i).testBit i = true := by
      rw [Nat.testBit_and, h, Nat.testBit_two_pow_self]; rfl
    rw [h0] at this
    simp at this

theorem bitmap_upto (ns : List Nat) (R x : Nat) :
    ∀ k, k ≤ R → k ≤ 8 →
      ((List.range k).foldl
        (fun bm i =>
          if (interim_xor ns R x).getD i 0 < ns.getD i 0
          then (bm ||| (1 <<< i)) % 256 else bm) 0 < 2 ^ k) ∧
      ∀ i, ((List.range k).foldl
        (fun bm i =>
          if (interim_xor ns R x).getD i 0 < ns.getD i 0
          then (bm ||| (1 <<< i)) % 256 else bm) 0).testBit i
        = decide (i < k ∧ x ^^^ ns.getD i 0 < ns.getD i 0) := by
  intro k
  induction k with
  | zero => intro _ _; simp
  | succ k ih =>
    intro hk hk8
    obtain ⟨hlt, hbit⟩ := ih (by omega) (by omega)
    rw [List.range_succ, List.foldl_append]
    simp only [List.foldl_cons, List.foldl_nil]
    rw [interim_xor_getD ns R x (show k < R by omega)]
    generalize List.foldl _ 0 (List.range k) = B at hlt hbit ⊢
    have hpow : 2 ^ k < 2 ^ (k + 1) := Nat.pow_lt_pow_right (by omega) (by omega)
    have h256 : 2 ^ (k + 1) ≤ 256 := by
      have : 2 ^ (k + 1) ≤ 2 ^ 8 := Nat.pow_le_pow_right (by omega) hk8
      simpa using this
    by_cases hp : x ^^^ ns.getD k 0 < ns.getD k 0
    · rw [if_pos hp, Nat.one_shiftLeft]
      have hor : B ||| 2 ^ k < 2 ^ (k + 1) :=
        Nat.or_lt_two_pow (Nat.lt_trans hlt hpow) hpow
      rw [Nat.mod_eq_of_lt (Nat.lt_of_lt_of_le hor h256)]
      refine ⟨hor, fun i => ?_⟩
      rw [Nat.testBit_or, hbit i, Nat.testBit_two_pow, Bool.eq_iff_iff]
      simp only [Bool.or_eq_true, decide_eq_true_eq]
      constructor
      · rintro (⟨h1, h2⟩ | h1)
        · exact ⟨by omega, h2⟩
        · subst h1; exact ⟨by omega, hp⟩
      · rintro ⟨h1, h2⟩
        by_cases hik : k = i
        · exact Or.inr hik
        · exact Or.inl ⟨by omega, h2⟩
    · rw [if_neg hp]
      refine ⟨Nat.lt_trans hlt hpow, fun i => ?_⟩
      rw [hbit i, Bool.eq_iff_iff]
      simp only [decide_eq_true_eq]
      constructor
      · rintro ⟨h1, h2⟩
        exact ⟨by omega, h2⟩
      · rintro ⟨h1, h2⟩
        by_cases hik : i = k
        · subst hik; exact absurd h2 hp
        · exact ⟨by omega, h2⟩

/-- Bit `i` of `playable_rows_bitmap` is set exactly for the playable rows. -/
theorem bitmap_test (ns : List Nat) (R x i : Nat) (hR : R ≤ 8) :
    playable_rows_bitmap ns R x &&& (1 <<< i) ≠ 0
      ↔ (i < R ∧ x ^^^ ns.getD i 0 < ns.getD i 0) := by
  rw [bit_test_iff]
  unfold playable_rows_bitmap
  rw [(bitmap_upto ns R x R (Nat.le_refl R) hR).2 i]
  simp

theorem count_fold_ge (value : Nat) (l : List Nat) :
    ∀ s, s ≤ l.foldl (fun sum i => if value &&& (1 <<< i) ≠ 0 then sum + 1 else sum) s ∧
      ((∃ i ∈ l, value &&& (1 <<< i) ≠ 0) →
        s + 1 ≤ l.foldl (fun sum i => if value &&& (1 <<< i) ≠ 0 then sum + 1 else sum) s) := by
  induction l with
  | nil => intro s; exact ⟨Nat.le_refl s, fun h => by obtain ⟨i, hi, _⟩ := h; simp at hi⟩
  | cons a t ih =>
    intro s
    simp only [List.foldl_cons]
    by_cases ha : value &&& (1 <<< a) ≠ 0
    · rw [if_pos ha]
      have := (ih (s + 1)).1
      refine ⟨by omega, fun _ => this⟩
    · rw [if_neg ha]
      refine ⟨(ih s).1, ?_⟩
      rintro ⟨i, hi, hb⟩
      rcases List.mem_cons.mp hi with rfl | hi2
      · exact absurd hb ha
      · exact (ih s).2 ⟨i, hi2, hb⟩

theorem count_ones_pos (value i : Nat) (hi : i < 8) (h : value &&& (1 <<< i) ≠ 0) :
    count_ones value ≥ 1 := by
  unfold count_ones
  have := (count_fold_ge value (List.range 8) 0).2 ⟨i, List.mem_range.mpr hi, h⟩
  omega

/-! ## The candidate loop -/

theorem getD_set_self {α : Type} (l : List α) (i : Nat) (v d : α) (h : i < l.length) :
    (l.set i v).getD i d = v := by
  simp [List.getElem?_set_self h]

theorem getD_set_ne {α : Type} (l : List α) {i j : Nat} (v d : α) (h : i ≠ j) :
    (l.set i v).getD j d = l.getD j d := by
  simp [List.getElem?_set_ne h]

theorem scan_fold_flag (ns : List Nat) (i : Nat) (l : List Nat) :
    ∀ acc : Nat × Nat,
      (acc.2 = 1 ∨ ∃ j ∈ l, j ≠ i ∧ 1 < ns.getD j 0) →
      (l.foldl
        (fun (acc : Nat × Nat) j =>
          if j ≠ i then
            if ns.getD j 0 = 1 then (acc.1 + 1, acc.2)
            else if ns.getD j 0 > 1 then (acc.1, 1)
            else acc
          else acc) acc).2 = 1 := by
  induction l with
  | nil =>
    intro acc h
    rcases h with h | ⟨j, hj, _⟩
    · exact h
    · simp at hj
  | cons a t ih =>
    intro acc h
    rw [List.foldl_cons]
    apply ih
    rcases h with h | ⟨j, hj, hne, hbig⟩
    · left
      split_ifs <;> first | exact h | rfl
    · rcases List.mem_cons.mp hj with rfl | hj2
      · left
        rw [if_pos hne, if_neg (by omega), if_pos hbig]
      · right
        exact ⟨j, hj2, hne, hbig⟩

/-- When another active row is larger than one, the inner scan raises
`unitychecknotneeded`. -/
theorem scan_others_flag (ns : List Nat) (R i u : Nat)
    (h : ∃ j, j < R ∧ j ≠ i ∧ 1 < ns.getD j 0) : (scan_others ns R i u).2 = 1 := by
  unfold scan_others
  apply scan_fold_flag
  right
  obtain ⟨j, hj, hne, hbig⟩ := h
  exact ⟨j, List.mem_range.mpr hj, hne, hbig⟩

theorem candidate_row_skip (ns : List Nat) (R x bm : Nat) (e : CandState) (i : Nat)
    (h : ¬ (bm &&& (1 <<< i) ≠ 0)) : candidate_row ns R x bm e i = e := by
  unfold candidate_row
  rw [if_neg h]

/-- The shape of one iteration on a playable row, with the scan result and
the target abstracted. -/
theorem candidate_row_cases (ns : List Nat) (R x bm : Nat) (e : CandState) (i : Nat)
    (P : CandState → Prop)
    (h0 : P e)
    (h1 : ∀ u dq v, 0 < dq → P { unityheaps := u
                                 quality := e.quality.set i (e.quality.getD i 0 + dq)
                                 candidate := e.candidate.set i (some v) })
    (h2 : ∀ u, P { unityheaps := u, quality := e.quality, candidate := e.candidate }) :
    P (candidate_row ns R x bm e i) := by
  unfold candidate_row
  by_cases hb : bm &&& (1 <<< i) ≠ 0
  · rw [if_pos hb]
    dsimp only
    generalize (scan_others ns R i
      (if (interim_xor ns R x).getD i 0 = 1 then e.unityheaps + 1 else e.unityheaps)) = so
    generalize (interim_xor ns R x).getD i 0 = temp
    split_ifs
    all_goals first
      | exact h2 _
      | exact h1 _ _ _ (by omega)
  · rw [if_neg hb]; exact h0

theorem candidate_row_frame (ns : List Nat) (R x bm : Nat) (e : CandState) {i j : Nat}
    (h : i ≠ j) :
    (candidate_row ns R x bm e i).quality.getD j 0 = e.quality.getD j 0 ∧
    (candidate_row ns R x bm e i).candidate.getD j none = e.candidate.getD j none := by
  apply candidate_row_cases ns R x bm e i
    (fun e1 => e1.quality.getD j 0 = e.quality.getD j 0 ∧
      e1.candidate.getD j none = e.candidate.getD j none)
  · exact ⟨rfl, rfl⟩
  · intro u dq v _
    exact ⟨getD_set_ne _ _ _ h, getD_set_ne _ _ _ h⟩
  · intro u; exact ⟨rfl, rfl⟩

theorem candidate_row_length (ns : List Nat) (R x bm : Nat) (e : CandState) (i : Nat) :
    (candidate_row ns R x bm e i).quality.length = e.quality.length ∧
    (candidate_row ns R x bm e i).candidate.length = e.candidate.length := by
  apply candidate_row_cases ns R x bm e i
    (fun e1 => e1.quality.length = e.quality.length ∧
      e1.candidate.length = e.candidate.length)
  · exact ⟨rfl, rfl⟩
  · intro u dq v _
    exact ⟨List.length_set _ _ _, List.length_set _ _ _⟩
  · intro u; exact ⟨rfl, rfl⟩

/-- Row `i` either keeps its quality and slot, or gains quality and has its
slot assigned. -/
theorem candidate_row_assign (ns : List Nat) (R x bm : Nat) (e : CandState) (i : Nat)
    (hq : i < e.quality.length) (hc : i < e.candidate.length) :
    ((candidate_row ns R x bm e i).quality.getD i 0 = e.quality.getD i 0 ∧
      (candidate_row ns R x bm e i).candidate.getD i none = e.candidate.getD i none) ∨
    (e.quality.getD i 0 < (candidate_row ns R x bm e i).quality.getD i 0 ∧
      ∃ v, (candidate_row ns R x bm e i).candidate.getD i none = some v) := by
  apply candidate_row_cases ns R x bm e i
    (fun e1 => (e1.quality.getD i 0 = e.quality.getD i 0 ∧
        e1.candidate.getD i none = e.candidate.getD i none) ∨
      (e.quality.getD i 0 < e1.quality.getD i 0 ∧ ∃ v, e1.candidate.getD i none = some v))
  · exact Or.inl ⟨rfl, rfl⟩
  · intro u dq v hdq
    right
    rw [getD_set_self _ _ _ _ hq, getD_set_self _ _ _ _ hc]
    exact ⟨by omega, v, rfl⟩
  · intro u; exact Or.inl ⟨rfl, rfl⟩

/-- A playable row with another row larger than one gets quality 9 and the
nim-sum target as candidate. -/
theorem candidate_row_big (ns : List Nat) (R x bm : Nat) (e : CandState) (i : Nat)
    (hi : i < R) (hq : i < e.quality.length) (hc : i < e.candidate.length)
    (hbit : bm &&& (1 <<< i) ≠ 0)
    (hbig : ∃ j, j < R ∧ j ≠ i ∧ 1 < ns.getD j 0) :
    (candidate_row ns R x bm e i).quality.getD i 0 = e.quality.getD i 0 + 9 ∧
    (candidate_row ns R x bm e i).candidate.getD i none = some (x ^^^ ns.getD i 0) := by
  unfold candidate_row
  rw [if_pos hbit]
  have hflag : ∀ u, ¬ ((interim_xor ns R x).getD i 0 ≤ 1 ∧ (scan_others ns R i u).2 = 0) := by
    intro u h
    have := scan_others_flag ns R i u hbig
    omega
  dsimp only
  rw [if_neg (hflag _), interim_xor_getD ns R x hi]
  exact ⟨getD_set_self _ _ _ _ hq, getD_set_self _ _ _ _ hc⟩

/-- Invariant of the candidate loop over a list `l` of distinct rows: rows
outside `l` are untouched, and every row of `l` ends with what its own
iteration gave it. -/
theorem candidate_fold_spec (ns : List Nat) (R x bm : Nat)
    (Q : Nat → Nat → Option Nat → Prop)
    (hQ : ∀ (e : CandState) (i : Nat), i < R → i < e.quality.length →
      i < e.candidate.length → e.quality.getD i 0 = 0 → e.candidate.getD i none = none →
      Q i ((candidate_row ns R x bm e i).quality.getD i 0)
        ((candidate_row ns R x bm e i).candidate.getD i none)) :
    ∀ l : List Nat, l.Nodup → (∀ i ∈ l, i < R) →
      ∀ e : CandState, R ≤ e.quality.length → R ≤ e.candidate.length →
        (∀ i ∈ l, e.quality.getD i 0 = 0 ∧ e.candidate.getD i none = none) →
        (∀ j, j ∉ l →
          (l.foldl (candidate_row ns R x bm) e).quality.getD j 0 = e.quality.getD j 0 ∧
          (l.foldl (candidate_row ns R x bm) e).candidate.getD j none
            = e.candidate.getD j none) ∧
        (∀ i ∈ l, Q i ((l.foldl (candidate_row ns R x bm) e).quality.getD i 0)
          ((l.foldl (candidate_row ns R x bm) e).candidate.getD i none)) := by
  intro l
  induction l with
  | nil =>
    intro _ _ e _ _ _
    exact ⟨fun j _ => ⟨rfl, rfl⟩, fun i hi => by simp at hi⟩
  | cons a t ih =>
    intro hnd hlt e hq hc hzero
    have hat : a ∉ t := (List.nodup_cons.mp hnd).1
    have hndt : t.Nodup := (List.nodup_cons.mp hnd).2
    have haR : a < R := hlt a (List.mem_cons_self a t)
    have hlen := candidate_row_length ns R x bm e a
    have hzero1 : ∀ i ∈ t, (candidate_row ns R x bm e a).quality.getD i 0 = 0 ∧
        (candidate_row ns R x bm e a).candidate.getD i none = none := by
      intro i hi
      have hne : a ≠ i := fun h => hat (h ▸ hi)
      have hf := candidate_row_frame ns R x bm e hne
      have hz := hzero i (List.mem_cons_of_mem a hi)
      exact ⟨hf.1.trans hz.1, hf.2.trans hz.2⟩
    obtain ⟨hframe, hrows⟩ := ih hndt (fun i hi => hlt i (List.mem_cons_of_mem a hi))
      (candidate_row ns R x bm e a) (by omega) (by omega) hzero1
    rw [List.foldl_cons]
    constructor
    · intro j hj
      have hja : a ≠ j := fun h => hj (h ▸ List.mem_cons_self a t)
      have hjt : j ∉ t := fun h => hj (List.mem_cons_of_mem a h)
      have hf := candidate_row_frame ns R x bm e hja
      exact ⟨(hframe j hjt).1.trans hf.1, (hframe j hjt).2.trans hf.2⟩
    · intro i hi
      rcases List.mem_cons.mp hi with rfl | hit
      · rw [(hframe i hat).1, (hframe i hat).2]
        have hz := hzero i (List.mem_cons_self i t)
        exact hQ e i haR (by omega) (by omega) hz.1 hz.2
      · exact hrows i hit

/-- The candidate loop, row by row: what `Q` says of one iteration on a fresh
row holds of every active row at the end. -/
theorem candidate_loop_spec (ns : List Nat) (R x bm : Nat) (hR : R ≤ MAXROWS)
    (Q : Nat → Nat → Option Nat → Prop)
    (hQ : ∀ (e : CandState) (i : Nat), i < R → i < e.quality.length →
      i < e.candidate.length → e.quality.getD i 0 = 0 → e.candidate.getD i none = none →
      Q i ((candidate_row ns R x bm e i).quality.getD i 0)
        ((candidate_row ns R x bm e i).candidate.getD i none)) :
    ∀ i, i < R → Q i ((candidate_loop ns R x bm).quality.getD i 0)
      ((candidate_loop ns R x bm).candidate.getD i none) := by
  intro i hi
  unfold candidate_loop
  have hzero : ∀ j, (List.replicate MAXROWS 0).getD j 0 = 0 ∧
      (List.replicate MAXROWS (none : Option Nat)).getD j none = none := by
    intro j
    simp [List.getElem?_replicate]
    constructor <;> split_ifs <;> rfl
  exact (candidate_fold_spec ns R x bm Q hQ (List.range R).reverse
    (List.nodup_reverse.mpr (List.nodup_range R))
    (fun j hj => List.mem_range.mp (List.mem_reverse.mp hj))
    { unityheaps := 0, quality := List.replicate MAXROWS 0,
      candidate := List.replicate MAXROWS none }
    (by simpa using hR) (by simpa using hR) (fun j _ => hzero j)).2 i
    (List.mem_reverse.mpr (List.mem_range.mpr hi))

/-- A row of positive quality has an assigned candidate. -/
theorem candidate_loop_assigned (ns : List Nat) (R x bm : Nat) (hR : R ≤ MAXROWS)
    (i : Nat) (hi : i < R) (hpos : 0 < (candidate_loop ns R x bm).quality.getD i 0) :
    ∃ v, (candidate_loop ns R x bm).candidate.getD i none = some v := by
  have := candidate_loop_spec ns R x bm hR (fun _ q c => 0 < q → ∃ v, c = some v)
    (by
      intro e i _ hq hc hz _ hp
      rcases candidate_row_assign ns R x bm e i hq hc with h | h
      · omega
      · exact h.2) i hi
  exact this hpos

/-- A row whose bit is not set in the bitmap keeps quality 0. -/
theorem candidate_loop_unplayable (ns : List Nat) (R x bm : Nat) (hR : R ≤ MAXROWS)
    (i : Nat) (hi : i < R) (hbit : ¬ (bm &&& (1 <<< i) ≠ 0)) :
    (candidate_loop ns R x bm).quality.getD i 0 = 0 := by
  have := candidate_loop_spec ns R x bm hR
    (fun i q _ => ¬ (bm &&& (1 <<< i) ≠ 0) → q = 0)
    (by
      intro e i _ _ _ hz _ hb
      rw [candidate_row_skip ns R x bm e i hb]; exact hz) i hi
  exact this hbit

/-- A playable row facing another row larger than one ends with quality 9 and
the nim-sum target as candidate. -/
theorem candidate_loop_big (ns : List Nat) (R x bm : Nat) (hR : R ≤ MAXROWS)
    (i : Nat) (hi : i < R) (hbit : bm &&& (1 <<< i) ≠ 0)
    (hbig : ∃ j, j < R ∧ j ≠ i ∧ 1 < ns.getD j 0) :
    (candidate_loop ns R x bm).quality.getD i 0 = 9 ∧
    (candidate_loop ns R x bm).candidate.getD i none = some (x ^^^ ns.getD i 0) := by
  have := candidate_loop_spec ns R x bm hR
    (fun i q c => bm &&& (1 <<< i) ≠ 0 → (∃ j, j < R ∧ j ≠ i ∧ 1 < ns.getD j 0) →
      q = 9 ∧ c = some (x ^^^ ns.getD i 0))
    (by
      intro e i hi hq hc hz _ hb hbg
      have h := candidate_row_big ns R x bm e i hi hq hc hb hbg
      rw [hz] at h
      exact ⟨by omega, h.2⟩) i hi
  exact this hbit hbig

/-! ## The peak search -/

theorem find_peak_spec (q : List Nat) :
    ∀ k,
      (∀ i, i < k → q.getD i 0 ≤ (find_peak q k (0, 0)).1) ∧
      (∀ i, (find_peak q k (0, 0)).2 < i → i < k →
        q.getD i 0 < (find_peak q k (0, 0)).1) ∧
      (0 < k → (find_peak q k (0, 0)).2 < k ∧
        (find_peak q k (0, 0)).1 = q.getD (find_peak q k (0, 0)).2 0) ∧
      (k = 0 → find_peak q k (0, 0) = (0, 0)) := by
  intro k
  induction k with
  | zero =>
    refine ⟨fun i hi => by omega, fun i _ hi => by omega, fun h => by omega, fun _ => rfl⟩
  | succ k ih =>
    obtain ⟨h1, h2, h3, h4⟩ := ih
    have hstep : find_peak q (k + 1) (0, 0)
        = if q.getD k 0 ≥ (find_peak q k (0, 0)).1 then (q.getD k 0, k)
          else find_peak q k (0, 0) := by
      unfold find_peak
      rw [List.range_succ, List.foldl_append]
      rfl
    rw [hstep]
    by_cases hge : q.getD k 0 ≥ (find_peak q k (0, 0)).1
    · rw [if_pos hge]
      refine ⟨?_, ?_, ?_, ?_⟩
      · intro i hi
        by_cases hik : i = k
        · subst hik; exact Nat.le_refl _
        · have := h1 i (by omega)
          exact Nat.le_trans this hge
      · intro i hi1 hi2
        simp only at hi1
        omega
      · intro _
        exact ⟨by simp, rfl⟩
      · intro h; omega
    · rw [if_neg hge]
      have hk : 0 < k := by
        rcases Nat.eq_zero_or_pos k with h0 | h0
        · have := h4 h0
          rw [this] at hge
          simp at hge
        · exact h0
      refine ⟨?_, ?_, ?_, ?_⟩
      · intro i hi
        by_cases hik : i = k
        · subst hik; omega
        · exact h1 i (by omega)
      · intro i hi1 hi2
        by_cases hik : i = k
        · subst hik; omega
        · exact h2 i hi1 (by omega)
      · intro _
        exact ⟨by have := (h3 hk).1; omega, (h3 hk).2⟩
      · intro h; omega

/-! ## Strict levels -/

theorem computer_play_rows (g : Game) (c : List Nat) : (computer_play g c).rows = g.rows := by
  unfold computer_play
  dsimp only
  split_ifs <;> rfl

theorem strict_numsticks (g : Game) (c : List Nat) (h1 : g.level ≠ 1) (h2 : g.level ≠ 2) :
    (computer_play g c).numsticks = strict_play g.numsticks g.rows c := by
  unfold strict_play computer_play pick_move
  simp only [h1, h2, or_self, if_false]
  simp only [show ¬ ((3 : Nat) = 1 ∨ (3 : Nat) = 2) by decide, if_false]
  split_ifs <;> rfl

/-- At a strict level the heap vector after `computer_play` is `strict_play`
of the heap vector before. -/
theorem heaps_computer_play (g : Game) (c : List Nat) (h1 : g.level ≠ 1) (h2 : g.level ≠ 2)
    (hR : 0 < g.rows) :
    heaps (computer_play g c) = strict_play (heaps g) g.rows c := by
  unfold heaps
  rw [computer_play_rows, computer_play_take g c hR]
  exact strict_numsticks { g with numsticks := g.numsticks.take g.rows } c h1 h2

/-- With a playable row, the strict move is the store of the peak row's
candidate. -/
theorem strict_play_pick (ns : List Nat) (R : Nat) (c : List Nat) (hR : R ≤ MAXROWS)
    (hx : 0 < nim_x ns R) (i : Nat) (hi : i < R)
    (hplay : nim_x ns R ^^^ ns.getD i 0 < ns.getD i 0) :
    strict_play ns R c
      = ns.set (find_peak (candidate_loop ns R (nim_x ns R)
            (playable_rows_bitmap ns R (nim_x ns R))).quality R (0, 0)).2
          (read_candidate
            ((candidate_loop ns R (nim_x ns R)
              (playable_rows_bitmap ns R (nim_x ns R))).candidate.getD
              (find_peak (candidate_loop ns R (nim_x ns R)
                (playable_rows_bitmap ns R (nim_x ns R))).quality R (0, 0)).2 none) c
            (find_peak (candidate_loop ns R (nim_x ns R)
              (playable_rows_bitmap ns R (nim_x ns R))).quality R (0, 0)).2) := by
  have hR8 : R ≤ 8 := by unfold MAXROWS at hR; omega
  have hbit := (bitmap_test ns R (nim_x ns R) i hR8).mpr ⟨hi, hplay⟩
  have hcount := count_ones_pos _ i (by omega) hbit
  unfold strict_play computer_play pick_move
  dsimp only
  rw [if_pos hx, if_pos hcount, if_neg (by decide)]

/-- The peak search returns the highest-indexed row of highest quality. -/
theorem find_peak_eq (q : List Nat) (R i : Nat) (hi : i < R)
    (hmax : ∀ j, j < R → q.getD j 0 ≤ q.getD i 0)
    (hlast : ∀ j, i < j → j < R → q.getD j 0 < q.getD i 0) :
    find_peak q R (0, 0) = (q.getD i 0, i) := by
  obtain ⟨h1, h2, h3, _⟩ := find_peak_spec q R
  obtain ⟨hp, hm⟩ := h3 (by omega)
  have hle := h1 i hi
  have hge := hmax _ hp
  have hpi : (find_peak q R (0, 0)).2 = i := by
    rcases Nat.lt_trichotomy (find_peak q R (0, 0)).2 i with h | h | h
    · have := h2 i h hi; omega
    · exact h
    · have := hlast _ h hp; omega
  apply Prod.ext
  · simp only; rw [hm, hpi]
  · exact hpi

theorem getD_mem_of_lt (l : List Nat) (j : Nat) (h : j < l.length) : l.getD j 0 ∈ l := by
  rw [List.getD_eq_getElem _ _ h]
  exact List.getElem_mem h

/-- Boards with two or more heaps larger than one: the strict move takes a
playable row to its nim-sum target. -/
theorem strict_play_many_big (hs : List Nat) (c : List Nat) (hR : hs.length ≤ MAXROWS)
    (hx : nim_sum hs ≠ 0)
    (hbig : ∀ i, i < hs.length → ∃ j, j < hs.length ∧ j ≠ i ∧ 1 < hs.getD j 0) :
    ∃ p, p < hs.length ∧ nim_sum hs ^^^ hs.getD p 0 < hs.getD p 0 ∧
      strict_play hs hs.length c = hs.set p (nim_sum hs ^^^ hs.getD p 0) := by
  have hR8 : hs.length ≤ 8 := by unfold MAXROWS at hR; omega
  have hxe := nim_x_eq_nim_sum hs
  obtain ⟨i0, hi0, hplay0⟩ := exists_playable hs (Nat.pos_of_ne_zero hx)
  have hpick := strict_play_pick hs hs.length c hR (by rw [hxe]; exact Nat.pos_of_ne_zero hx)
    i0 hi0 (by rw [hxe]; exact hplay0)
  rw [hxe] at hpick
  obtain ⟨h1, _, h3, _⟩ := find_peak_spec
    (candidate_loop hs hs.length (nim_sum hs)
      (playable_rows_bitmap hs hs.length (nim_sum hs))).quality hs.length
  obtain ⟨hp, hm⟩ := h3 (by omega)
  have hbit0 := (bitmap_test hs hs.length (nim_sum hs) i0 hR8).mpr ⟨hi0, hplay0⟩
  have hq0 := (candidate_loop_big hs hs.length (nim_sum hs) _ hR i0 hi0 hbit0 (hbig i0 hi0)).1
  have hle := h1 i0 hi0
  have hbitp : playable_rows_bitmap hs hs.length (nim_sum hs) &&&
      (1 <<< (find_peak (candidate_loop hs hs.length (nim_sum hs)
        (playable_rows_bitmap hs hs.length (nim_sum hs))).quality hs.length (0, 0)).2) ≠ 0 := by
    intro h0
    have := candidate_loop_unplayable hs hs.length (nim_sum hs) _ hR _ hp
      (by intro hne; exact hne h0)
    omega
  have hcp := (candidate_loop_big hs hs.length (nim_sum hs) _ hR _ hp hbitp (hbig _ hp)).2
  refine ⟨_, hp, ((bitmap_test hs hs.length (nim_sum hs) _ hR8).mp hbitp).2, ?_⟩
  rw [hpick, hcp]
  rfl

/-- After that move the nim-sum is zero and a heap larger than one remains. -/
theorem losing_after_target (hs : List Nat) (p : Nat) (hp : p < hs.length)
    (hbig : ∃ j, j < hs.length ∧ j ≠ p ∧ 1 < hs.getD j 0) :
    losing (hs.set p (nim_sum hs ^^^ hs.getD p 0)) = true := by
  obtain ⟨j, hj, hne, hb⟩ := hbig
  have hsum : nim_sum (hs.set p (nim_sum hs ^^^ hs.getD p 0)) = 0 := by
    rw [nim_sum_set hs p _ hp, Nat.xor_self]
  have hnon : has_nonunity (hs.set p (nim_sum hs ^^^ hs.getD p 0)) = true := by
    unfold has_nonunity
    rw [List.any_eq_true]
    refine ⟨hs.getD j 0, ?_, by simpa using hb⟩
    have : (hs.set p (nim_sum hs ^^^ hs.getD p 0)).getD j 0 = hs.getD j 0 :=
      getD_set_ne _ _ _ (Ne.symm hne)
    rw [← this]
    exact getD_mem_of_lt _ j (by simpa using hj)
  unfold losing
  rw [hnon, hsum]
  rfl

theorem exists_big_of_count (t : List Nat) (h : 0 < big_count t) :
    ∃ k, k < t.length ∧ 1 < t.getD k 0 := by
  unfold big_count at h
  obtain ⟨b, hb, hb1⟩ := List.countP_pos_iff.mp h
  obtain ⟨k, hk, hkb⟩ := List.mem_iff_getElem.mp hb
  refine ⟨k, hk, ?_⟩
  rw [List.getD_eq_getElem _ _ hk, hkb]
  simpa using hb1

/-- With two or more heaps larger than one, every row faces another row
larger than one. -/
theorem many_big (hs : List Nat) (h : 1 < big_count hs) :
    ∀ i, i < hs.length → ∃ j, j < hs.length ∧ j ≠ i ∧ 1 < hs.getD j 0 := by
  induction hs with
  | nil => simp [big_count] at h
  | cons a t ih =>
    have hcount : big_count (a :: t) = big_count t + if 1 < a then 1 else 0 := by
      unfold big_count
      rw [List.countP_cons]
      simp
    rw [hcount] at h
    intro i hi
    by_cases ha : 1 < a
    · rw [if_pos ha] at h
      obtain ⟨k, hk, hkb⟩ := exists_big_of_count t (by omega)
      cases i with
      | zero => exact ⟨k + 1, by simpa using hk, by omega, by simpa using hkb⟩
      | succ i => exact ⟨0, by simp, by omega, by simpa using ha⟩
    · rw [if_neg ha] at h
      cases i with
      | zero =>
        obtain ⟨k, hk, hkb⟩ := exists_big_of_count t (by omega)
        exact ⟨k + 1, by simpa using hk, by omega, by simpa using hkb⟩
      | succ i =>
        obtain ⟨j, hj, hne, hjb⟩ := ih (by omega) i (by simpa using hi)
        exact ⟨j + 1, by simpa using hj, by omega, by simpa using hjb⟩

/-! ## The fallback move -/

theorem play_any_loop_spec (R : Nat) (ns : List Nat) :
    ∀ n i0, i0 + n = R → (∀ j, j < i0 → ns.getD j 0 = 0) →
      (∃ i, i < R ∧ 0 < ns.getD i 0) →
      ∃ i, i < R ∧ 0 < ns.getD i 0 ∧ (∀ j, j < i → ns.getD j 0 = 0) ∧
        play_any_loop R n i0 ns = ns.set i (ns.getD i 0 - 1) := by
  intro n
  induction n with
  | zero =>
    intro i0 h0 hz hex
    obtain ⟨i, hi, hpos⟩ := hex
    have := hz i (by omega)
    omega
  | succ n ih =>
    intro i0 h0 hz hex
    unfold play_any_loop
    rw [if_pos (show i0 < R by omega)]
    by_cases hp : ns.getD i0 0 > 0
    · rw [if_pos hp]
      exact ⟨i0, by omega, hp, hz, rfl⟩
    · rw [if_neg hp]
      apply ih (i0 + 1) (by omega) _ hex
      intro j hj
      by_cases hj0 : j = i0
      · subst hj0; omega
      · exact hz j (by omega)

/-- The fallback decrements the lowest-indexed nonempty active row. -/
theorem play_any_spec (ns : List Nat) (R : Nat) (hex : ∃ i, i < R ∧ 0 < ns.getD i 0) :
    ∃ i, i < R ∧ 0 < ns.getD i 0 ∧ (∀ j, j < i → ns.getD j 0 = 0) ∧
      play_any ns R = ns.set i (ns.getD i 0 - 1) :=
  play_any_loop_spec R ns R 0 (by omega) (fun j hj => by omega) hex

theorem play_any_loop_length (R : Nat) (n i : Nat) (ns : List Nat) :
    (play_any_loop R n i ns).length = ns.length := by
  induction n generalizing i with
  | zero => rfl
  | succ n ih =>
    unfold play_any_loop
    split_ifs
    · exact List.length_set _ _ _
    · exact ih (i + 1)
    · rfl

theorem computer_play_length (g : Game) (c : List Nat) :
    (computer_play g c).numsticks.length = g.numsticks.length := by
  unfold computer_play play_any
  dsimp only
  split_ifs
  · exact List.length_set _ _ _
  · exact play_any_loop_length _ _ _ _
  · exact play_any_loop_length _ _ _ _

/-- The code's `x` is the nim-sum of the heap vector. -/
theorem nim_x_heaps (g : Game) (hR : 0 < g.rows) (hlen : g.rows ≤ g.numsticks.length) :
    nim_x g.numsticks g.rows = nim_sum (heaps g) := by
  have hl : (heaps g).length = g.rows := by
    unfold heaps; simp [List.length_take]; omega
  rw [← nim_x_take g.numsticks hR]
  have := nim_x_eq_nim_sum (heaps g)
  rw [hl] at this
  exact this

/-! ## The stick count of the controller -/

theorem foldl_add_mod (l : List Nat) :
    ∀ a, a < 256 → l.foldl (fun s v => (s + v) % 256) a = (a + l.sum) % 256 := by
  induction l with
  | nil => intro a ha; simp [Nat.mod_eq_of_lt ha]
  | cons b t ih =>
    intro a ha
    rw [List.foldl_cons, ih _ (Nat.mod_lt _ (by omega)), List.sum_cons]
    omega

/-- The `char` accumulator holds the stick count modulo 256. -/
theorem check_sum_eq (g : Game) (hlen : g.rows ≤ g.numsticks.length) :
    check_sum g 0 = (heaps g).sum % 256 := by
  have hl : (heaps g).length = g.rows := by
    unfold heaps; simp [List.length_take]; omega
  unfold check_sum
  have h1 : (List.range g.rows).foldl (fun s i => (s + g.numsticks.getD i 0) % 256) 0
      = (List.range (heaps g).length).foldl
          (fun s i => (fun s v => (s + v) % 256) s ((heaps g).getD i 0)) 0 := by
    rw [hl]
    apply foldl_range_congr
    intro b i hi
    unfold heaps
    rw [getD_take_lt _ hi]
  rw [h1, foldl_getD_range (fun s v => (s + v) % 256) (heaps g) 0,
    foldl_add_mod _ 0 (by omega), Nat.zero_add]

theorem check_sum_one_iff (g : Game) (hlen : g.rows ≤ g.numsticks.length)
    (hsum : (heaps g).sum < 256) : check_sum g 0 = 1 ↔ (heaps g).sum = 1 := by
  rw [check_sum_eq g hlen, Nat.mod_eq_of_lt hsum]

/-! ## The row buttons -/

theorem row_select_spec (g : Game) (r : Nat) (hr : 1 ≤ r) :
    ((r ≤ g.rows ∧ (g.current_selection = 0 ∨ g.current_selection = r) ∧
        0 < g.numsticks.getD (r - 1) 0) →
      row_select g (r : Int)
        = { g with
            numsticks := g.numsticks.set (r - 1) (g.numsticks.getD (r - 1) 0 - 1)
            current_selection := r }) ∧
    (¬ (r ≤ g.rows ∧ (g.current_selection = 0 ∨ g.current_selection = r) ∧
        0 < g.numsticks.getD (r - 1) 0) →
      row_select g (r : Int) = g) := by
  have hidx : ((r : Int) - 1).toNat = r - 1 := by omega
  have hto : (r : Int).toNat = r := by simp
  unfold row_select
  rw [hidx, hto]
  constructor
  · rintro ⟨h1, h2, h3⟩
    rw [if_pos ⟨by omega, by omega⟩, if_pos (by omega), if_pos h3]
  · intro hn
    by_cases h1 : (r : Int) ≤ (g.rows : Int) ∧ (r : Int) > 0
    · rw [if_pos h1]
      by_cases h2 : g.current_selection = 0 ∨ (g.current_selection : Int) = (r : Int)
      · rw [if_pos h2]
        by_cases h3 : g.numsticks.getD (r - 1) 0 > 0
        · exfalso
          apply hn
          refine ⟨by omega, ?_, h3⟩
          rcases h2 with h2 | h2
          · exact Or.inl h2
          · exact Or.inr (by omega)
        · rw [if_neg h3]
      · rw [if_neg h2]
    · rw [if_neg h1]

theorem user_play_row (g : Game) (r : Nat) (hr : 1 ≤ r) (hr5 : r ≤ 5) :
    user_play g ⟨r - 1, 0⟩ = (row_select g (r : Int), (r : Int)) := by
  unfold user_play
  have h1 : ¬ (r - 1 = COMPUTER_BUTTON) := by
    unfold COMPUTER_BUTTON NUM_BUTTONS; omega
  have h2 : ((r - 1 : Nat) : Int) + 1 = (r : Int) := by omega
  simp only [h1, if_false, ne_eq, not_true_eq_false, h2]

theorem big_count_zero_iff (hs : List Nat) : big_count hs = 0 ↔ ∀ h ∈ hs, h ≤ 1 := by
  unfold big_count
  rw [List.countP_eq_zero]
  constructor
  · intro h a ha
    have := h a ha
    simp at this
    exact this
  · intro h a ha
    have := h a ha
    simp
    exact this

/-! ## Boards with at most one heap larger than one -/

theorem unity_count_cons (a : Nat) (t : List Nat) :
    unity_count (a :: t) = unity_count t + if a = 1 then 1 else 0 := by
  unfold unity_count
  rw [List.countP_cons]
  simp

/-- On heaps of size at most one the nim-sum is the parity of the number of
unit heaps. -/
theorem nim_sum_small (l : List Nat) (h : ∀ a ∈ l, a ≤ 1) :
    nim_sum l = unity_count l % 2 := by
  induction l with
  | nil => rfl
  | cons a t ih =>
    have iht := ih (fun b hb => h b (List.mem_cons_of_mem a hb))
    have ha := h a (List.mem_cons_self a t)
    rw [nim_sum_cons, unity_count_cons, iht]
    rcases Nat.mod_two_eq_zero_or_one (unity_count t) with h0 | h1
    · rw [h0]
      rcases Nat.le_one_iff_eq_zero_or_eq_one.mp ha with rfl | rfl
      · simp; omega
      · simp; omega
    · rw [h1]
      rcases Nat.le_one_iff_eq_zero_or_eq_one.mp ha with rfl | rfl
      · simp; omega
      · simp; omega

theorem unity_count_set (l : List Nat) (i v : Nat) (hi : i < l.length) :
    unity_count (l.set i v) + (if l.getD i 0 = 1 then 1 else 0)
      = unity_count l + if v = 1 then 1 else 0 := by
  induction l generalizing i with
  | nil => simp at hi
  | cons a t ih =>
    cases i with
    | zero =>
      simp only [List.set_cons_zero, unity_count_cons, List.getD_cons_zero]
      omega
    | succ i =>
      have hi2 : i < t.length := by simpa using hi
      have := ih i hi2
      simp only [List.set_cons_succ, unity_count_cons, List.getD_cons_succ]
      omega

theorem mem_set_small (hs : List Nat) (i v : Nat) (hv : v ≤ 1)
    (hothers : ∀ j, j < hs.length → j ≠ i → hs.getD j 0 ≤ 1) :
    ∀ a ∈ hs.set i v, a ≤ 1 := by
  intro a ha
  obtain ⟨j, hj, hja⟩ := List.mem_iff_getElem.mp ha
  have hj2 : j < hs.length := by simpa using hj
  have hget : (hs.set i v).getD j 0 = a := by
    rw [List.getD_eq_getElem _ _ hj, hja]
  by_cases hji : i = j
  · subst hji
    rw [getD_set_self _ _ _ _ hj2] at hget
    omega
  · rw [getD_set_ne _ _ _ hji] at hget
    have := hothers j hj2 (fun h => hji h.symm)
    omega

theorem has_nonunity_false (l : List Nat) (h : ∀ a ∈ l, a ≤ 1) : has_nonunity l = false := by
  unfold has_nonunity
  rw [List.any_eq_false]
  intro a ha
  have := h a ha
  simp
  omega

theorem scan_small_list (l : List Nat) (h : ∀ a ∈ l, a ≤ 1) :
    ∀ acc : Nat × Nat,
      l.foldl
        (fun (acc : Nat × Nat) v =>
          if v = 1 then (acc.1 + 1, acc.2)
          else if v > 1 then (acc.1, 1)
          else acc) acc
      = (acc.1 + unity_count l, acc.2) := by
  induction l with
  | nil => intro acc; rfl
  | cons a t ih =>
    intro acc
    have iht := ih (fun b hb => h b (List.mem_cons_of_mem a hb))
    have ha := h a (List.mem_cons_self a t)
    rw [List.foldl_cons, iht, unity_count_cons]
    rcases Nat.le_one_iff_eq_zero_or_eq_one.mp ha with rfl | rfl
    · simp
    · simp; omega

/-- The inner scan on a row whose other rows are all at most one: it adds the
number of the other unit rows and leaves the flag down. -/
theorem scan_others_small (hs : List Nat) (i u : Nat) (hi : i < hs.length)
    (hothers : ∀ j, j < hs.length → j ≠ i → hs.getD j 0 ≤ 1) :
    scan_others hs hs.length i u = (u + unity_count (hs.set i 0), 0) := by
  unfold scan_others
  have h1 : (List.range hs.length).foldl
        (fun (acc : Nat × Nat) j =>
          if j ≠ i then
            if hs.getD j 0 = 1 then (acc.1 + 1, acc.2)
            else if hs.getD j 0 > 1 then (acc.1, 1)
            else acc
          else acc) (u, 0)
      = (List.range (hs.set i 0).length).foldl
        (fun (acc : Nat × Nat) j =>
          (fun (acc : Nat × Nat) v =>
            if v = 1 then (acc.1 + 1, acc.2)
            else if v > 1 then (acc.1, 1)
            else acc) acc ((hs.set i 0).getD j 0)) (u, 0) := by
    rw [List.length_set]
    apply foldl_range_congr
    intro acc j hj
    by_cases hji : j = i
    · subst hji
      rw [getD_set_self _ _ _ _ hi]
      simp
    · rw [getD_set_ne _ _ _ (fun h => hji h.symm), if_pos hji]
  rw [h1, foldl_getD_range
    (fun (acc : Nat × Nat) v =>
      if v = 1 then (acc.1 + 1, acc.2)
      else if v > 1 then (acc.1, 1)
      else acc) (hs.set i 0) (u, 0)]
  exact scan_small_list _ (mem_set_small hs i 0 (by omega) hothers) (u, 0)

theorem candidate_fold_none (ns : List Nat) (R x bm : Nat) (l : List Nat)
    (h : ∀ j ∈ l, ¬ (bm &&& (1 <<< j) ≠ 0)) :
    ∀ e, l.foldl (candidate_row ns R x bm) e = e := by
  induction l with
  | nil => intro e; rfl
  | cons a t ih =>
    intro e
    rw [List.foldl_cons, candidate_row_skip ns R x bm e a (h a (List.mem_cons_self a t))]
    exact ih (fun j hj => h j (List.mem_cons_of_mem a hj)) e

theorem candidate_fold_single (ns : List Nat) (R x bm i : Nat) (l : List Nat)
    (hnd : l.Nodup) (hi : i ∈ l) (h : ∀ j ∈ l, j ≠ i → ¬ (bm &&& (1 <<< j) ≠ 0)) :
    ∀ e, l.foldl (candidate_row ns R x bm) e = candidate_row ns R x bm e i := by
  induction l with
  | nil => simp at hi
  | cons a t ih =>
    intro e
    have hat : a ∉ t := (List.nodup_cons.mp hnd).1
    rw [List.foldl_cons]
    by_cases hai : a = i
    · subst hai
      apply candidate_fold_none
      intro j hj
      exact h j (List.mem_cons_of_mem a hj) (fun hja => hat (hja ▸ hj))
    · rw [candidate_row_skip ns R x bm e a (h a (List.mem_cons_self a t) hai)]
      have hit : i ∈ t := by
        rcases List.mem_cons.mp hi with h1 | h1
        · exact absurd h1.symm hai
        · exact h1
      exact ih (List.nodup_cons.mp hnd).2 hit
        (fun j hj => h j (List.mem_cons_of_mem a hj)) e

/-- When row `i` is the only playable row, the candidate loop is its single
iteration on row `i`, entered with `unityheaps = 0`. -/
theorem candidate_loop_single (ns : List Nat) (R x bm i : Nat) (hi : i < R)
    (h : ∀ j, j < R → j ≠ i → ¬ (bm &&& (1 <<< j) ≠ 0)) :
    candidate_loop ns R x bm
      = candidate_row ns R x bm
          { unityheaps := 0, quality := List.replicate MAXROWS 0,
            candidate := List.replicate MAXROWS none } i := by
  unfold candidate_loop
  exact candidate_fold_single ns R x bm i (List.range R).reverse
    (List.nodup_reverse.mpr (List.nodup_range R))
    (List.mem_reverse.mpr (List.mem_range.mpr hi))
    (fun j hj => h j (List.mem_range.mp (List.mem_reverse.mp hj))) _

/-- The single iteration on the only row larger than one: its candidate makes
the number of unit heaps odd. -/
theorem candidate_row_one_big (hs : List Nat) (bm i : Nat) (hR : hs.length ≤ MAXROWS)
    (hi : i < hs.length) (hbig : 1 < hs.getD i 0)
    (hothers : ∀ j, j < hs.length → j ≠ i → hs.getD j 0 ≤ 1)
    (hbit : bm &&& (1 <<< i) ≠ 0) :
    0 < (candidate_row hs hs.length (nim_sum hs) bm
          { unityheaps := 0, quality := List.replicate MAXROWS 0,
            candidate := List.replicate MAXROWS none } i).quality.getD i 0 ∧
    (candidate_row hs hs.length (nim_sum hs) bm
          { unityheaps := 0, quality := List.replicate MAXROWS 0,
            candidate := List.replicate MAXROWS none } i).candidate.getD i none
      = some (if unity_count (hs.set i 0) % 2 = 1 then 0 else 1) := by
  have hsmall := mem_set_small hs i 0 (by omega) hothers
  have htemp : nim_sum hs ^^^ hs.getD i 0 = unity_count (hs.set i 0) % 2 := by
    have h1 := nim_sum_set hs i 0 hi
    rw [Nat.xor_zero] at h1
    rw [← h1]
    exact nim_sum_small _ hsmall
  have hq : i < (List.replicate MAXROWS 0).length := by simpa using Nat.lt_of_lt_of_le hi hR
  have hc : i < (List.replicate MAXROWS (none : Option Nat)).length := by
    simpa using Nat.lt_of_lt_of_le hi hR
  unfold candidate_row
  rw [if_pos hbit]
  dsimp only
  rw [interim_xor_getD hs hs.length (nim_sum hs) hi, htemp, scan_others_small hs i _ hi hothers]
  dsimp only
  rcases Nat.mod_two_eq_zero_or_one (unity_count (hs.set i 0)) with h0 | h1
  · rw [h0]
    have heven : ¬ ((0 + unity_count (hs.set i 0)) &&& 1 ≠ 0) := by
      rw [Nat.and_one_is_mod]; omega
    simp only [show ¬ ((0 : Nat) = 1) by omega, if_false, Nat.zero_le, true_and, if_true,
      heven, hbig, gt_iff_lt]
    rw [getD_set_self _ _ _ _ hq, getD_set_self _ _ _ _ hc]
    exact ⟨by omega, rfl⟩
  · rw [h1]
    have heven : ¬ ((0 + 1 + unity_count (hs.set i 0)) &&& 1 ≠ 0) := by
      rw [Nat.and_one_is_mod]; omega
    simp only [if_true, Nat.le_refl, true_and, heven, if_false]
    rw [getD_set_self _ _ _ _ hq, getD_set_self _ _ _ _ hc]
    exact ⟨by omega, rfl⟩

/-- Boards with exactly one heap larger than one: the strict move changes
that heap to 0 or 1 and leaves an odd number of unit heaps. -/
theorem strict_play_one_big (hs : List Nat) (c : List Nat) (i : Nat)
    (hR : hs.length ≤ MAXROWS) (hi : i < hs.length) (hbig : 1 < hs.getD i 0)
    (hothers : ∀ j, j < hs.length → j ≠ i → hs.getD j 0 ≤ 1) :
    ∃ v, v ≤ 1 ∧ strict_play hs hs.length c = hs.set i v ∧
      (∀ a ∈ hs.set i v, a ≤ 1) ∧ unity_count (hs.set i v) % 2 = 1 := by
  have hR8 : hs.length ≤ 8 := by unfold MAXROWS at hR; omega
  have hsmall := mem_set_small hs i 0 (by omega) hothers
  have hxe := nim_x_eq_nim_sum hs
  have htemp : nim_sum hs ^^^ hs.getD i 0 = unity_count (hs.set i 0) % 2 := by
    have h1 := nim_sum_set hs i 0 hi
    rw [Nat.xor_zero] at h1
    rw [← h1]
    exact nim_sum_small _ hsmall
  have hp2 : unity_count (hs.set i 0) % 2 < 2 := Nat.mod_lt _ (by omega)
  have hplay : nim_sum hs ^^^ hs.getD i 0 < hs.getD i 0 := by rw [htemp]; omega
  have hx : 0 < nim_sum hs := by
    rcases Nat.eq_zero_or_pos (nim_sum hs) with h0 | h0
    · rw [h0, Nat.zero_xor] at htemp; omega
    · exact h0
  have hnot : ∀ j, j < hs.length → j ≠ i →
      ¬ (playable_rows_bitmap hs hs.length (nim_sum hs) &&& (1 <<< j) ≠ 0) := by
    intro j hj hji hb
    have hpj := ((bitmap_test hs hs.length (nim_sum hs) j hR8).mp hb).2
    have hle := hothers j hj hji
    have hj1 : hs.getD j 0 = 1 := by omega
    rw [hj1] at hpj
    have hz : nim_sum hs ^^^ 1 = 0 := by omega
    have hx1 : nim_sum hs = 1 := Nat.xor_eq_zero.mp hz
    rw [hx1] at htemp
    have hh : hs.getD i 0 = 1 ^^^ (unity_count (hs.set i 0) % 2) := by
      rw [← htemp, Nat.xor_cancel_left]
    rcases Nat.mod_two_eq_zero_or_one (unity_count (hs.set i 0)) with h0 | h1
    · rw [h0, Nat.xor_zero] at hh; omega
    · rw [h1, Nat.xor_self] at hh; omega
  have hbit := (bitmap_test hs hs.length (nim_sum hs) i hR8).mpr ⟨hi, hplay⟩
  have hloop := candidate_loop_single hs hs.length (nim_sum hs)
    (playable_rows_bitmap hs hs.length (nim_sum hs)) i hi hnot
  obtain ⟨hq, hc⟩ := candidate_row_one_big hs _ i hR hi hbig hothers hbit
  rw [← hloop] at hq hc
  have hzero : ∀ j, j < hs.length → j ≠ i →
      (candidate_loop hs hs.length (nim_sum hs)
        (playable_rows_bitmap hs hs.length (nim_sum hs))).quality.getD j 0 = 0 :=
    fun j hj hji => candidate_loop_unplayable hs hs.length (nim_sum hs) _ hR j hj
      (hnot j hj hji)
  have hpick := strict_play_pick hs hs.length c hR (by rw [hxe]; exact hx) i hi
    (by rw [hxe]; exact hplay)
  rw [hxe] at hpick
  have hpeak := find_peak_eq
    (candidate_loop hs hs.length (nim_sum hs)
      (playable_rows_bitmap hs hs.length (nim_sum hs))).quality hs.length i hi
    (by
      intro j hj
      by_cases hji : j = i
      · subst hji; exact Nat.le_refl _
      · rw [hzero j hj hji]; exact Nat.zero_le _)
    (by
      intro j hij hj
      rw [hzero j hj (by omega)]; exact hq)
  rw [hpeak] at hpick
  simp only at hpick
  rw [hc] at hpick
  refine ⟨if unity_count (hs.set i 0) % 2 = 1 then 0 else 1, by split_ifs <;> omega, hpick,
    mem_set_small hs i _ (by split_ifs <;> omega) hothers, ?_⟩
  rcases Nat.mod_two_eq_zero_or_one (unity_count (hs.set i 0)) with h0 | h1
  · rw [if_neg (by omega)]
    have hcount := unity_count_set (hs.set i 0) i 1 (by simpa using hi)
    rw [List.set_set, getD_set_self _ _ _ _ hi, if_neg (by omega), if_pos rfl] at hcount
    omega
  · rw [if_pos h1]
    have hcount := unity_count_set (hs.set i 0) i 0 (by simpa using hi)
    rw [List.set_set, getD_set_self _ _ _ _ hi, if_neg (by omega)] at hcount
    omega

/-- Boards with no heap larger than one and a positive even number of unit
heaps: the strict move removes one unit heap. -/
theorem strict_play_no_big (hs : List Nat) (c : List Nat)
    (hsmall : ∀ a ∈ hs, a ≤ 1) (hpos : 0 < unity_count hs)
    (heven : unity_count hs % 2 = 0) :
    ∃ i, i < hs.length ∧ hs.getD i 0 = 1 ∧ strict_play hs hs.length c = hs.set i 0 ∧
      (∀ a ∈ hs.set i 0, a ≤ 1) ∧ unity_count (hs.set i 0) + 1 = unity_count hs := by
  have hxe := nim_x_eq_nim_sum hs
  have hx : ¬ (nim_x hs hs.length > 0) := by
    rw [hxe, nim_sum_small hs hsmall, heven]; omega
  have hex : ∃ i, i < hs.length ∧ 0 < hs.getD i 0 := by
    unfold unity_count at hpos
    obtain ⟨a, ha, ha1⟩ := List.countP_pos_iff.mp hpos
    obtain ⟨k, hk, hka⟩ := List.mem_iff_getElem.mp ha
    refine ⟨k, hk, ?_⟩
    rw [List.getD_eq_getElem _ _ hk, hka]
    simp at ha1
    omega
  obtain ⟨i, hi, hipos, _, hplay⟩ := play_any_spec hs hs.length hex
  have hle : hs.getD i 0 ≤ 1 := hsmall _ (getD_mem_of_lt hs i hi)
  have h1 : hs.getD i 0 = 1 := by omega
  rw [h1] at hplay
  refine ⟨i, hi, h1, ?_, ?_, ?_⟩
  · unfold strict_play computer_play
    dsimp only
    rw [if_neg hx]
    exact hplay
  · exact mem_set_small hs i 0 (by omega)
      (fun j hj _ => hsmall _ (getD_mem_of_lt hs j hj))
  · have := unity_count_set hs i 0 hi
    rw [h1] at this
    simpa using this

/-- A board with exactly one heap larger than one, by index. -/
theorem one_big (hs : List Nat) (h : big_count hs = 1) :
    ∃ i, i < hs.length ∧ 1 < hs.getD i 0 ∧
      ∀ j, j < hs.length → j ≠ i → hs.getD j 0 ≤ 1 := by
  induction hs with
  | nil => simp [big_count] at h
  | cons a t ih =>
    have hcount : big_count (a :: t) = big_count t + if 1 < a then 1 else 0 := by
      unfold big_count
      rw [List.countP_cons]
      simp
    rw [hcount] at h
    by_cases ha : 1 < a
    · rw [if_pos ha] at h
      have hz : ∀ b ∈ t, b ≤ 1 := (big_count_zero_iff t).mp (by omega)
      refine ⟨0, by simp, by simpa using ha, ?_⟩
      intro j hj hj0
      cases j with
      | zero => omega
      | succ j =>
        rw [List.getD_cons_succ]
        exact hz _ (getD_mem_of_lt t j (by simpa using hj))
    · rw [if_neg ha] at h
      obtain ⟨i, hi, hbig, hothers⟩ := ih (by omega)
      refine ⟨i + 1, by simpa using hi, by simpa using hbig, ?_⟩
      intro j hj hji
      cases j with
      | zero => rw [List.getD_cons_zero]; omega
      | succ j =>
        rw [List.getD_cons_succ]
        exact hothers j (by simpa using hj) (by omega)

/-! ## Winning and losing boards -/

theorem heaps_length (g : Game) (hlen : g.rows ≤ g.numsticks.length) :
    (heaps g).length = g.rows := by
  unfold heaps; simp [List.length_take]; omega

theorem has_nonunity_of_big (hs : List Nat) (h : 0 < big_count hs) :
    has_nonunity hs = true := by
  obtain ⟨k, hk, hkb⟩ := exists_big_of_count hs h
  unfold has_nonunity
  rw [List.any_eq_true]
  exact ⟨hs.getD k 0, getD_mem_of_lt hs k hk, by simpa using hkb⟩

theorem losing_of_small_odd (l : List Nat) (h : ∀ a ∈ l, a ≤ 1)
    (hodd : unity_count l % 2 = 1) : losing l = true := by
  unfold losing
  rw [has_nonunity_false l h, hodd]
  rfl

/-- Strict levels on a winning board of at most `MAXROWS` rows: the move
leaves a losing board. -/
theorem strict_play_winning (hs : List Nat) (c : List Nat) (hR : hs.length ≤ MAXROWS)
    (hwin : winning hs = true) : losing (strict_play hs hs.length c) = true := by
  rcases Nat.lt_or_ge 1 (big_count hs) with hmany | hfew
  · have hnon := has_nonunity_of_big hs (by omega)
    have hx : nim_sum hs ≠ 0 := by
      unfold winning at hwin
      rw [hnon] at hwin
      simpa using hwin
    have hbig := many_big hs hmany
    obtain ⟨p, hp, _, hplay⟩ := strict_play_many_big hs c hR hx hbig
    rw [hplay]
    exact losing_after_target hs p hp (hbig p hp)
  · rcases Nat.eq_zero_or_pos (big_count hs) with hzero | hpos
    · have hsmall := (big_count_zero_iff hs).mp hzero
      have hnon := has_nonunity_false hs hsmall
      unfold winning at hwin
      rw [hnon] at hwin
      simp only [Bool.false_and, Bool.not_false, Bool.true_and, Bool.false_or,
        Bool.and_eq_true, decide_eq_true_eq] at hwin
      obtain ⟨i, _, _, hplay, hsm, hcount⟩ := strict_play_no_big hs c hsmall hwin.1 hwin.2
      rw [hplay]
      exact losing_of_small_odd _ hsm (by omega)
    · obtain ⟨i, hi, hbig, hothers⟩ := one_big hs (by omega)
      obtain ⟨v, _, hplay, hsm, hodd⟩ := strict_play_one_big hs c i hR hi hbig hothers
      rw [hplay]
      exact losing_of_small_odd _ hsm hodd

/-! ## The row lock within a human turn -/

theorem lt_length_of_getD_pos (l : List Nat) (i : Nat) (h : 0 < l.getD i 0) :
    i < l.length := by
  rcases Nat.lt_or_ge i l.length with h1 | h1
  · exact h1
  · rw [List.getD_eq_default _ _ h1] at h
    omega

theorem row_select_lock (g0 g : Game) (sel : Int) (h : LockInv g0 g) :
    LockInv g0 (row_select g sel) := by
  unfold row_select
  by_cases h1 : sel ≤ (g.rows : Int) ∧ sel > 0
  · rw [if_pos h1]
    by_cases h2 : g.current_selection = 0 ∨ (g.current_selection : Int) = sel
    · rw [if_pos h2]
      by_cases h3 : g.numsticks.getD (sel - 1).toNat 0 > 0
      · rw [if_pos h3]
        obtain ⟨hrows, hcases⟩ := h
        have hlt := lt_length_of_getD_pos _ _ h3
        have hselnat : sel.toNat - 1 = (sel - 1).toNat := by omega
        refine ⟨hrows, Or.inr ⟨?_, ?_, ?_, ?_⟩⟩
        · show sel.toNat ≠ 0
          omega
        · show sel.toNat ≤ g0.rows
          omega
        · intro j hj
          show (g.numsticks.set (sel - 1).toNat _).getD j 0 = _
          have hj2 : (sel - 1).toNat ≠ j := by
            intro he
            apply hj
            show j = sel.toNat - 1
            omega
          rw [getD_set_ne _ _ _ hj2]
          rcases hcases with ⟨_, heq⟩ | ⟨hne, _, hothers, _⟩
          · rw [heq]
          · apply hothers
            rcases h2 with h2 | h2
            · exact absurd h2 hne
            · omega
        · show (g.numsticks.set (sel - 1).toNat _).getD (sel.toNat - 1) 0 < _
          rw [hselnat, getD_set_self _ _ _ _ hlt]
          rcases hcases with ⟨_, heq⟩ | ⟨hne, _, _, hdec⟩
          · rw [← heq]; omega
          · rcases h2 with h2 | h2
            · exact absurd h2 hne
            · have hidx : g.current_selection - 1 = (sel - 1).toNat := by omega
              rw [hidx] at hdec
              omega
      · rw [if_neg h3]; exact h
    · rw [if_neg h2]; exact h
  · rw [if_neg h1]; exact h

theorem select_rows_lock (g0 : Game) (rs : List Int) :
    ∀ g, LockInv g0 g → LockInv g0 (select_rows g rs) := by
  induction rs with
  | nil => intro g h; exact h
  | cons r t ih =>
    intro g h
    exact ih _ (row_select_lock g0 g r h)

theorem press_rows_lock (g0 : Game) (bs : List Nat) :
    ∀ g, LockInv g0 g → LockInv g0 (press_rows g bs) := by
  induction bs with
  | nil => intro g h; exact h
  | cons b t ih =>
    intro g h
    apply ih
    show LockInv g0 (user_play g ⟨b, 0⟩).1
    unfold user_play
    simp only [ne_eq, not_true_eq_false, if_false]
    exact row_select_lock g0 g _ h

/-! ## The Yield step and the restart -/

theorem computer_play_lock (g : Game) (c : List Nat) :
    (computer_play g c).current_selection = 0 := by
  unfold computer_play
  dsimp only
  split_ifs <;> rfl

/-- The Yield step runs `computer_play` exactly when `yield_calls_computer`
holds; otherwise it leaves the game state as it is. -/
theorem yield_step_game (c : Ctl) (cand0 : List Nat) :
    (yield_step c cand0).1.game
      = if yield_calls_computer c = true then computer_play c.game cand0 else c.game := by
  unfold yield_step yield_calls_computer
  dsimp only
  by_cases h1 : check_sum c.game 0 = 1
  · by_cases h2 : c.winner_announced = 0
    · simp [h1, h2]
    · simp [h1, h2]
  · by_cases h2 : c.winner_announced = 0
    · simp only [h1, h2, if_false, if_true, and_self, decide_True]
      split_ifs <;> rfl
    · simp [h1, h2]

theorem setup_game_level (g : Game) : (setup_game g).level = g.level := by
  unfold setup_game
  dsimp only
  split_ifs <;> rfl

theorem setup_game_lock (g : Game) :
    (setup_game g).current_selection = g.current_selection := by
  unfold setup_game
  dsimp only
  split_ifs <;> rfl

/-- A command press: `user_play` frees the row lock and touches no heap. -/
theorem user_play_command (g : Game) (p : Press) (hk : 0 < p.command_press)
    (hrows : g.rows ≤ 100) :
    user_play g p = ({ g with current_selection := 0 }, 100 + (p.command_press : Int)) := by
  unfold user_play
  have hne : p.command_press ≠ 0 := by omega
  simp only [hne, ne_eq, not_false_eq_true, if_true]
  unfold row_select
  rw [if_neg (by
    intro h
    have := h.1
    simp only at this
    omega)]

/-! ## setup_game -/

theorem length_five (l : List Nat) (h : l.length = MAXROWS) :
    ∃ a b c d e, l = [a, b, c, d, e] := by
  unfold MAXROWS at h
  match l, h with
  | [a, b, c, d, e], _ => exact ⟨a, b, c, d, e, rfl⟩

theorem setup_row_fold (n : Nat) :
    ∀ st : List Nat × Nat, n ≤ st.1.length →
      ((List.range n).foldl setup_row st).1.length = st.1.length ∧
      (∀ i, i < n →
        1 ≤ ((List.range n).foldl setup_row st).1.getD i 0 ∧
        ((List.range n).foldl setup_row st).1.getD i 0 ≤ 8) ∧
      (∀ i, n ≤ i →
        ((List.range n).foldl setup_row st).1.getD i 0 = st.1.getD i 0) := by
  induction n with
  | zero =>
    intro st _
    exact ⟨rfl, fun i hi => by omega, fun i _ => rfl⟩
  | succ n ih =>
    intro st hlen
    obtain ⟨hl, hin, hout⟩ := ih st (by omega)
    rw [List.range_succ, List.foldl_append]
    simp only [List.foldl_cons, List.foldl_nil]
    generalize (List.range n).foldl setup_row st = s at hl hin hout
    unfold setup_row
    dsimp only
    refine ⟨by rw [List.length_set]; exact hl, ?_, ?_⟩
    · intro i hi
      by_cases hin2 : i = n
      · subst hin2
        rw [getD_set_self _ _ _ _ (by omega)]
        have : (random_num s.2).1 &&& 7 ≤ 7 := Nat.and_le_right
        omega
      · rw [getD_set_ne _ _ _ (fun h => hin2 h.symm)]
        exact hin i (by omega)
    · intro i hi
      rw [getD_set_ne _ _ _ (by omega)]
      exact hout i (by omega)

theorem mem_take_bound (l : List Nat) (n lo hi : Nat)
    (h : ∀ i, i < n → lo ≤ l.getD i 0 ∧ l.getD i 0 ≤ hi) :
    ∀ a ∈ l.take n, lo ≤ a ∧ a ≤ hi := by
  intro a ha
  obtain ⟨j, hj, hja⟩ := List.mem_iff_getElem.mp ha
  have hj2 : j < n ∧ j < l.length := by
    rw [List.length_take] at hj
    omega
  have hget : (l.take n).getD j 0 = a := by
    rw [List.getD_eq_getElem _ _ hj, hja]
  rw [getD_take_lt l hj2.1] at hget
  rw [← hget]
  exact h j hj2.1

/-! ## Reachable states -/

theorem reachable_setup (g : Game) (c : Ctl) (hlen : g.numsticks.length = MAXROWS)
    (h1 : 1 ≤ g.level) (h5 : g.level ≤ 5) (hlock : g.current_selection = 0)
    (heq : ({ game := setup_game g, winner_announced := 0 } : Ctl) = c) : Reachable c :=
  heq ▸ Reachable.setup g hlen h1 h5 hlock

theorem reachable_step (c c2 : Ctl) (p : Press) (cand0 : List Nat) (h : Reachable c)
    (hb : p.button < NUM_BUTTONS) (hc : p.command_press < NUM_BUTTONS)
    (heq : (main_step c p cand0).1 = c2) : Reachable c2 :=
  heq ▸ Reachable.step c p cand0 h hb hc

/-! ## The quality table -/

theorem replicate_getD_zero (i : Nat) : (List.replicate MAXROWS 0).getD i 0 = 0 := by
  simp [List.getElem?_replicate]
  split_ifs <;> rfl

theorem replicate_getD_none (i : Nat) :
    (List.replicate MAXROWS (none : Option Nat)).getD i none = none := by
  simp [List.getElem?_replicate]
  split_ifs <;> rfl

/-- The candidate loop of `computer_play` on `g` is the candidate loop on the
heap vector of `g` with its nim-sum. -/
theorem candidate_loop_heaps (g : Game) (hR : 0 < g.rows)
    (hlen : g.rows ≤ g.numsticks.length) :
    candidate_loop g.numsticks g.rows (nim_x g.numsticks g.rows)
        (playable_rows_bitmap g.numsticks g.rows (nim_x g.numsticks g.rows))
      = candidate_loop (heaps g) (heaps g).length (nim_sum (heaps g))
          (playable_rows_bitmap (heaps g) (heaps g).length (nim_sum (heaps g))) := by
  rw [heaps_length g hlen, ← nim_x_heaps g hR hlen]
  unfold heaps
  rw [candidate_loop_take, playable_rows_bitmap_take]

theorem spec_M_true (hs : List Nat) (i : Nat) (h : spec_M hs i = true) :
    ∃ j, j < hs.length ∧ j ≠ i ∧ 1 < hs.getD j 0 := by
  unfold spec_M has_nonunity heaps_excluding at h
  rw [List.any_eq_true] at h
  obtain ⟨a, ha, hbig⟩ := h
  rw [List.mem_eraseIdx_iff_getElem?] at ha
  obtain ⟨j, hji, hj⟩ := ha
  obtain ⟨hjlt, hja⟩ := List.getElem?_eq_some.mp hj
  refine ⟨j, hjlt, hji, ?_⟩
  rw [List.getD_eq_getElem _ _ hjlt, hja]
  simpa using hbig

theorem spec_M_false (hs : List Nat) (i : Nat) (h : spec_M hs i = false) :
    ∀ j, j < hs.length → j ≠ i → hs.getD j 0 ≤ 1 := by
  intro j hj hji
  unfold spec_M has_nonunity heaps_excluding at h
  rw [List.any_eq_false] at h
  have hmem : hs.getD j 0 ∈ hs.eraseIdx i := by
    rw [List.mem_eraseIdx_iff_getElem?]
    refine ⟨j, hji, ?_⟩
    rw [List.getD_eq_getElem _ _ hj]
    exact List.getElem?_eq_getElem hj
  have := h _ hmem
  simpa using this

/-- A playable row whose target exceeds one gets quality 9 and the nim-sum
target as candidate, whatever the inner scan finds. -/
theorem candidate_row_far (ns : List Nat) (R x bm : Nat) (e : CandState) (i : Nat)
    (hi : i < R) (hq : i < e.quality.length) (hc : i < e.candidate.length)
    (hbit : bm &&& (1 <<< i) ≠ 0) (hfar : 1 < x ^^^ ns.getD i 0) :
    (candidate_row ns R x bm e i).quality.getD i 0 = e.quality.getD i 0 + 9 ∧
    (candidate_row ns R x bm e i).candidate.getD i none = some (x ^^^ ns.getD i 0) := by
  unfold candidate_row
  rw [if_pos hbit]
  have hflag : ∀ u, ¬ ((interim_xor ns R x).getD i 0 ≤ 1 ∧ (scan_others ns R i u).2 = 0) := by
    intro u h
    rw [interim_xor_getD ns R x hi] at h
    omega
  dsimp only
  rw [if_neg (hflag _), interim_xor_getD ns R x hi]
  exact ⟨getD_set_self _ _ _ _ hq, getD_set_self _ _ _ _ hc⟩

theorem candidate_loop_far (ns : List Nat) (R x bm : Nat) (hR : R ≤ MAXROWS)
    (i : Nat) (hi : i < R) (hbit : bm &&& (1 <<< i) ≠ 0)
    (hfar : 1 < x ^^^ ns.getD i 0) :
    (candidate_loop ns R x bm).quality.getD i 0 = 9 ∧
    (candidate_loop ns R x bm).candidate.getD i none = some (x ^^^ ns.getD i 0) := by
  have := candidate_loop_spec ns R x bm hR
    (fun i q c => bm &&& (1 <<< i) ≠ 0 → 1 < x ^^^ ns.getD i 0 →
      q = 9 ∧ c = some (x ^^^ ns.getD i 0))
    (by
      intro e i hi hq hc hz _ hb hf
      have h := candidate_row_far ns R x bm e i hi hq hc hb hf
      rw [hz] at h
      exact ⟨by omega, h.2⟩) i hi
  exact this hbit hfar

/-- On a board whose only heap larger than one is row `i`, the target of row
`i` is the parity of the number of the other unit heaps. -/
theorem target_one_big (hs : List Nat) (i : Nat) (hi : i < hs.length)
    (hothers : ∀ j, j < hs.length → j ≠ i → hs.getD j 0 ≤ 1) :
    nim_sum hs ^^^ hs.getD i 0 = unity_count (hs.set i 0) % 2 := by
  have hsmall := mem_set_small hs i 0 (by omega) hothers
  have h1 := nim_sum_set hs i 0 hi
  rw [Nat.xor_zero] at h1
  rw [← h1]
  exact nim_sum_small _ hsmall

/-- On a board whose only heap larger than one is row `i`, no other row is
playable. -/
theorem only_playable_one_big (hs : List Nat) (i : Nat) (hR : hs.length ≤ MAXROWS)
    (hi : i < hs.length) (hbig : 1 < hs.getD i 0)
    (hothers : ∀ j, j < hs.length → j ≠ i → hs.getD j 0 ≤ 1) :
    ∀ j, j < hs.length → j ≠ i →
      ¬ (playable_rows_bitmap hs hs.length (nim_sum hs) &&& (1 <<< j) ≠ 0) := by
  have hR8 : hs.length ≤ 8 := by unfold MAXROWS at hR; omega
  have htemp := target_one_big hs i hi hothers
  intro j hj hji hb
  have hpj := ((bitmap_test hs hs.length (nim_sum hs) j hR8).mp hb).2
  have hle := hothers j hj hji
  have hj1 : hs.getD j 0 = 1 := by omega
  rw [hj1] at hpj
  have hz : nim_sum hs ^^^ 1 = 0 := by omega
  have hx1 : nim_sum hs = 1 := Nat.xor_eq_zero.mp hz
  rw [hx1] at htemp
  have hh : hs.getD i 0 = 1 ^^^ (unity_count (hs.set i 0) % 2) := by
    rw [← htemp, Nat.xor_cancel_left]
  rcases Nat.mod_two_eq_zero_or_one (unity_count (hs.set i 0)) with h0 | h1
  · rw [h0, Nat.xor_zero] at hh; omega
  · rw [h1, Nat.xor_self] at hh; omega

/-- The single iteration on the only row larger than one, with its quality:
target 1 gives candidate 0 with quality 5, target 0 gives candidate 1 with
quality 9. -/
theorem candidate_row_one_big_table (hs : List Nat) (bm i : Nat) (hR : hs.length ≤ MAXROWS)
    (hi : i < hs.length) (hbig : 1 < hs.getD i 0)
    (hothers : ∀ j, j < hs.length → j ≠ i → hs.getD j 0 ≤ 1)
    (hbit : bm &&& (1 <<< i) ≠ 0) :
    (candidate_row hs hs.length (nim_sum hs) bm
          { unityheaps := 0, quality := List.replicate MAXROWS 0,
            candidate := List.replicate MAXROWS none } i).quality.getD i 0
      = (if nim_sum hs ^^^ hs.getD i 0 = 1 then 5 else 9) ∧
    (candidate_row hs hs.length (nim_sum hs) bm
          { unityheaps := 0, quality := List.replicate MAXROWS 0,
            candidate := List.replicate MAXROWS none } i).candidate.getD i none
      = some (if nim_sum hs ^^^ hs.getD i 0 = 1 then 0 else 1) := by
  have htemp := target_one_big hs i hi hothers
  have hq : i < (List.replicate MAXROWS 0).length := by simpa using Nat.lt_of_lt_of_le hi hR
  have hc : i < (List.replicate MAXROWS (none : Option Nat)).length := by
    simpa using Nat.lt_of_lt_of_le hi hR
  unfold candidate_row
  rw [if_pos hbit]
  dsimp only
  rw [interim_xor_getD hs hs.length (nim_sum hs) hi, htemp, scan_others_small hs i _ hi hothers]
  dsimp only
  rcases Nat.mod_two_eq_zero_or_one (unity_count (hs.set i 0)) with h0 | h1
  · rw [h0]
    have heven : ¬ ((0 + unity_count (hs.set i 0)) &&& 1 ≠ 0) := by
      rw [Nat.and_one_is_mod]; omega
    simp only [show ¬ ((0 : Nat) = 1) by omega, if_false, Nat.zero_le, true_and, if_true,
      heven, hbig, gt_iff_lt]
    rw [getD_set_self _ _ _ _ hq, getD_set_self _ _ _ _ hc, replicate_getD_zero]
    exact ⟨rfl, rfl⟩
  · rw [h1]
    have heven : ¬ ((0 + 1 + unity_count (hs.set i 0)) &&& 1 ≠ 0) := by
      rw [Nat.and_one_is_mod]; omega
    simp only [if_true, Nat.le_refl, true_and, heven, if_false]
    rw [getD_set_self _ _ _ _ hq, getD_set_self _ _ _ _ hc, replicate_getD_zero]
    exact ⟨rfl, rfl⟩

/-- The candidate loop on a board whose only heap larger than one is the
playable row `i`. -/
theorem candidate_loop_one_big (hs : List Nat) (i : Nat) (hR : hs.length ≤ MAXROWS)
    (hi : i < hs.length) (hbig : 1 < hs.getD i 0)
    (hothers : ∀ j, j < hs.length → j ≠ i → hs.getD j 0 ≤ 1)
    (hplay : nim_sum hs ^^^ hs.getD i 0 < hs.getD i 0) :
    (candidate_loop hs hs.length (nim_sum hs)
        (playable_rows_bitmap hs hs.length (nim_sum hs))).quality.getD i 0
      = (if nim_sum hs ^^^ hs.getD i 0 = 1 then 5 else 9) ∧
    (candidate_loop hs hs.length (nim_sum hs)
        (playable_rows_bitmap hs hs.length (nim_sum hs))).candidate.getD i none
      = some (if nim_sum hs ^^^ hs.getD i 0 = 1 then 0 else 1) := by
  have hR8 : hs.length ≤ 8 := by unfold MAXROWS at hR; omega
  have hbit := (bitmap_test hs hs.length (nim_sum hs) i hR8).mpr ⟨hi, hplay⟩
  rw [candidate_loop_single hs hs.length (nim_sum hs)
    (playable_rows_bitmap hs hs.length (nim_sum hs)) i hi
    (only_playable_one_big hs i hR hi hbig hothers)]
  exact candidate_row_one_big_table hs _ i hR hi hbig hothers hbit

/-- One iteration of the candidate loop on a board of an odd number of unit
heaps and no larger heap: the counter stays even and nothing is assigned. -/
theorem candidate_row_units (hs : List Nat) (hR8 : hs.length ≤ 8)
    (hsmall : ∀ a ∈ hs, a ≤ 1) (hodd : unity_count hs % 2 = 1)
    (e : CandState) (j : Nat) (he : e.unityheaps % 2 = 0) :
    (candidate_row hs hs.length (nim_sum hs)
        (playable_rows_bitmap hs hs.length (nim_sum hs)) e j).unityheaps % 2 = 0 ∧
    (candidate_row hs hs.length (nim_sum hs)
        (playable_rows_bitmap hs hs.length (nim_sum hs)) e j).quality = e.quality ∧
    (candidate_row hs hs.length (nim_sum hs)
        (playable_rows_bitmap hs hs.length (nim_sum hs)) e j).candidate = e.candidate := by
  by_cases hb : playable_rows_bitmap hs hs.length (nim_sum hs) &&& (1 <<< j) ≠ 0
  · obtain ⟨hj, hplay⟩ := (bitmap_test hs hs.length (nim_sum hs) j hR8).mp hb
    have hx : nim_sum hs = 1 := by rw [nim_sum_small hs hsmall, hodd]
    have hle : hs.getD j 0 ≤ 1 := hsmall _ (getD_mem_of_lt hs j hj)
    have hj1 : hs.getD j 0 = 1 := by omega
    have hothers : ∀ k, k < hs.length → k ≠ j → hs.getD k 0 ≤ 1 :=
      fun k hk _ => hsmall _ (getD_mem_of_lt hs k hk)
    have hcount := unity_count_set hs j 0 hj
    rw [hj1, if_pos rfl, if_neg (by omega)] at hcount
    unfold candidate_row
    rw [if_pos hb]
    dsimp only
    rw [interim_xor_getD hs hs.length (nim_sum hs) hj, hx, hj1, Nat.xor_self,
      scan_others_small hs j _ hj hothers]
    dsimp only
    have heven : ¬ ((e.unityheaps + unity_count (hs.set j 0)) &&& 1 ≠ 0) := by
      rw [Nat.and_one_is_mod]; omega
    simp only [show ¬ ((0 : Nat) = 1) by omega, if_false, Nat.zero_le, true_and, if_true,
      heven, hj1, gt_iff_lt, Nat.lt_irrefl]
    exact ⟨by omega, trivial⟩
  · rw [candidate_row_skip _ _ _ _ e j hb]
    exact ⟨he, rfl, rfl⟩

theorem candidate_fold_units (hs : List Nat) (hR8 : hs.length ≤ 8)
    (hsmall : ∀ a ∈ hs, a ≤ 1) (hodd : unity_count hs % 2 = 1) (l : List Nat) :
    ∀ e : CandState, e.unityheaps % 2 = 0 →
      (l.foldl (candidate_row hs hs.length (nim_sum hs)
        (playable_rows_bitmap hs hs.length (nim_sum hs))) e).unityheaps % 2 = 0 ∧
      (l.foldl (candidate_row hs hs.length (nim_sum hs)
        (playable_rows_bitmap hs hs.length (nim_sum hs))) e).quality = e.quality ∧
      (l.foldl (candidate_row hs hs.length (nim_sum hs)
        (playable_rows_bitmap hs hs.length (nim_sum hs))) e).candidate = e.candidate := by
  induction l with
  | nil => intro e he; exact ⟨he, rfl, rfl⟩
  | cons a t ih =>
    intro e he
    obtain ⟨h1, h2, h3⟩ := candidate_row_units hs hR8 hsmall hodd e a he
    obtain ⟨k1, k2, k3⟩ := ih _ h1
    rw [List.foldl_cons]
    exact ⟨k1, k2.trans h2, k3.trans h3⟩

/-- On a board of an odd number of unit heaps and no larger heap the
candidate loop ends as it started: every quality 0, no candidate assigned. -/
theorem candidate_loop_units (hs : List Nat) (hR8 : hs.length ≤ 8)
    (hsmall : ∀ a ∈ hs, a ≤ 1) (hodd : unity_count hs % 2 = 1) :
    (candidate_loop hs hs.length (nim_sum hs)
        (playable_rows_bitmap hs hs.length (nim_sum hs))).quality
      = List.replicate MAXROWS 0 ∧
    (candidate_loop hs hs.length (nim_sum hs)
        (playable_rows_bitmap hs hs.length (nim_sum hs))).candidate
      = List.replicate MAXROWS none := by
  unfold candidate_loop
  have := candidate_fold_units hs hR8 hsmall hodd (List.range hs.length).reverse
    { unityheaps := 0, quality := List.replicate MAXROWS 0,
      candidate := List.replicate MAXROWS none } rfl
  exact ⟨this.2.1, this.2.2⟩

theorem unity_count_eraseIdx (l : List Nat) (i : Nat) (hi : i < l.length) :
    unity_count (l.eraseIdx i) + (if l.getD i 0 = 1 then 1 else 0) = unity_count l := by
  induction l generalizing i with
  | nil => simp at hi
  | cons a t ih =>
    cases i with
    | zero =>
      simp only [List.eraseIdx_cons_zero, unity_count_cons, List.getD_cons_zero]
    | succ i =>
      have hi2 : i < t.length := by simpa using hi
      have := ih i hi2
      simp only [List.eraseIdx_cons_succ, unity_count_cons, List.getD_cons_succ]
      omega

/-! ## The random register -/

theorem xor_shiftRight_zero (r k : Nat) (hk : 0 < k) (h : r ^^^ (r >>> k) = 0) : r = 0 := by
  have h1 : r = r >>> k := Nat.xor_eq_zero.mp h
  rw [Nat.shiftRight_eq_div_pow] at h1
  rcases Nat.eq_zero_or_pos r with h0 | h0
  · exact h0
  · have h2 : 2 ≤ 2 ^ k := by
      calc 2 = 2 ^ 1 := by norm_num
        _ ≤ 2 ^ k := Nat.pow_le_pow_right (by norm_num) hk
    have : r / 2 ^ k < r := Nat.div_lt_self h0 h2
    omega

theorem xor_shiftLeft_zero (r : Nat) (hr : r < 65536)
    (h : (r ^^^ (r <<< 9)) % 65536 = 0) : r = 0 := by
  have hb : ∀ j, ((r ^^^ (r <<< 9)) % 65536).testBit j = false := by
    intro j; rw [h]; exact Nat.zero_testBit j
  have hbit : ∀ j, j < 16 →
      (r.testBit j ^^ (decide (j ≥ 9) && r.testBit (j - 9))) = false := by
    intro j hj
    have := hb j
    rw [show (65536 : Nat) = 2 ^ 16 by norm_num, Nat.testBit_mod_two_pow, Nat.testBit_xor,
      Nat.testBit_shiftLeft] at this
    simpa [hj] using this
  have hlow : ∀ j, j < 9 → r.testBit j = false := by
    intro j hj
    have := hbit j (by omega)
    simpa [show ¬ j ≥ 9 by omega] using this
  apply Nat.eq_of_testBit_eq
  intro j
  rw [Nat.zero_testBit]
  by_cases hj : j < 16
  · by_cases h9 : j < 9
    · exact hlow j h9
    · have := hbit j hj
      have hl := hlow (j - 9) (by omega)
      rw [hl] at this
      simpa using this
  · apply Nat.testBit_lt_two_pow
    calc r < 2 ^ 16 := by norm_num; exact hr
      _ ≤ 2 ^ j := Nat.pow_le_pow_right (by norm_num) (by omega)

theorem shiftRight_lt (r k : Nat) (hr : r < 65536) : r >>> k < 65536 := by
  rw [Nat.shiftRight_eq_div_pow]
  exact Nat.lt_of_le_of_lt (Nat.div_le_self _ _) hr

theorem xor_lt_65536 (a b : Nat) (ha : a < 65536) (hb : b < 65536) : a ^^^ b < 65536 := by
  have := @Nat.xor_lt_two_pow a b 16 (by norm_num; exact ha) (by norm_num; exact hb)
  norm_num at this
  exact this

/-- One round of `random_num` on a 16-bit register: the result is a 16-bit
value, and it is zero exactly when the register was zero. -/
theorem random_round_zero_iff (r : Nat) (hr : r < 65536) :
    random_round r < 65536 ∧ (random_round r = 0 ↔ r = 0) := by
  unfold random_round
  dsimp only
  have h1 : r ^^^ (r >>> 7) < 65536 := xor_lt_65536 _ _ hr (shiftRight_lt r 7 hr)
  have h2 : ((r ^^^ (r >>> 7)) ^^^ ((r ^^^ (r >>> 7)) <<< 9)) % 65536 < 65536 :=
    Nat.mod_lt _ (by norm_num)
  refine ⟨xor_lt_65536 _ _ h2 (shiftRight_lt _ 13 h2), ?_, ?_⟩
  · intro h
    have e2 := xor_shiftRight_zero _ 13 (by norm_num) h
    have e1 := xor_shiftLeft_zero _ h1 e2
    exact xor_shiftRight_zero r 7 (by norm_num) e1
  · intro h
    subst h
    decide

/-- Function `random_num` on a 16-bit register: the new register is a 16-bit
value, and it is zero exactly when the register was zero. -/
theorem random_num_zero_iff (r : Nat) (hr : r < 65536) :
    (random_num r).2 < 65536 ∧ ((random_num r).2 = 0 ↔ r = 0) := by
  unfold random_num
  dsimp only
  obtain ⟨b1, z1⟩ := random_round_zero_iff r hr
  obtain ⟨b2, z2⟩ := random_round_zero_iff _ b1
  obtain ⟨b3, z3⟩ := random_round_zero_iff _ b2
  obtain ⟨b4, z4⟩ := random_round_zero_iff _ b3
  obtain ⟨b5, z5⟩ := random_round_zero_iff _ b4
  obtain ⟨b6, z6⟩ := random_round_zero_iff _ b5
  obtain ⟨b7, z7⟩ := random_round_zero_iff _ b6
  obtain ⟨b8, z8⟩ := random_round_zero_iff _ b7
  exact ⟨b8, z8.trans (z7.trans (z6.trans (z5.trans (z4.trans (z3.trans (z2.trans z1))))))⟩

theorem setup_row_zero (ns : List Nat) (i : Nat) : setup_row (ns, 0) i = (ns.set i 1, 0) := by
  unfold setup_row
  have : random_num 0 = (0, 0) := by decide
  rw [this]
  rfl

/-- With register 0 the setup loop writes 1 into every row and leaves the
register at 0. -/
theorem setup_rows_zero (a b c d e : Nat) :
    (List.range 4).foldl setup_row ([a, b, c, d, e], 0) = ([1, 1, 1, 1, e], 0) ∧
    (List.range 5).foldl setup_row ([a, b, c, d, e], 0) = ([1, 1, 1, 1, 1], 0) := by
  have h4 : List.range 4 = [0, 1, 2, 3] := by decide
  have h5 : List.range 5 = [0, 1, 2, 3, 4] := by decide
  rw [h4, h5]
  simp only [List.foldl_cons, List.foldl_nil, setup_row_zero]
  exact ⟨rfl, rfl⟩

/-! ## The button debounce -/

theorem registered_set (l : List Nat) (i v : Nat) (hi : i < l.length) :
    (l.set i v).countP (fun s => decide (s ≠ UNPRESSED))
        + (if l.getD i 0 ≠ UNPRESSED then 1 else 0)
      = l.countP (fun s => decide (s ≠ UNPRESSED)) + (if v ≠ UNPRESSED then 1 else 0) := by
  induction l generalizing i with
  | nil => simp at hi
  | cons a t ih =>
    cases i with
    | zero =>
      simp only [List.set_cons_zero, List.countP_cons, List.getD_cons_zero, decide_eq_true_eq]
      omega
    | succ i =>
      have hi2 : i < t.length := by simpa using hi
      have := ih i hi2
      simp only [List.set_cons_succ, List.countP_cons, List.getD_cons_succ]
      omega

theorem set_of_length_le {α : Type} (l : List α) (i : Nat) (v : α) (hi : l.length ≤ i) :
    l.set i v = l := by
  induction l generalizing i with
  | nil => rfl
  | cons a t ih =>
    cases i with
    | zero => simp at hi
    | succ i =>
      rw [List.set_cons_succ, ih i (by simpa using hi)]

/-- Writing `UNPRESSED` into an entry does not raise the number of registered
buttons. -/
theorem registered_set_unpressed (l : List Nat) (i : Nat) :
    (l.set i UNPRESSED).countP (fun s => decide (s ≠ UNPRESSED))
      ≤ l.countP (fun s => decide (s ≠ UNPRESSED)) := by
  rcases Nat.lt_or_ge i l.length with hi | hi
  · have := registered_set l i UNPRESSED hi
    have hn : ¬ (UNPRESSED ≠ UNPRESSED) := fun h => h rfl
    rw [if_neg hn] at this
    split_ifs at this <;> omega
  · rw [set_of_length_le l i _ hi]

/-- Writing into a list whose entries are all `UNPRESSED` leaves at most one
registered button. -/
theorem registered_set_fresh (l : List Nat) (i v : Nat)
    (hall : ∀ j, j < l.length → l.getD j 0 = UNPRESSED) :
    (l.set i v).countP (fun s => decide (s ≠ UNPRESSED)) ≤ 1 := by
  have hzero : l.countP (fun s => decide (s ≠ UNPRESSED)) = 0 := by
    rw [List.countP_eq_zero]
    intro a ha
    obtain ⟨j, hj, hja⟩ := List.mem_iff_getElem.mp ha
    have := hall j hj
    rw [List.getD_eq_getElem _ _ hj, hja] at this
    simp [this]
  rcases Nat.lt_or_ge i l.length with hi | hi
  · have := registered_set l i v hi
    rw [hzero] at this
    split_ifs at this <;> omega
  · rw [set_of_length_le l i _ hi, hzero]
    omega

/-- Marking a registered entry `PRESS_ACTIONED` keeps the number of registered
buttons. -/
theorem registered_set_actioned (l : List Nat) (i : Nat) (h : l.getD i 0 = FIRST_PRESS) :
    (l.set i PRESS_ACTIONED).countP (fun s => decide (s ≠ UNPRESSED))
      = l.countP (fun s => decide (s ≠ UNPRESSED)) := by
  rcases Nat.lt_or_ge i l.length with hi | hi
  · have := registered_set l i PRESS_ACTIONED hi
    rw [h, if_pos (by decide), if_pos (by decide)] at this
    omega
  · rw [set_of_length_le l i _ hi]

theorem scan_buttons_fold (status : List Nat) (pins : Nat → Nat) (k : Nat) :
    ((List.range k).foldl
      (fun (acc : Nat × Nat) i =>
        if status.getD i 0 = UNPRESSED then
          if pins i ≠ 1 then (i + 1, acc.2) else acc
        else (acc.1, i + 1)) (0, 0)).2 = 0 →
    ∀ i, i < k → status.getD i 0 = UNPRESSED := by
  induction k with
  | zero => intro _ i hi; omega
  | succ k ih =>
    rw [List.range_succ, List.foldl_append, List.foldl_cons, List.foldl_nil]
    intro h i hi
    by_cases hk : status.getD k 0 = UNPRESSED
    · rw [if_pos hk] at h
      have h2 : ((List.range k).foldl
          (fun (acc : Nat × Nat) i =>
            if status.getD i 0 = UNPRESSED then
              if pins i ≠ 1 then (i + 1, acc.2) else acc
            else (acc.1, i + 1)) (0, 0)).2 = 0 := by
        split_ifs at h <;> exact h
      by_cases hik : i = k
      · subst hik; exact hk
      · exact ih h2 i (by omega)
    · rw [if_neg hk] at h
      simp only at h
      omega

/-- When the scan of `fast_tick` finds no button already recorded, every
entry of `button_status` is `UNPRESSED`. -/
theorem scan_buttons_none (status : List Nat) (pins : Nat → Nat)
    (h : (scan_buttons status pins).2 = 0) :
    ∀ i, i < NUM_BUTTONS → status.getD i 0 = UNPRESSED :=
  scan_buttons_fold status pins NUM_BUTTONS h

/-- What a tick does to `button_status`: nothing, or the registration of a
press when no button was recorded, or the release of an entry. -/
theorem fast_tick_status (b : Buttons) (pins : Nat → Nat) (playing : Nat) :
    (fast_tick_buttons b pins playing).button_status = b.button_status ∨
    ((scan_buttons b.button_status pins).2 = 0 ∧
      (fast_tick_buttons b pins playing).button_status
        = b.button_status.set ((scan_buttons b.button_status pins).1 - 1) FIRST_PRESS) ∨
    (fast_tick_buttons b pins playing).button_status
      = b.button_status.set ((scan_buttons b.button_status pins).2 - 1) UNPRESSED := by
  unfold fast_tick_buttons
  dsimp only
  by_cases hin : b.do_all_button_inhibit = 0
  · rw [if_pos hin]
    by_cases h1 : (scan_buttons b.button_status pins).2 = 0 ∧
        (scan_buttons b.button_status pins).1 > 0
    · rw [if_pos h1]
      exact Or.inr (Or.inl ⟨h1.1, rfl⟩)
    · rw [if_neg h1]
      by_cases h2 : (scan_buttons b.button_status pins).2 > 0
      · rw [if_pos h2]
        by_cases h3 : (b.press_ticks + 1) % 4294967296 < DEBOUNCE_TICK_PERIOD
        · rw [if_pos h3]; exact Or.inl rfl
        · rw [if_neg h3]
          by_cases h4 : pins ((scan_buttons b.button_status pins).2 - 1) ≠ 1
          · rw [if_pos h4]; exact Or.inl rfl
          · rw [if_neg h4]; exact Or.inr (Or.inr rfl)
      · rw [if_neg h2]; exact Or.inl rfl
  · rw [if_neg hin]
    split_ifs <;> exact Or.inl rfl

theorem fast_tick_length (b : Buttons) (pins : Nat → Nat) (playing : Nat) :
    (fast_tick_buttons b pins playing).button_status.length = b.button_status.length := by
  rcases fast_tick_status b pins playing with h | ⟨_, h⟩ | h <;> rw [h]
  · exact List.length_set _ _ _
  · exact List.length_set _ _ _

/-- A tick keeps the invariant: at most one registered button. -/
theorem fast_tick_registered (b : Buttons) (pins : Nat → Nat) (playing : Nat)
    (hlen : b.button_status.length = NUM_BUTTONS) (h : registered_count b ≤ 1) :
    registered_count (fast_tick_buttons b pins playing) ≤ 1 := by
  unfold registered_count at *
  rcases fast_tick_status b pins playing with h1 | ⟨h0, h1⟩ | h1 <;> rw [h1]
  · exact h
  · apply registered_set_fresh
    intro j hj
    exact scan_buttons_none _ pins h0 j (by omega)
  · exact Nat.le_trans (registered_set_unpressed _ _) h

theorem mark_actioned_loop_spec (n : Nat) :
    ∀ (i : Nat) (status : List Nat),
      (mark_actioned_loop n i status).length = status.length ∧
      (mark_actioned_loop n i status).countP (fun s => decide (s ≠ UNPRESSED))
        = status.countP (fun s => decide (s ≠ UNPRESSED)) := by
  induction n with
  | zero => intro i status; exact ⟨rfl, rfl⟩
  | succ n ih =>
    intro i status
    unfold mark_actioned_loop
    by_cases h : status.getD i 0 = FIRST_PRESS
    · rw [if_pos h]
      exact ⟨List.length_set _ _ _, registered_set_actioned status i h⟩
    · rw [if_neg h]
      exact ih (i + 1) status

/-- The invariant of the button handling. -/
theorem buttons_invariant (b : Buttons) (h : ButtonsReachable b) :
    b.button_status.length = NUM_BUTTONS ∧ registered_count b ≤ 1 := by
  induction h with
  | init => exact ⟨by decide, by decide⟩
  | tick b pins playing _ ih =>
    exact ⟨by rw [fast_tick_length]; exact ih.1, fast_tick_registered b pins playing ih.1 ih.2⟩
  | mark b _ ih =>
    have hs := mark_actioned_loop_spec NUM_BUTTONS 0 b.button_status
    refine ⟨hs.1.trans ih.1, ?_⟩
    unfold registered_count user_play_mark
    dsimp only
    rw [hs.2]
    exact ih.2
  | clear b _ ih => exact ih

theorem buttons_tick (b b2 : Buttons) (pins : Nat → Nat) (playing : Nat)
    (h : ButtonsReachable b) (heq : fast_tick_buttons b pins playing = b2) :
    ButtonsReachable b2 :=
  heq ▸ ButtonsReachable.tick b pins playing h

theorem buttons_mark (b b2 : Buttons) (h : ButtonsReachable b) (heq : user_play_mark b = b2) :
    ButtonsReachable b2 :=
  heq ▸ ButtonsReachable.mark b h

/-! ## Yield without a move -/

/-- The computer button pressed without command, with fewer than 9 rows:
`user_play` changes nothing and returns 9. -/
theorem user_play_computer_button (g : Game) (hrows : g.rows < 9) :
    user_play g ⟨COMPUTER_BUTTON, 0⟩ = (g, 9) := by
  unfold user_play
  simp only [ne_eq, not_true_eq_false, if_false, if_true]
  unfold row_select
  rw [if_neg (by
    intro h
    have := h.1
    omega)]

/-- The desktop selection 9, with fewer than 9 rows: `user_play` changes
nothing and returns 9. -/
theorem user_play_desktop_nine (g : Game) (hrows : g.rows < 9) :
    user_play_desktop g 9 = (g, 9) := by
  unfold user_play_desktop row_select
  rw [if_neg (by
    intro h
    have := h.1
    omega)]
  rfl

/-! ## The weakening pass -/

theorem candidate_fold_length (ns : List Nat) (R x bm : Nat) (l : List Nat) :
    ∀ e : CandState,
      (l.foldl (candidate_row ns R x bm) e).quality.length = e.quality.length ∧
      (l.foldl (candidate_row ns R x bm) e).candidate.length = e.candidate.length := by
  induction l with
  | nil => intro e; exact ⟨rfl, rfl⟩
  | cons a t ih =>
    intro e
    rw [List.foldl_cons]
    have h1 := ih (candidate_row ns R x bm e a)
    have h2 := candidate_row_length ns R x bm e a
    exact ⟨h1.1.trans h2.1, h1.2.trans h2.2⟩

theorem candidate_loop_length (ns : List Nat) (R x bm : Nat) :
    (candidate_loop ns R x bm).quality.length = MAXROWS ∧
    (candidate_loop ns R x bm).candidate.length = MAXROWS := by
  unfold candidate_loop
  have h := candidate_fold_length ns R x bm (List.range R).reverse
    { unityheaps := 0, quality := List.replicate MAXROWS 0,
      candidate := List.replicate MAXROWS none }
  simpa using h

/-- One iteration of the weakening loop against the record of the draws: the
registers agree; a row that does not fire is left alone; a row that fires is
larger than one, gets a quality above `peak_quality` and the candidate
`numsticks[k]-1`; the other rows are untouched. -/
theorem weaken_row_step (ns : List Nat) (pq : Nat) (st : List Nat × List (Option Nat) × Nat)
    (fs : List Nat × Nat) (k : Nat) (hsync : st.2.2 = fs.2) :
    (weaken_row ns pq st k).2.2 = (weaken_fired_row ns fs k).2 ∧
    (weaken_row ns pq st k).1.length = st.1.length ∧
    (weaken_row ns pq st k).2.1.length = st.2.1.length ∧
    (∀ j, j ≠ k → (weaken_row ns pq st k).1.getD j 0 = st.1.getD j 0 ∧
      (weaken_row ns pq st k).2.1.getD j none = st.2.1.getD j none) ∧
    (((weaken_fired_row ns fs k).1 = fs.1 ∧ (weaken_row ns pq st k).1 = st.1 ∧
        (weaken_row ns pq st k).2.1 = st.2.1) ∨
      ((weaken_fired_row ns fs k).1 = fs.1 ++ [k] ∧ 1 < ns.getD k 0 ∧
        (k < st.1.length → pq < (weaken_row ns pq st k).1.getD k 0) ∧
        (k < st.2.1.length →
          (weaken_row ns pq st k).2.1.getD k none = some (ns.getD k 0 - 1)))) := by
  unfold weaken_row weaken_fired_row
  by_cases hbig : ns.getD k 0 > 1
  · rw [if_pos hbig, if_pos hbig]
    dsimp only
    rw [← hsync]
    by_cases hf : (random_num st.2.2).1 > WEAKNESS
    · rw [if_pos hf, if_pos hf]
      by_cases h2 : (random_num (random_num st.2.2).2).1 > 128
      · rw [if_pos h2]
        refine ⟨rfl, ?_, ?_, ?_, Or.inr ⟨rfl, hbig, ?_, ?_⟩⟩
        · simp only [List.length_set]
        · simp only [List.length_set]
        · intro j hj
          exact ⟨by rw [getD_set_ne _ _ _ (Ne.symm hj), getD_set_ne _ _ _ (Ne.symm hj)],
            getD_set_ne _ _ _ (Ne.symm hj)⟩
        · intro hk
          show pq < ((st.1.set k (pq + 1)).set k _).getD k 0
          rw [getD_set_self _ _ _ _ (by simpa using hk), getD_set_self _ _ _ _ hk]
          omega
        · intro hk
          exact getD_set_self _ _ _ _ hk
      · rw [if_neg h2]
        refine ⟨rfl, ?_, ?_, ?_, Or.inr ⟨rfl, hbig, ?_, ?_⟩⟩
        · simp only [List.length_set]
        · simp only [List.length_set]
        · intro j hj
          exact ⟨getD_set_ne _ _ _ (Ne.symm hj), getD_set_ne _ _ _ (Ne.symm hj)⟩
        · intro hk
          show pq < (st.1.set k (pq + 1)).getD k 0
          rw [getD_set_self _ _ _ _ hk]
          omega
        · intro hk
          exact getD_set_self _ _ _ _ hk
    · rw [if_neg hf, if_neg hf]
      exact ⟨rfl, rfl, rfl, fun j _ => ⟨rfl, rfl⟩, Or.inl ⟨rfl, rfl, rfl⟩⟩
  · rw [if_neg hbig, if_neg hbig]
    exact ⟨hsync, rfl, rfl, fun j _ => ⟨rfl, rfl⟩, Or.inl ⟨rfl, rfl, rfl⟩⟩

/-- The weakening loop over the rows `0..k-1` against the record of its
draws. -/
theorem weaken_fold_spec (ns : List Nat) (pq : Nat) (q0 : List Nat)
    (c0 : List (Option Nat)) (rr : Nat) (k : Nat) (hq : k ≤ q0.length) (hc : k ≤ c0.length) :
    ((List.range k).foldl (weaken_row ns pq) (q0, c0, rr)).2.2
      = ((List.range k).foldl (weaken_fired_row ns) ([], rr)).2 ∧
    ((List.range k).foldl (weaken_row ns pq) (q0, c0, rr)).1.length = q0.length ∧
    ((List.range k).foldl (weaken_row ns pq) (q0, c0, rr)).2.1.length = c0.length ∧
    (∀ i, i ∈ ((List.range k).foldl (weaken_fired_row ns) ([], rr)).1 →
      i < k ∧ 1 < ns.getD i 0 ∧
      pq < ((List.range k).foldl (weaken_row ns pq) (q0, c0, rr)).1.getD i 0 ∧
      ((List.range k).foldl (weaken_row ns pq) (q0, c0, rr)).2.1.getD i none
        = some (ns.getD i 0 - 1)) ∧
    (∀ i, i ∉ ((List.range k).foldl (weaken_fired_row ns) ([], rr)).1 →
      ((List.range k).foldl (weaken_row ns pq) (q0, c0, rr)).1.getD i 0 = q0.getD i 0 ∧
      ((List.range k).foldl (weaken_row ns pq) (q0, c0, rr)).2.1.getD i none
        = c0.getD i none) ∧
    (((List.range k).foldl (weaken_fired_row ns) ([], rr)).1 = [] →
      ((List.range k).foldl (weaken_row ns pq) (q0, c0, rr)).1 = q0 ∧
      ((List.range k).foldl (weaken_row ns pq) (q0, c0, rr)).2.1 = c0) := by
  induction k with
  | zero =>
    exact ⟨rfl, rfl, rfl, fun i hi => by simp at hi, fun i _ => ⟨rfl, rfl⟩,
      fun _ => ⟨rfl, rfl⟩⟩
  | succ k ih =>
    obtain ⟨hs, hl1, hl2, hfired, hrest, hnone⟩ := ih (by omega) (by omega)
    rw [List.range_succ, List.foldl_append, List.foldl_append, List.foldl_cons,
      List.foldl_nil, List.foldl_cons, List.foldl_nil]
    generalize (List.range k).foldl (weaken_row ns pq) (q0, c0, rr) = W at *
    generalize (List.range k).foldl (weaken_fired_row ns) ([], rr) = F at *
    obtain ⟨s1, s2, s3, s4, s5⟩ := weaken_row_step ns pq W F k hs
    refine ⟨s1, s2.trans hl1, s3.trans hl2, ?_, ?_, ?_⟩
    · intro i hi
      rcases s5 with ⟨e1, e2, e3⟩ | ⟨e1, hbig, e2, e3⟩
      · rw [e1] at hi
        obtain ⟨a1, a2, a3, a4⟩ := hfired i hi
        rw [e2, e3]
        exact ⟨by omega, a2, a3, a4⟩
      · rw [e1] at hi
        rcases List.mem_append.mp hi with hi1 | hi1
        · obtain ⟨a1, a2, a3, a4⟩ := hfired i hi1
          have hne : i ≠ k := by omega
          rw [(s4 i hne).1, (s4 i hne).2]
          exact ⟨by omega, a2, a3, a4⟩
        · have hik : i = k := by simpa using hi1
          subst hik
          exact ⟨by omega, hbig, e2 (by omega), e3 (by omega)⟩
    · intro i hi
      rcases s5 with ⟨e1, e2, e3⟩ | ⟨e1, hbig, e2, e3⟩
      · rw [e1] at hi
        rw [e2, e3]
        exact hrest i hi
      · rw [e1] at hi
        have hi1 : i ∉ F.1 := fun h => hi (List.mem_append.mpr (Or.inl h))
        have hne : i ≠ k := fun h => hi (List.mem_append.mpr (Or.inr (by simp [h])))
        rw [(s4 i hne).1, (s4 i hne).2]
        exact hrest i hi1
    · intro hnil
      rcases s5 with ⟨e1, e2, e3⟩ | ⟨e1, hbig, e2, e3⟩
      · rw [e1] at hnil
        rw [e2, e3]
        exact hnone hnil
      · rw [e1] at hnil
        simp at hnil

/-- From the second row on, the peak search does not depend on the initial
`peak_candidate`. -/
theorem find_peak_start (q : List Nat) (s : Nat) (k : Nat) (hk : 0 < k) :
    find_peak q k (0, s) = find_peak q k (0, 0) := by
  induction k with
  | zero => omega
  | succ k ih =>
    unfold find_peak
    rw [List.range_succ, List.foldl_append, List.foldl_append]
    rcases Nat.eq_zero_or_pos k with h0 | h0
    · subst h0
      simp
    · have := ih h0
      unfold find_peak at this
      rw [this]

/-- The second peak search, entered with `peak_quality=0` and the
`peak_candidate` of the first, gives what a fresh search gives. -/
theorem find_peak_restart (q q2 : List Nat) (k : Nat) :
    find_peak q2 k (0, (find_peak q k (0, 0)).2) = find_peak q2 k (0, 0) := by
  rcases Nat.eq_zero_or_pos k with h0 | h0
  · subst h0
    rfl
  · exact find_peak_start q2 _ k h0

/-- The selection of a strict level: the peak row of the candidate loop. -/
theorem pick_move_strict (g : Game) (x bm : Nat) (h : ¬ (g.level = 1 ∨ g.level = 2)) :
    pick_move g x bm
      = ((find_peak (candidate_loop g.numsticks g.rows x bm).quality g.rows (0, 0)).2,
         (candidate_loop g.numsticks g.rows x bm).candidate.getD
           (find_peak (candidate_loop g.numsticks g.rows x bm).quality g.rows (0, 0)).2 none,
         g.randreg) := by
  unfold pick_move
  dsimp only
  rw [if_neg h]

/-- The selection of a weakened level when no row fires: the row and the
candidate of the strict selection. -/
theorem pick_move_unfired (g : Game) (x bm : Nat) (hlevel : g.level = 1 ∨ g.level = 2)
    (hR : g.rows ≤ MAXROWS)
    (hquiet : weaken_fired g.numsticks g.rows g.randreg = []) :
    (pick_move g x bm).1
      = (find_peak (candidate_loop g.numsticks g.rows x bm).quality g.rows (0, 0)).2 ∧
    (pick_move g x bm).2.1
      = (candidate_loop g.numsticks g.rows x bm).candidate.getD
          (find_peak (candidate_loop g.numsticks g.rows x bm).quality g.rows (0, 0)).2
          none := by
  obtain ⟨hql, hcl⟩ := candidate_loop_length g.numsticks g.rows x bm
  obtain ⟨_, _, _, _, _, hnone⟩ := weaken_fold_spec g.numsticks
    (find_peak (candidate_loop g.numsticks g.rows x bm).quality g.rows (0, 0)).1
    (candidate_loop g.numsticks g.rows x bm).quality
    (candidate_loop g.numsticks g.rows x bm).candidate g.randreg g.rows
    (by rw [hql]; exact hR) (by rw [hcl]; exact hR)
  unfold weaken_fired at hquiet
  obtain ⟨hq, hc⟩ := hnone hquiet
  unfold pick_move weaken
  dsimp only
  rw [if_pos hlevel]
  dsimp only
  rw [hq, hc, find_peak_restart]
  exact ⟨rfl, rfl⟩

/-- The selection of a weakened level when some row fires: a row that fired,
with the candidate `numsticks[i]-1`. -/
theorem pick_move_fired (g : Game) (x bm : Nat) (hlevel : g.level = 1 ∨ g.level = 2)
    (hR : g.rows ≤ MAXROWS)
    (hfired : weaken_fired g.numsticks g.rows g.randreg ≠ []) :
    ∃ i, i ∈ weaken_fired g.numsticks g.rows g.randreg ∧ i < g.rows ∧
      1 < g.numsticks.getD i 0 ∧ (pick_move g x bm).1 = i ∧
      (pick_move g x bm).2.1 = some (g.numsticks.getD i 0 - 1) := by
  obtain ⟨hql, hcl⟩ := candidate_loop_length g.numsticks g.rows x bm
  obtain ⟨_, _, _, hf, hrest, _⟩ := weaken_fold_spec g.numsticks
    (find_peak (candidate_loop g.numsticks g.rows x bm).quality g.rows (0, 0)).1
    (candidate_loop g.numsticks g.rows x bm).quality
    (candidate_loop g.numsticks g.rows x bm).candidate g.randreg g.rows
    (by rw [hql]; exact hR) (by rw [hcl]; exact hR)
  obtain ⟨h1, _, _, _⟩ := find_peak_spec
    (candidate_loop g.numsticks g.rows x bm).quality g.rows
  unfold weaken_fired at hfired ⊢
  obtain ⟨i0, hi0⟩ := List.exists_mem_of_ne_nil _ hfired
  obtain ⟨hi0R, _, hq0, _⟩ := hf i0 hi0
  have hpick : pick_move g x bm
      = ((find_peak (weaken g.numsticks g.rows
            (find_peak (candidate_loop g.numsticks g.rows x bm).quality g.rows (0, 0)).1
            ((candidate_loop g.numsticks g.rows x bm).quality,
              (candidate_loop g.numsticks g.rows x bm).candidate, g.randreg)).1
            g.rows (0, 0)).2,
         (weaken g.numsticks g.rows
            (find_peak (candidate_loop g.numsticks g.rows x bm).quality g.rows (0, 0)).1
            ((candidate_loop g.numsticks g.rows x bm).quality,
              (candidate_loop g.numsticks g.rows x bm).candidate, g.randreg)).2.1.getD
            (find_peak (weaken g.numsticks g.rows
              (find_peak (candidate_loop g.numsticks g.rows x bm).quality g.rows (0, 0)).1
              ((candidate_loop g.numsticks g.rows x bm).quality,
                (candidate_loop g.numsticks g.rows x bm).candidate, g.randreg)).1
              g.rows (0, 0)).2 none,
         (weaken g.numsticks g.rows
            (find_peak (candidate_loop g.numsticks g.rows x bm).quality g.rows (0, 0)).1
            ((candidate_loop g.numsticks g.rows x bm).quality,
              (candidate_loop g.numsticks g.rows x bm).candidate, g.randreg)).2.2) := by
    unfold pick_move
    dsimp only
    rw [if_pos hlevel, find_peak_restart]
  unfold weaken at hpick
  obtain ⟨k1, _, k3, _⟩ := find_peak_spec
    ((List.range g.rows).foldl (weaken_row g.numsticks
      (find_peak (candidate_loop g.numsticks g.rows x bm).quality g.rows (0, 0)).1)
      ((candidate_loop g.numsticks g.rows x bm).quality,
        (candidate_loop g.numsticks g.rows x bm).candidate, g.randreg)).1 g.rows
  obtain ⟨hp, hm⟩ := k3 (by omega)
  have hge := k1 i0 hi0R
  have hmem : (find_peak ((List.range g.rows).foldl (weaken_row g.numsticks
        (find_peak (candidate_loop g.numsticks g.rows x bm).quality g.rows (0, 0)).1)
        ((candidate_loop g.numsticks g.rows x bm).quality,
          (candidate_loop g.numsticks g.rows x bm).candidate, g.randreg)).1 g.rows (0, 0)).2
      ∈ ((List.range g.rows).foldl (weaken_fired_row g.numsticks) ([], g.randreg)).1 := by
    by_contra hnot
    have hq := (hrest _ hnot).1
    have hle := h1 _ hp
    omega
  obtain ⟨a1, a2, _, a4⟩ := hf _ hmem
  refine ⟨_, hmem, a1, a2, ?_, ?_⟩
  · rw [hpick]
  · rw [hpick]
    exact a4

/-- With a positive nim-sum `computer_play` stores the candidate of the row
that `pick_move` selects. -/
theorem computer_play_pick (g : Game) (cand0 : List Nat) (hR8 : g.rows ≤ 8)
    (hlen : g.rows ≤ g.numsticks.length) (hx : 0 < nim_sum (heaps g)) :
    computer_play g cand0
      = { g with
          numsticks := g.numsticks.set
            (pick_move g (nim_x g.numsticks g.rows)
              (playable_rows_bitmap g.numsticks g.rows (nim_x g.numsticks g.rows))).1
            (read_candidate
              (pick_move g (nim_x g.numsticks g.rows)
                (playable_rows_bitmap g.numsticks g.rows (nim_x g.numsticks g.rows))).2.1
              cand0
              (pick_move g (nim_x g.numsticks g.rows)
                (playable_rows_bitmap g.numsticks g.rows (nim_x g.numsticks g.rows))).1)
          randreg := (pick_move g (nim_x g.numsticks g.rows)
            (playable_rows_bitmap g.numsticks g.rows (nim_x g.numsticks g.rows))).2.2
          current_selection := 0 } := by
  have hl := heaps_length g hlen
  have hR : 0 < g.rows := by
    rcases Nat.eq_zero_or_pos g.rows with h0 | h0
    · have hnil : heaps g = [] := List.length_eq_zero.mp (by rw [hl, h0])
      rw [hnil] at hx
      exact absurd hx (by decide)
    · exact h0
  have hxe := nim_x_heaps g hR hlen
  obtain ⟨i, hi, hplay⟩ := exists_playable (heaps g) hx
  rw [hl] at hi
  have hget : (heaps g).getD i 0 = g.numsticks.getD i 0 := getD_take_lt _ hi
  rw [hget, ← hxe] at hplay
  have hbit := (bitmap_test g.numsticks g.rows (nim_x g.numsticks g.rows) i hR8).mpr
    ⟨hi, hplay⟩
  have hcount := count_ones_pos _ i (by omega) hbit
  unfold computer_play
  dsimp only
  rw [if_pos (by rw [hxe]; exact hx), if_pos hcount]

/-- With nim-sum zero `computer_play` is the fallback, at every level. -/
theorem computer_play_fallback (g : Game) (cand0 : List Nat)
    (hx : ¬ (nim_x g.numsticks g.rows > 0)) :
    computer_play g cand0
      = { g with numsticks := play_any g.numsticks g.rows, current_selection := 0 } := by
  unfold computer_play
  dsimp only
  rw [if_neg hx]

/-! ## The values of the quality array -/

/-- The candidate loop touches the active rows only. -/
theorem candidate_loop_outside (ns : List Nat) (R x bm : Nat) (hR : R ≤ MAXROWS)
    (j : Nat) (hj : R ≤ j) :
    (candidate_loop ns R x bm).quality.getD j 0 = 0 ∧
    (candidate_loop ns R x bm).candidate.getD j none = none := by
  unfold candidate_loop
  have h := (candidate_fold_spec ns R x bm (fun _ _ _ => True)
    (fun _ _ _ _ _ _ _ => trivial) (List.range R).reverse
    (List.nodup_reverse.mpr (List.nodup_range R))
    (fun i hi => List.mem_range.mp (List.mem_reverse.mp hi))
    { unityheaps := 0, quality := List.replicate MAXROWS 0,
      candidate := List.replicate MAXROWS none }
    (by simpa using hR) (by simpa using hR)
    (fun i _ => ⟨replicate_getD_zero i, replicate_getD_none i⟩)).1 j
    (by
      intro hmem
      have := List.mem_range.mp (List.mem_reverse.mp hmem)
      omega)
  exact ⟨h.1.trans (replicate_getD_zero j), h.2.trans (replicate_getD_none j)⟩

/-- On a board with a heap larger than one, every playable row ends with
quality 5 or 9 and an assigned candidate smaller than the heap. -/
theorem candidate_loop_playable (hs : List Nat) (hR : hs.length ≤ MAXROWS)
    (hbigex : ∃ j, j < hs.length ∧ 1 < hs.getD j 0)
    (i : Nat) (hi : i < hs.length)
    (hplay : nim_sum hs ^^^ hs.getD i 0 < hs.getD i 0) :
    ((candidate_loop hs hs.length (nim_sum hs)
        (playable_rows_bitmap hs hs.length (nim_sum hs))).quality.getD i 0 = 5 ∨
      (candidate_loop hs hs.length (nim_sum hs)
        (playable_rows_bitmap hs hs.length (nim_sum hs))).quality.getD i 0 = 9) ∧
    ∃ v, v < hs.getD i 0 ∧
      (candidate_loop hs hs.length (nim_sum hs)
        (playable_rows_bitmap hs hs.length (nim_sum hs))).candidate.getD i none = some v := by
  have hR8 : hs.length ≤ 8 := by unfold MAXROWS at hR; omega
  have hbit := (bitmap_test hs hs.length (nim_sum hs) i hR8).mpr ⟨hi, hplay⟩
  by_cases hother : ∃ j, j < hs.length ∧ j ≠ i ∧ 1 < hs.getD j 0
  · obtain ⟨hq, hc⟩ := candidate_loop_big hs hs.length (nim_sum hs) _ hR i hi hbit hother
    exact ⟨Or.inr hq, _, hplay, hc⟩
  · have hothers : ∀ j, j < hs.length → j ≠ i → hs.getD j 0 ≤ 1 := by
      intro j hj hji
      by_contra hcon
      exact hother ⟨j, hj, hji, by omega⟩
    have hbig : 1 < hs.getD i 0 := by
      obtain ⟨j, hj, hjb⟩ := hbigex
      by_cases hji : j = i
      · subst hji; exact hjb
      · have := hothers j hj hji; omega
    obtain ⟨hq, hc⟩ := candidate_loop_one_big hs i hR hi hbig hothers hplay
    constructor
    · rw [hq]
      split_ifs
      · exact Or.inl rfl
      · exact Or.inr rfl
    · refine ⟨_, ?_, hc⟩
      split_ifs <;> omega

/-- With a positive nim-sum every entry of the quality array is 0, 5 or 9
after the candidate loop. -/
theorem quality_values (hs : List Nat) (hR : hs.length ≤ MAXROWS) (hx : 0 < nim_sum hs)
    (j : Nat) :
    (candidate_loop hs hs.length (nim_sum hs)
        (playable_rows_bitmap hs hs.length (nim_sum hs))).quality.getD j 0 = 0 ∨
    (candidate_loop hs hs.length (nim_sum hs)
        (playable_rows_bitmap hs hs.length (nim_sum hs))).quality.getD j 0 = 5 ∨
    (candidate_loop hs hs.length (nim_sum hs)
        (playable_rows_bitmap hs hs.length (nim_sum hs))).quality.getD j 0 = 9 := by
  have hR8 : hs.length ≤ 8 := by unfold MAXROWS at hR; omega
  rcases Nat.lt_or_ge j hs.length with hj | hj
  · by_cases hbit : playable_rows_bitmap hs hs.length (nim_sum hs) &&& (1 <<< j) ≠ 0
    · have hplay := ((bitmap_test hs hs.length (nim_sum hs) j hR8).mp hbit).2
      by_cases hbigex : ∃ k, k < hs.length ∧ 1 < hs.getD k 0
      · rcases (candidate_loop_playable hs hR hbigex j hj hplay).1 with h | h
        · exact Or.inr (Or.inl h)
        · exact Or.inr (Or.inr h)
      · have hsmall : ∀ a ∈ hs, a ≤ 1 := by
          intro a ha
          obtain ⟨k, hk, hka⟩ := List.mem_iff_getElem.mp ha
          by_contra hcon
          apply hbigex
          refine ⟨k, hk, ?_⟩
          rw [List.getD_eq_getElem _ _ hk, hka]
          omega
        have hodd : unity_count hs % 2 = 1 := by
          have := nim_sum_small hs hsmall
          have h2 := Nat.mod_two_eq_zero_or_one (unity_count hs)
          omega
        left
        rw [(candidate_loop_units hs hR8 hsmall hodd).1]
        exact replicate_getD_zero j
    · exact Or.inl (candidate_loop_unplayable hs hs.length (nim_sum hs) _ hR j hj hbit)
  · exact Or.inl (candidate_loop_outside hs hs.length (nim_sum hs) _ hR j hj).1

/-- On a board with a heap larger than one and a positive nim-sum, the peak
row has positive quality and an assigned candidate smaller than its heap. -/
theorem peak_assigned (hs : List Nat) (hR : hs.length ≤ MAXROWS) (hx : 0 < nim_sum hs)
    (hbigex : ∃ j, j < hs.length ∧ 1 < hs.getD j 0) :
    (find_peak (candidate_loop hs hs.length (nim_sum hs)
        (playable_rows_bitmap hs hs.length (nim_sum hs))).quality hs.length (0, 0)).2
      < hs.length ∧
    0 < (candidate_loop hs hs.length (nim_sum hs)
        (playable_rows_bitmap hs hs.length (nim_sum hs))).quality.getD
        (find_peak (candidate_loop hs hs.length (nim_sum hs)
          (playable_rows_bitmap hs hs.length (nim_sum hs))).quality hs.length (0, 0)).2 0 ∧
    ∃ v, v < hs.getD (find_peak (candidate_loop hs hs.length (nim_sum hs)
        (playable_rows_bitmap hs hs.length (nim_sum hs))).quality hs.length (0, 0)).2 0 ∧
      (candidate_loop hs hs.length (nim_sum hs)
        (playable_rows_bitmap hs hs.length (nim_sum hs))).candidate.getD
        (find_peak (candidate_loop hs hs.length (nim_sum hs)
          (playable_rows_bitmap hs hs.length (nim_sum hs))).quality hs.length (0, 0)).2 none
        = some v := by
  have hR8 : hs.length ≤ 8 := by unfold MAXROWS at hR; omega
  obtain ⟨i0, hi0, hplay0⟩ := exists_playable hs hx
  have hq0 := (candidate_loop_playable hs hR hbigex i0 hi0 hplay0).1
  obtain ⟨h1, _, h3, _⟩ := find_peak_spec
    (candidate_loop hs hs.length (nim_sum hs)
      (playable_rows_bitmap hs hs.length (nim_sum hs))).quality hs.length
  obtain ⟨hp, hm⟩ := h3 (by omega)
  have hle := h1 i0 hi0
  have hpos : 0 < (candidate_loop hs hs.length (nim_sum hs)
      (playable_rows_bitmap hs hs.length (nim_sum hs))).quality.getD
      (find_peak (candidate_loop hs hs.length (nim_sum hs)
        (playable_rows_bitmap hs hs.length (nim_sum hs))).quality hs.length (0, 0)).2 0 := by
    rw [← hm]
    rcases hq0 with h | h <;> omega
  have hbitp : playable_rows_bitmap hs hs.length (nim_sum hs) &&&
      (1 <<< (find_peak (candidate_loop hs hs.length (nim_sum hs)
        (playable_rows_bitmap hs hs.length (nim_sum hs))).quality hs.length (0, 0)).2) ≠ 0 := by
    intro h0
    have := candidate_loop_unplayable hs hs.length (nim_sum hs) _ hR _ hp
      (by intro hne; exact hne h0)
    omega
  have hplayp := ((bitmap_test hs hs.length (nim_sum hs) _ hR8).mp hbitp).2
  exact ⟨hp, hpos, (candidate_loop_playable hs hR hbigex _ hp hplayp).2⟩

theorem has_nonunity_exists (hs : List Nat) (h : has_nonunity hs = true) :
    ∃ j, j < hs.length ∧ 1 < hs.getD j 0 := by
  unfold has_nonunity at h
  rw [List.any_eq_true] at h
  obtain ⟨a, ha, hbig⟩ := h
  obtain ⟨k, hk, hka⟩ := List.mem_iff_getElem.mp ha
  refine ⟨k, hk, ?_⟩
  rw [List.getD_eq_getElem _ _ hk, hka]
  simpa using hbig

theorem has_nonunity_small (hs : List Nat) (h : has_nonunity hs = false) :
    ∀ a ∈ hs, a ≤ 1 := by
  unfold has_nonunity at h
  rw [List.any_eq_false] at h
  intro a ha
  have := h a ha
  simp at this
  exact this

/-- The peak row of `computer_play` on a state with a heap larger than one
and a positive nim-sum: an active row of positive quality whose candidate is
assigned and smaller than the heap. -/
theorem peak_assigned_game (g : Game) (hR : g.rows ≤ MAXROWS)
    (hlen : g.rows ≤ g.numsticks.length) (hx : 0 < nim_sum (heaps g))
    (hbig : has_nonunity (heaps g) = true) :
    (find_peak (quality_table g) g.rows (0, 0)).2 < g.rows ∧
    0 < (quality_table g).getD (find_peak (quality_table g) g.rows (0, 0)).2 0 ∧
    ∃ v, v < g.numsticks.getD (find_peak (quality_table g) g.rows (0, 0)).2 0 ∧
      (candidate_table g).getD (find_peak (quality_table g) g.rows (0, 0)).2 none
        = some v := by
  have hl := heaps_length g hlen
  have hR0 : 0 < g.rows := by
    obtain ⟨j, hj, _⟩ := has_nonunity_exists _ hbig
    omega
  have hloop := candidate_loop_heaps g hR0 hlen
  obtain ⟨hp, hpos, v, hv, hc⟩ := peak_assigned (heaps g) (by rw [hl]; exact hR) hx
    (has_nonunity_exists _ hbig)
  unfold quality_table candidate_table
  rw [hl] at hloop hp hpos hv hc
  rw [hloop]
  have hget : ∀ k, k < g.rows → (heaps g).getD k 0 = g.numsticks.getD k 0 :=
    fun k hk => getD_take_lt _ hk
  rw [hget _ hp] at hv
  exact ⟨hp, hpos, v, hv, hc⟩

/-- On a state with a heap larger than one and a positive nim-sum, at every
level and for every register value, the row that `pick_move` selects is an
active row whose candidate is assigned and smaller than the heap. -/
theorem pick_move_legal (g : Game) (hR : g.rows ≤ MAXROWS)
    (hlen : g.rows ≤ g.numsticks.length) (hx : 0 < nim_sum (heaps g))
    (hbig : has_nonunity (heaps g) = true) :
    ∃ v, (pick_move g (nim_x g.numsticks g.rows)
        (playable_rows_bitmap g.numsticks g.rows (nim_x g.numsticks g.rows))).2.1 = some v ∧
      (pick_move g (nim_x g.numsticks g.rows)
        (playable_rows_bitmap g.numsticks g.rows (nim_x g.numsticks g.rows))).1 < g.rows ∧
      v < g.numsticks.getD (pick_move g (nim_x g.numsticks g.rows)
        (playable_rows_bitmap g.numsticks g.rows (nim_x g.numsticks g.rows))).1 0 := by
  obtain ⟨hp, _, v, hv, hc⟩ := peak_assigned_game g hR hlen hx hbig
  unfold quality_table at hp hv hc
  unfold candidate_table at hc
  by_cases hlevel : g.level = 1 ∨ g.level = 2
  · by_cases hf : weaken_fired g.numsticks g.rows g.randreg = []
    · obtain ⟨h1, h2⟩ := pick_move_unfired g (nim_x g.numsticks g.rows)
        (playable_rows_bitmap g.numsticks g.rows (nim_x g.numsticks g.rows)) hlevel hR hf
      rw [h1, h2]
      exact ⟨v, hc, hp, hv⟩
    · obtain ⟨i, _, hi, hbigi, h1, h2⟩ := pick_move_fired g (nim_x g.numsticks g.rows)
        (playable_rows_bitmap g.numsticks g.rows (nim_x g.numsticks g.rows)) hlevel hR hf
      rw [h1, h2]
      exact ⟨_, rfl, hi, by omega⟩
  · rw [pick_move_strict g _ _ hlevel]
    exact ⟨v, hc, hp, hv⟩

/-- With a positive nim-sum, the arrays on return are those of the candidate
loop, passed through the weakening loop at levels 1 and 2. -/
theorem final_tables_pick (g : Game) (hR8 : g.rows ≤ 8)
    (hlen : g.rows ≤ g.numsticks.length) (hx : 0 < nim_sum (heaps g)) :
    final_tables g
      = if g.level = 1 ∨ g.level = 2 then
          ((weaken g.numsticks g.rows (find_peak (quality_table g) g.rows (0, 0)).1
              (quality_table g, candidate_table g, g.randreg)).1,
           (weaken g.numsticks g.rows (find_peak (quality_table g) g.rows (0, 0)).1
              (quality_table g, candidate_table g, g.randreg)).2.1)
        else (quality_table g, candidate_table g) := by
  have hl := heaps_length g hlen
  have hR : 0 < g.rows := by
    rcases Nat.eq_zero_or_pos g.rows with h0 | h0
    · have hnil : heaps g = [] := List.length_eq_zero.mp (by rw [hl, h0])
      rw [hnil] at hx
      exact absurd hx (by decide)
    · exact h0
  have hxe := nim_x_heaps g hR hlen
  obtain ⟨i, hi, hplay⟩ := exists_playable (heaps g) hx
  rw [hl] at hi
  have hget : (heaps g).getD i 0 = g.numsticks.getD i 0 := getD_take_lt _ hi
  rw [hget, ← hxe] at hplay
  have hbit := (bitmap_test g.numsticks g.rows (nim_x g.numsticks g.rows) i hR8).mpr
    ⟨hi, hplay⟩
  have hcount := count_ones_pos _ i (by omega) hbit
  unfold final_tables quality_table candidate_table
  dsimp only
  rw [if_pos (by rw [hxe]; exact hx), if_pos hcount]

/-- On a state with a heap larger than one and a positive nim-sum, at every
level, some active row has positive quality when `computer_play` returns. -/
theorem final_quality_pos (g : Game) (hR : g.rows ≤ MAXROWS)
    (hlen : g.rows ≤ g.numsticks.length) (hx : 0 < nim_sum (heaps g))
    (hbig : has_nonunity (heaps g) = true) :
    ∃ j, j < g.rows ∧ 0 < (final_tables g).1.getD j 0 := by
  have hR8 : g.rows ≤ 8 := by unfold MAXROWS at hR; omega
  obtain ⟨hp, hq, _⟩ := peak_assigned_game g hR hlen hx hbig
  refine ⟨_, hp, ?_⟩
  rw [final_tables_pick g hR8 hlen hx]
  by_cases hlevel : g.level = 1 ∨ g.level = 2
  · rw [if_pos hlevel]
    have hql : (quality_table g).length = MAXROWS := by
      unfold quality_table; exact (candidate_loop_length _ _ _ _).1
    have hcl : (candidate_table g).length = MAXROWS := by
      unfold candidate_table; exact (candidate_loop_length _ _ _ _).2
    obtain ⟨_, _, _, hf, hrest, _⟩ := weaken_fold_spec g.numsticks
      (find_peak (quality_table g) g.rows (0, 0)).1 (quality_table g) (candidate_table g)
      g.randreg g.rows (by rw [hql]; exact hR) (by rw [hcl]; exact hR)
    unfold weaken
    dsimp only
    by_cases hmem : (find_peak (quality_table g) g.rows (0, 0)).2
        ∈ ((List.range g.rows).foldl (weaken_fired_row g.numsticks) ([], g.randreg)).1
    · have := (hf _ hmem).2.2.1
      omega
    · rw [(hrest _ hmem).1]
      exact hq
  · rw [if_neg hlevel]
    exact hq

/-- Whenever the row selected has an assigned candidate, or the nim-sum is
zero, the result of `computer_play` does not depend on the stack content. -/
theorem computer_play_stack_free (g : Game) (c1 c2 : List Nat) (hR : g.rows ≤ MAXROWS)
    (hlen : g.rows ≤ g.numsticks.length)
    (h : has_nonunity (heaps g) = true ∨ nim_sum (heaps g) = 0) :
    computer_play g c1 = computer_play g c2 := by
  have hR8 : g.rows ≤ 8 := by unfold MAXROWS at hR; omega
  rcases Nat.eq_zero_or_pos (nim_sum (heaps g)) with hz | hpos
  · rcases Nat.eq_zero_or_pos g.rows with h0 | h0
    · unfold computer_play pick_move
      dsimp only
      have hb : playable_rows_bitmap g.numsticks g.rows (nim_x g.numsticks g.rows) = 0 := by
        unfold playable_rows_bitmap
        rw [h0]
        rfl
      rw [hb]
      have hc : ¬ (count_ones 0 ≥ 1) := by decide
      simp only [if_neg hc]
    · have hxe := nim_x_heaps g h0 hlen
      have hx : ¬ (nim_x g.numsticks g.rows > 0) := by rw [hxe]; omega
      rw [computer_play_fallback g c1 hx, computer_play_fallback g c2 hx]
  · have hbig : has_nonunity (heaps g) = true := by
      rcases h with h | h
      · exact h
      · omega
    obtain ⟨v, h1, _, _⟩ := pick_move_legal g hR hlen hpos hbig
    rw [computer_play_pick g c1 hR8 hlen hpos, computer_play_pick g c2 hR8 hlen hpos]
    simp only [h1]
    rfl

/-! ## The unit-heap count of the candidate loop -/

/-- The count `U` of the spec is even on every row whose other heaps are all
at most one. -/
theorem spec_U_even (hs : List Nat) (i : Nat) (hi : i < hs.length)
    (hM : spec_M hs i = false) : spec_U hs i % 2 = 0 := by
  have hothers := spec_M_false hs i hM
  have htarget := target_one_big hs i hi hothers
  have h1 := unity_count_eraseIdx hs i hi
  have h2 := unity_count_set hs i 0 hi
  rw [if_neg (by omega : ¬ (0 = 1))] at h2
  unfold spec_U spec_target heaps_excluding
  rw [htarget]
  have h3 := Nat.mod_two_eq_zero_or_one (unity_count (hs.set i 0))
  split_ifs <;> omega

/-- The candidate loop is the loop up to row `i`, the iteration of row `i`,
and the iterations of the rows below. -/
theorem candidate_loop_split (ns : List Nat) (R x bm i : Nat) (hi : i < R) :
    candidate_loop ns R x bm
      = ((List.range i).reverse).foldl (candidate_row ns R x bm)
          (candidate_row ns R x bm (candidate_loop_before ns R x bm i) i) := by
  have hrange : List.range R
      = List.range i ++ [i] ++ List.range' (i + 1) (R - (i + 1)) := by
    rw [← List.range_succ, List.range_eq_range', List.range_eq_range']
    have := List.range'_append_1 0 (i + 1) (R - (i + 1))
    rw [Nat.zero_add] at this
    rw [this]
    congr 1
    omega
  unfold candidate_loop candidate_loop_before
  rw [hrange]
  simp only [List.reverse_append, List.reverse_cons, List.reverse_nil, List.nil_append,
    List.foldl_append, List.foldl_cons, List.foldl_nil, List.singleton_append]

/-- When the loop reaches the playable row `i`, the count that its parity test
reads is even: on a board whose other heaps are all at most one. -/
theorem unityheaps_at_even (hs : List Nat) (hR : hs.length ≤ MAXROWS)
    (i : Nat) (hi : i < hs.length)
    (hplay : nim_sum hs ^^^ hs.getD i 0 < hs.getD i 0)
    (hothers : ∀ j, j < hs.length → j ≠ i → hs.getD j 0 ≤ 1) :
    unityheaps_at hs hs.length (nim_sum hs)
      (playable_rows_bitmap hs hs.length (nim_sum hs)) i % 2 = 0 := by
  have hR8 : hs.length ≤ 8 := by unfold MAXROWS at hR; omega
  have htarget := target_one_big hs i hi hothers
  have hbefore : (candidate_loop_before hs hs.length (nim_sum hs)
      (playable_rows_bitmap hs hs.length (nim_sum hs)) i).unityheaps % 2 = 0 := by
    unfold candidate_loop_before
    rcases Nat.lt_or_ge 1 (hs.getD i 0) with hbig | hsmall1
    · rw [candidate_fold_none hs hs.length (nim_sum hs) _ _ (by
        intro j hj
        have hj2 := List.mem_range'_1.mp (List.mem_reverse.mp hj)
        exact only_playable_one_big hs i hR hi hbig hothers j (by omega) (by omega))]
      rfl
    · have hsmall : ∀ a ∈ hs, a ≤ 1 := by
        intro a ha
        obtain ⟨k, hk, hka⟩ := List.mem_iff_getElem.mp ha
        have hget : hs.getD k 0 = a := by rw [List.getD_eq_getElem _ _ hk, hka]
        by_cases hki : k = i
        · subst hki; omega
        · have := hothers k hk hki; omega
      have hone : hs.getD i 0 = 1 := by omega
      have hodd : unity_count hs % 2 = 1 := by
        have h2 := unity_count_set hs i 0 hi
        rw [hone, if_pos rfl, if_neg (by omega)] at h2
        rw [hone] at hplay
        have hz : nim_sum hs ^^^ 1 = 0 := by omega
        rw [hone, hz] at htarget
        omega
      exact (candidate_fold_units hs hR8 hsmall hodd _
        { unityheaps := 0, quality := List.replicate MAXROWS 0,
          candidate := List.replicate MAXROWS none } rfl).1
  unfold unityheaps_at
  dsimp only
  rw [interim_xor_getD hs hs.length (nim_sum hs) hi, htarget,
    scan_others_small hs i _ hi hothers]
  have h3 := Nat.mod_two_eq_zero_or_one (unity_count (hs.set i 0))
  dsimp only
  split_ifs <;> omega

/-- The count read in iteration `i` on `g` is the count read on the heap
vector of `g` with its nim-sum. -/
theorem unityheaps_at_heaps (g : Game) (hR : 0 < g.rows)
    (hlen : g.rows ≤ g.numsticks.length) (i : Nat) :
    unityheaps_at g.numsticks g.rows (nim_x g.numsticks g.rows)
        (playable_rows_bitmap g.numsticks g.rows (nim_x g.numsticks g.rows)) i
      = unityheaps_at (heaps g) (heaps g).length (nim_sum (heaps g))
          (playable_rows_bitmap (heaps g) (heaps g).length (nim_sum (heaps g))) i := by
  rw [heaps_length g hlen, ← nim_x_heaps g hR hlen]
  unfold heaps unityheaps_at candidate_loop_before
  dsimp only
  rw [playable_rows_bitmap_take, interim_xor_take]
  have hfold : ∀ e0 : CandState,
      ((List.range' (i + 1) (g.rows - (i + 1))).reverse).foldl
        (candidate_row (g.numsticks.take g.rows) g.rows (nim_x g.numsticks g.rows)
          (playable_rows_bitmap g.numsticks g.rows (nim_x g.numsticks g.rows))) e0
      = ((List.range' (i + 1) (g.rows - (i + 1))).reverse).foldl
        (candidate_row g.numsticks g.rows (nim_x g.numsticks g.rows)
          (playable_rows_bitmap g.numsticks g.rows (nim_x g.numsticks g.rows))) e0 := by
    intro e0
    apply List.foldl_ext
    intro e j hj
    have hj2 := List.mem_range'_1.mp (List.mem_reverse.mp hj)
    exact candidate_row_take g.numsticks g.rows _ _ e (by omega)
  rw [hfold]
  simp only [scan_others_take]

/-! ## The desktop computer_play -/

theorem schar_facts (t : Nat) (h : t < 256) :
    (schar t = 1 ↔ t = 1) ∧ (schar t = 0 ↔ t = 0) ∧
    (schar t ≤ 1 ↔ (t ≤ 1 ∨ 128 ≤ t)) ∧ (schar t % 256).toNat = t := by
  unfold schar
  rw [Nat.mod_eq_of_lt h]
  split_ifs <;> omega

theorem xor_lt_256 (a b : Nat) (ha : a < 256) (hb : b < 256) : a ^^^ b < 256 := by
  have := @Nat.xor_lt_two_pow a b 8 (by norm_num; exact ha) (by norm_num; exact hb)
  norm_num at this
  exact this

theorem nim_sum_lt_256 (hs : List Nat) (h : ∀ a ∈ hs, a < 256) : nim_sum hs < 256 := by
  induction hs with
  | nil => decide
  | cons a t ih =>
    rw [nim_sum_cons]
    have ha := h a (List.mem_cons_self a t)
    have ht := ih (fun b hb => h b (List.mem_cons_of_mem a hb))
    exact xor_lt_256 _ _ ha ht

/-- When the inner scan leaves `unitychecknotneeded` down, every other active
row is at most one. -/
theorem scan_others_quiet (ns : List Nat) (R i u : Nat) (h : (scan_others ns R i u).2 = 0) :
    ∀ j, j < R → j ≠ i → ns.getD j 0 ≤ 1 := by
  intro j hj hji
  by_contra hcon
  have := scan_others_flag ns R i u ⟨j, hj, hji, by omega⟩
  omega

/-- When the inner scan leaves `unitychecknotneeded` down, the nim-sum target
of the row is 0 or 1. -/
theorem target_small_of_quiet (g : Game) (hR : 0 < g.rows)
    (hlen : g.rows ≤ g.numsticks.length) (i u : Nat) (hi : i < g.rows)
    (h : (scan_others g.numsticks g.rows i u).2 = 0) :
    nim_x g.numsticks g.rows ^^^ g.numsticks.getD i 0 ≤ 1 := by
  have hl := heaps_length g hlen
  have hq := scan_others_quiet g.numsticks g.rows i u h
  have hget : ∀ k, k < g.rows → (heaps g).getD k 0 = g.numsticks.getD k 0 :=
    fun k hk => getD_take_lt _ hk
  have hothers : ∀ j, j < (heaps g).length → j ≠ i → (heaps g).getD j 0 ≤ 1 := by
    intro j hj hji
    rw [hl] at hj
    rw [hget j hj]
    exact hq j hj hji
  have ht := target_one_big (heaps g) i (by rw [hl]; exact hi) hothers
  rw [nim_x_heaps g hR hlen, ← hget i hi, ht]
  have := Nat.mod_lt (unity_count ((heaps g).set i 0)) (by omega : 0 < 2)
  omega

/-- One iteration of the desktop candidate loop is the iteration of the
firmware, when the target is a byte and is at most one whenever the inner scan
leaves `unitychecknotneeded` down: the sign of `temp` is then never
consulted. -/
theorem candidate_row_desktop_eq (ns : List Nat) (R x bm : Nat) (e : CandState) (i : Nat)
    (hi : i < R) (hbyte : x ^^^ ns.getD i 0 < 256)
    (hflag : ∀ u, (scan_others ns R i u).2 = 0 → x ^^^ ns.getD i 0 ≤ 1) :
    candidate_row_desktop ns R x bm e i = candidate_row ns R x bm e i := by
  unfold candidate_row_desktop candidate_row
  by_cases hbit : bm &&& (1 <<< i) ≠ 0
  · rw [if_pos hbit, if_pos hbit]
    dsimp only
    rw [interim_xor_getD ns R x hi]
    obtain ⟨f1, f0, fle, ftn⟩ := schar_facts (x ^^^ ns.getD i 0) hbyte
    have hu0 : (if schar (x ^^^ ns.getD i 0) = 1 then e.unityheaps + 1 else e.unityheaps)
        = (if x ^^^ ns.getD i 0 = 1 then e.unityheaps + 1 else e.unityheaps) := by
      by_cases h1 : x ^^^ ns.getD i 0 = 1
      · rw [if_pos h1, if_pos (f1.mpr h1)]
      · rw [if_neg h1, if_neg (fun h => h1 (f1.mp h))]
    rw [hu0, ftn]
    have hfl := hflag (if x ^^^ ns.getD i 0 = 1 then e.unityheaps + 1 else e.unityheaps)
    generalize scan_others ns R i
      (if x ^^^ ns.getD i 0 = 1 then e.unityheaps + 1 else e.unityheaps) = so at hfl ⊢
    generalize schar (x ^^^ ns.getD i 0) = s at f1 f0 fle ⊢
    generalize x ^^^ ns.getD i 0 = t at hbyte f1 f0 fle hfl ⊢
    by_cases hc : t ≤ 1 ∧ so.2 = 0
    · have hd : s ≤ 1 ∧ so.2 = 0 := ⟨fle.mpr (Or.inl hc.1), hc.2⟩
      rw [if_pos hc, if_pos hd]
      by_cases hodd : so.1 &&& 1 ≠ 0
      · rw [if_pos hodd, if_pos hodd]
      · rw [if_neg hodd, if_neg hodd]
        by_cases h1 : t = 1
        · rw [if_pos h1, if_pos (f1.mpr h1)]
        · rw [if_neg h1, if_neg (fun h => h1 (f1.mp h))]
          by_cases h0 : t = 0
          · rw [if_pos h0, if_pos (f0.mpr h0)]
          · rw [if_neg h0, if_neg (fun h => h0 (f0.mp h))]
    · have hd : ¬ (s ≤ 1 ∧ so.2 = 0) := by
        rintro ⟨h1, h2⟩
        exact hc ⟨hfl h2, h2⟩
      rw [if_neg hc, if_neg hd]
  · rw [if_neg hbit, if_neg hbit]

/-- The candidate loop of the desktop is the candidate loop of the firmware,
on byte-sized heaps. -/
theorem candidate_loop_desktop_eq (g : Game) (hR : 0 < g.rows)
    (hlen : g.rows ≤ g.numsticks.length) (hbyte : ∀ a ∈ heaps g, a < 256) (bm : Nat) :
    candidate_loop_desktop g.numsticks g.rows (nim_x g.numsticks g.rows) bm
      = candidate_loop g.numsticks g.rows (nim_x g.numsticks g.rows) bm := by
  have hl := heaps_length g hlen
  unfold candidate_loop_desktop candidate_loop
  apply List.foldl_ext
  intro e i hi
  have hiR : i < g.rows := List.mem_range.mp (List.mem_reverse.mp hi)
  apply candidate_row_desktop_eq _ _ _ _ e i hiR
  · have hx := nim_sum_lt_256 (heaps g) hbyte
    rw [← nim_x_heaps g hR hlen] at hx
    have hget : (heaps g).getD i 0 = g.numsticks.getD i 0 := getD_take_lt _ hiR
    have hmem := getD_mem_of_lt (heaps g) i (by rw [hl]; exact hiR)
    have hb := hbyte _ hmem
    rw [hget] at hb
    exact xor_lt_256 _ _ hx hb
  · intro u hu
    exact target_small_of_quiet g hR hlen i u hiR hu

/-- The desktop `computer_play` is the firmware `computer_play` of a strict
level, on byte-sized heaps. -/
theorem computer_play_desktop_eq (g : Game) (cand0 : List Nat)
    (hlevel : ¬ (g.level = 1 ∨ g.level = 2)) (hR : 0 < g.rows)
    (hlen : g.rows ≤ g.numsticks.length) (hbyte : ∀ a ∈ heaps g, a < 256) :
    computer_play_desktop g cand0 = computer_play g cand0 := by
  unfold computer_play_desktop computer_play
  dsimp only
  rw [pick_move_strict g _ _ hlevel, candidate_loop_desktop_eq g hR hlen hbyte]

/-! ## The announcements of the Yield step -/

/-- The Yield step when no winner has been announced and the stick counts
before and after the opponent's move fit the `char` accumulator: a count of 1
before announces the human and leaves the state; otherwise the opponent moves,
and it is announced exactly when the count after the move is 1. -/
theorem yield_win_detection (c : Ctl) (cand0 : List Nat)
    (hwa : c.winner_announced = 0)
    (hlen : c.game.rows ≤ c.game.numsticks.length)
    (hpre : (heaps c.game).sum < 256)
    (hpost : (heaps (computer_play c.game cand0)).sum < 256) :
    ((heaps c.game).sum = 1 →
      yield_step c cand0
        = ({ game := c.game, winner_announced := 1 }, [Outcome.you_win])) ∧
    ((heaps c.game).sum ≠ 1 →
      (yield_step c cand0).1.game = computer_play c.game cand0 ∧
      ((heaps (computer_play c.game cand0)).sum = 1 →
        (yield_step c cand0).2 = [Outcome.loser] ∧
        (yield_step c cand0).1.winner_announced = 1) ∧
      ((heaps (computer_play c.game cand0)).sum ≠ 1 →
        (yield_step c cand0).2 = [] ∧
        (yield_step c cand0).1.winner_announced = 0)) := by
  have hpre1 := check_sum_one_iff c.game hlen hpre
  have hlen2 : (computer_play c.game cand0).rows
      ≤ (computer_play c.game cand0).numsticks.length := by
    rw [computer_play_rows, computer_play_length]; exact hlen
  have hpost1 := check_sum_one_iff (computer_play c.game cand0) hlen2 hpost
  constructor
  · intro h1
    have hc : check_sum c.game 0 = 1 := hpre1.mpr h1
    unfold yield_step
    simp [hc, hwa]
  · intro h1
    have hc : ¬ check_sum c.game 0 = 1 := fun h => h1 (hpre1.mp h)
    refine ⟨?_, ?_, ?_⟩
    · unfold yield_step
      simp only [hc, hwa, if_false, if_true, and_self]
      split_ifs <;> rfl
    · intro h2
      have hc2 : check_sum (computer_play c.game cand0) 0 = 1 := hpost1.mpr h2
      unfold yield_step
      simp [hc, hwa, hc2]
    · intro h2
      have hc2 : ¬ check_sum (computer_play c.game cand0) 0 = 1 :=
        fun h => h2 (hpost1.mp h)
      unfold yield_step
      simp [hc, hwa, hc2]

/-! ## The stick count after the opponent's move -/

theorem play_any_loop_none (R : Nat) (ns : List Nat) (h : ∀ j, j < R → ns.getD j 0 = 0) :
    ∀ n i, play_any_loop R n i ns = ns := by
  intro n
  induction n with
  | zero => intro i; rfl
  | succ n ih =>
    intro i
    unfold play_any_loop
    by_cases hi : i < R
    · rw [if_pos hi, if_neg (by rw [h i hi]; omega)]
      exact ih (i + 1)
    · rw [if_neg hi]

theorem sum_set (l : List Nat) (i v : Nat) (hi : i < l.length) :
    (l.set i v).sum + l.getD i 0 = l.sum + v := by
  induction l generalizing i with
  | nil => simp at hi
  | cons a t ih =>
    cases i with
    | zero =>
      simp only [List.set_cons_zero, List.sum_cons, List.getD_cons_zero]
      omega
    | succ i =>
      have hi2 : i < t.length := by simpa using hi
      have := ih i hi2
      simp only [List.set_cons_succ, List.sum_cons, List.getD_cons_succ]
      omega

/-- A store into an active row of a value not above the heap does not raise
the stick count. -/
theorem heaps_sum_set (g : Game) (i v : Nat) (hi : i < g.rows)
    (hlen : g.rows ≤ g.numsticks.length) (hv : v ≤ g.numsticks.getD i 0) :
    ((g.numsticks.set i v).take g.rows).sum ≤ (heaps g).sum := by
  have hl := heaps_length g hlen
  have hs := sum_set (heaps g) i v (by rw [hl]; exact hi)
  have hget : (heaps g).getD i 0 = g.numsticks.getD i 0 := getD_take_lt _ hi
  have ht : (g.numsticks.set i v).take g.rows = (heaps g).set i v := by
    unfold heaps
    simp only [List.set_take]
  rw [ht]
  omega

/-- On a board with a heap larger than one, or of nim-sum 0, the boards on
which `computer_play` reads no unassigned slot, the stick count does not grow. -/
theorem computer_play_sum_le (g : Game) (cand0 : List Nat) (hR : g.rows ≤ MAXROWS)
    (hlen : g.rows ≤ g.numsticks.length)
    (h : has_nonunity (heaps g) = true ∨ nim_sum (heaps g) = 0) :
    (heaps (computer_play g cand0)).sum ≤ (heaps g).sum := by
  have hR8 : g.rows ≤ 8 := by unfold MAXROWS at hR; omega
  show ((computer_play g cand0).numsticks.take (computer_play g cand0).rows).sum
    ≤ (heaps g).sum
  rw [computer_play_rows]
  rcases Nat.eq_zero_or_pos g.rows with h0 | h0
  · rw [h0]
    simp
  · rcases Nat.eq_zero_or_pos (nim_sum (heaps g)) with hz | hpos
    · have hxe := nim_x_heaps g h0 hlen
      have hx : ¬ (nim_x g.numsticks g.rows > 0) := by rw [hxe]; omega
      rw [computer_play_fallback g cand0 hx]
      show ((play_any g.numsticks g.rows).take g.rows).sum ≤ (heaps g).sum
      by_cases hex : ∃ i, i < g.rows ∧ 0 < g.numsticks.getD i 0
      · obtain ⟨i, hi, hipos, _, hplay⟩ := play_any_spec g.numsticks g.rows hex
        rw [hplay]
        exact heaps_sum_set g i _ hi hlen (by omega)
      · have hnone : ∀ j, j < g.rows → g.numsticks.getD j 0 = 0 := by
          intro j hj
          by_contra hc
          exact hex ⟨j, hj, by omega⟩
        unfold play_any
        rw [play_any_loop_none g.rows g.numsticks hnone]
        exact Nat.le_refl _
    · have hbig : has_nonunity (heaps g) = true := by
        rcases h with h | h
        · exact h
        · omega
      obtain ⟨v, h1, h2, h3⟩ := pick_move_legal g hR hlen hpos hbig
      rw [computer_play_pick g cand0 hR8 hlen hpos]
      simp only [h1]
      exact heaps_sum_set g _ v h2 hlen (by omega)

/-! ## Weakened and strict levels, for the same stack content -/

/-- At levels 1 and 2, with nim-sum 0 or no row firing in the weakening loop,
`computer_play` leaves the array `numsticks` that it leaves at a strict level
for the same content of the uninitialised array `candidate`. -/
theorem weakened_eq_strict_same_stack (g : Game) (cand0 : List Nat) (k : Nat)
    (hlevel : g.level = 1 ∨ g.level = 2) (hk : k = 3 ∨ k = 4 ∨ k = 5)
    (hR : g.rows ≤ MAXROWS) (hR0 : 0 < g.rows) (hlen : g.rows ≤ g.numsticks.length)
    (hquiet : nim_sum (heaps g) = 0 ∨ weaken_fired g.numsticks g.rows g.randreg = []) :
    (computer_play g cand0).numsticks
      = (computer_play { g with level := k } cand0).numsticks := by
  have hxe := nim_x_heaps g hR0 hlen
  rcases Nat.eq_zero_or_pos (nim_sum (heaps g)) with hz | hpos
  · have hx : ¬ (nim_x g.numsticks g.rows > 0) := by rw [hxe]; omega
    rw [computer_play_fallback g cand0 hx,
      computer_play_fallback { g with level := k } cand0 hx]
  · have hq : weaken_fired g.numsticks g.rows g.randreg = [] := by
      rcases hquiet with h | h
      · omega
      · exact h
    have hR8 : g.rows ≤ 8 := by unfold MAXROWS at hR; omega
    obtain ⟨h1, h2⟩ := pick_move_unfired g (nim_x g.numsticks g.rows)
      (playable_rows_bitmap g.numsticks g.rows (nim_x g.numsticks g.rows)) hlevel hR hq
    have hs := pick_move_strict { g with level := k } (nim_x g.numsticks g.rows)
      (playable_rows_bitmap g.numsticks g.rows (nim_x g.numsticks g.rows))
      (by show ¬ (k = 1 ∨ k = 2); omega)
    rw [computer_play_pick g cand0 hR8 hlen hpos,
      computer_play_pick { g with level := k } cand0 hR8 hlen hpos]
    simp only [h1, h2, hs]

/-! # The claims -/

/-- C1 (code defect).  A level-4 game: `setup_game` with random register 1173
deals `(1,1,1,4)`, the human takes the four sticks of row 4 and yields.  On
`(1,1,1,0)` every playable row has target 0 and size 1, so the candidate loop
assigns no candidate and leaves all qualities 0; the peak search then selects
the last row and the final store writes the unassigned slot `candidate[3]`,
whatever byte `b` the stack holds there.  The heap vector becomes
`(1,1,1,b)`: no heap gets smaller. -/
theorem C1_unit_heaps_store_unassigned_slot (b : Nat) :
    setup_game ⟨[1, 3, 5, 7, 0], 4, 4, 1173, 0⟩ = ⟨[1, 1, 1, 4, 0], 4, 4, 51067, 0⟩ ∧
    (user_play (user_play (user_play (user_play ⟨[1, 1, 1, 4, 0], 4, 4, 51067, 0⟩
        ⟨3, 0⟩).1 ⟨3, 0⟩).1 ⟨3, 0⟩).1 ⟨3, 0⟩).1 = ⟨[1, 1, 1, 0, 0], 4, 4, 51067, 4⟩ ∧
    quality_table ⟨[1, 1, 1, 0, 0], 4, 4, 51067, 4⟩ = [0, 0, 0, 0, 0] ∧
    candidate_table ⟨[1, 1, 1, 0, 0], 4, 4, 51067, 4⟩ = [none, none, none, none, none] ∧
    heaps (computer_play ⟨[1, 1, 1, 0, 0], 4, 4, 51067, 4⟩ [0, 0, 0, b, 0]) = [1, 1, 1, b] ∧
    ∀ i, i < 4 →
      [1, 1, 1, 0].getD i 0
        ≤ (heaps (computer_play ⟨[1, 1, 1, 0, 0], 4, 4, 51067, 4⟩ [0, 0, 0, b, 0])).getD i 0 := by
  refine ⟨by decide, by decide, by decide, by decide, rfl, ?_⟩
  have h : heaps (computer_play ⟨[1, 1, 1, 0, 0], 4, 4, 51067, 4⟩ [0, 0, 0, b, 0])
      = [1, 1, 1, b] := rfl
  rw [h]
  intro i hi
  match i, hi with
  | 0, _ => exact Nat.le_refl _
  | 1, _ => exact Nat.le_refl _
  | 2, _ => exact Nat.le_refl _
  | 3, _ => exact Nat.zero_le _

/-- C2.  Strict levels (3, 4, 5) play misere Nim optimally: on every heap
vector of at most `MAXROWS` rows (so for 3 to 5 rows, and for every heap size,
in particular 0..9) that is winning for the player to move, `computer_play`
leaves a heap vector that is losing for the next player, whatever the stack
holds in the uninitialised array `candidate`. -/
theorem C2_strict_levels_play_optimally (g : Game) (cand0 : List Nat)
    (hlevel : g.level = 3 ∨ g.level = 4 ∨ g.level = 5)
    (hrows : g.rows ≤ MAXROWS)
    (hlen : g.rows ≤ g.numsticks.length)
    (hwin : winning (heaps g) = true) :
    losing (heaps (computer_play g cand0)) = true := by
  have hl := heaps_length g hlen
  have hpos : 0 < g.rows := by
    rcases Nat.eq_zero_or_pos g.rows with h0 | h0
    · have hnil : heaps g = [] := List.length_eq_zero.mp (by rw [hl, h0])
      rw [hnil] at hwin
      exact absurd hwin (by decide)
    · exact h0
  rw [heaps_computer_play g cand0 (by omega) (by omega) hpos, ← hl]
  exact strict_play_winning (heaps g) cand0 (by rw [hl]; exact hrows) hwin

/-- Witness of C2 on the board `(1,3,5,6)` at level 3. -/
theorem C2_strict_levels_play_optimally_witness :
    winning (heaps ⟨[1, 3, 5, 6, 0], 3, 4, 1, 0⟩) = true ∧
    losing (heaps (computer_play ⟨[1, 3, 5, 6, 0], 3, 4, 1, 0⟩ [9, 9, 9, 9, 9])) = true :=
  ⟨by decide, C2_strict_levels_play_optimally ⟨[1, 3, 5, 6, 0], 3, 4, 1, 0⟩ [9, 9, 9, 9, 9]
    (by decide) (by decide) (by decide) (by decide)⟩

/-- C3 (code defect, the one of C1).  The board `(1,1,1,0)` has nim-sum 1; with
the stack byte 2 in the unassigned slot the strict move leaves `(1,1,1,2)`,
whose nim-sum is 3 and which has a heap larger than one. -/
theorem C3_unit_heaps_nim_sum_not_cleared :
    0 < nim_sum (heaps ⟨[1, 1, 1, 0, 0], 4, 4, 1, 0⟩) ∧
    heaps (computer_play ⟨[1, 1, 1, 0, 0], 4, 4, 1, 0⟩ [0, 0, 0, 2, 0]) = [1, 1, 1, 2] ∧
    nim_sum (heaps (computer_play ⟨[1, 1, 1, 0, 0], 4, 4, 1, 0⟩ [0, 0, 0, 2, 0])) ≠ 0 ∧
    has_nonunity (heaps (computer_play ⟨[1, 1, 1, 0, 0], 4, 4, 1, 0⟩ [0, 0, 0, 2, 0]))
      = true := by
  decide

/-- C4 (code defect).  A level-1 game in which the human takes the last stick
and is not declared the loser; between the steps the random register is
advanced by the tick.  From `(1,3,5)` the human empties row 2 and yields; the
weakened opponent (register 3 at the call) plays `(1,0,4)`; the human takes
row 1 and yields; the weakened opponent (register 45358) plays `(0,0,3)`; the
human takes the three sticks of row 3 and yields with no stick left.  The
Yield step announces nothing, leaves `winner_announced` at 0 and runs
`computer_play` on the empty board, which stays empty. -/
theorem C4_last_stick_taken_not_announced :
    (user_play (user_play (user_play ⟨[1, 3, 5, 7, 0], 1, 3, 0, 0⟩ ⟨1, 0⟩).1 ⟨1, 0⟩).1
        ⟨1, 0⟩).1 = ⟨[1, 0, 5, 7, 0], 1, 3, 0, 2⟩ ∧
    (∀ cand0 : List Nat, yield_step ⟨⟨[1, 0, 5, 7, 0], 1, 3, 3, 2⟩, 0⟩ cand0
      = (⟨⟨[1, 0, 4, 7, 0], 1, 3, 45351, 0⟩, 0⟩, [])) ∧
    (user_play ⟨[1, 0, 4, 7, 0], 1, 3, 45353, 0⟩ ⟨0, 0⟩).1
      = ⟨[0, 0, 4, 7, 0], 1, 3, 45353, 1⟩ ∧
    (∀ cand0 : List Nat, yield_step ⟨⟨[0, 0, 4, 7, 0], 1, 3, 45358, 1⟩, 0⟩ cand0
      = (⟨⟨[0, 0, 3, 7, 0], 1, 3, 59676, 0⟩, 0⟩, [])) ∧
    (user_play (user_play (user_play ⟨[0, 0, 3, 7, 0], 1, 3, 59680, 0⟩ ⟨2, 0⟩).1 ⟨2, 0⟩).1
        ⟨2, 0⟩).1 = ⟨[0, 0, 0, 7, 0], 1, 3, 59680, 3⟩ ∧
    (∀ cand0 : List Nat, yield_step ⟨⟨[0, 0, 0, 7, 0], 1, 3, 59700, 3⟩, 0⟩ cand0
      = (⟨⟨[0, 0, 0, 7, 0], 1, 3, 59700, 0⟩, 0⟩, [])) := by
  refine ⟨by decide, fun _ => ?_, by decide, fun _ => ?_, by decide, fun _ => rfl⟩
  · rfl
  · rfl

/-- C5 (code defect, the one of C1).  In the level-4 game of C1 (setup with
register 1173 deals `(1,1,1,4)`, the human takes row 4) the human yields on
`(1,1,1,0)`, total 3.  The opponent stores the unassigned slot `candidate[3]`;
when the stack holds the byte 254 there the board becomes `(1,1,1,254)`, total
257, which the `char` accumulator `check_winner` holds as 1: `LOSER` is
announced and the game ended although 257 sticks remain.  On the boards where
`computer_play` reads no unassigned slot (a heap larger than one, or nim-sum
0) the Yield step does what the claim says: a total of 1 announces the human
and leaves the state; otherwise the opponent moves once and is announced
exactly when the total after its move is 1. -/
theorem C5_loser_announced_with_257_sticks :
    Reachable ⟨⟨[1, 1, 1, 0, 0], 4, 4, 51067, 4⟩, 0⟩ ∧
    (heaps ⟨[1, 1, 1, 0, 0], 4, 4, 51067, 4⟩).sum = 3 ∧
    yield_step ⟨⟨[1, 1, 1, 0, 0], 4, 4, 51067, 4⟩, 0⟩ [0, 0, 0, 254, 0]
      = (⟨⟨[1, 1, 1, 254, 0], 4, 4, 51067, 0⟩, 1⟩, [Outcome.loser]) ∧
    (heaps ⟨[1, 1, 1, 254, 0], 4, 4, 51067, 0⟩).sum = 257 ∧
    (∀ (c : Ctl) (cand0 : List Nat),
      c.winner_announced = 0 →
      c.game.rows ≤ MAXROWS →
      c.game.rows ≤ c.game.numsticks.length →
      (heaps c.game).sum < 256 →
      (has_nonunity (heaps c.game) = true ∨ nim_sum (heaps c.game) = 0) →
      ((heaps c.game).sum = 1 →
        yield_step c cand0
          = ({ game := c.game, winner_announced := 1 }, [Outcome.you_win])) ∧
      ((heaps c.game).sum ≠ 1 →
        (yield_step c cand0).1.game = computer_play c.game cand0 ∧
        ((heaps (computer_play c.game cand0)).sum = 1 →
          (yield_step c cand0).2 = [Outcome.loser] ∧
          (yield_step c cand0).1.winner_announced = 1) ∧
        ((heaps (computer_play c.game cand0)).sum ≠ 1 →
          (yield_step c cand0).2 = [] ∧
          (yield_step c cand0).1.winner_announced = 0))) ∧
    (∀ cand0 : List Nat,
      yield_step ⟨⟨[0, 0, 0, 1, 0], 3, 4, 1, 4⟩, 0⟩ cand0
        = (⟨⟨[0, 0, 0, 1, 0], 3, 4, 1, 4⟩, 1⟩, [Outcome.you_win])) ∧
    (∀ cand0 : List Nat,
      yield_step ⟨⟨[0, 0, 1, 1, 0], 3, 4, 1, 3⟩, 0⟩ cand0
        = (⟨⟨[0, 0, 0, 1, 0], 3, 4, 1, 0⟩, 1⟩, [Outcome.loser])) := by
  have s0 : Reachable ⟨⟨[1, 1, 1, 4, 0], 4, 4, 51067, 0⟩, 0⟩ :=
    reachable_setup ⟨[0, 0, 0, 0, 0], 4, 4, 1173, 0⟩ _ (by decide) (by decide) (by decide)
      (by decide) (by decide)
  have s1 : Reachable ⟨⟨[1, 1, 1, 3, 0], 4, 4, 51067, 4⟩, 0⟩ :=
    reachable_step _ _ ⟨3, 0⟩ [] s0 (by decide) (by decide) (by decide)
  have s2 : Reachable ⟨⟨[1, 1, 1, 2, 0], 4, 4, 51067, 4⟩, 0⟩ :=
    reachable_step _ _ ⟨3, 0⟩ [] s1 (by decide) (by decide) (by decide)
  have s3 : Reachable ⟨⟨[1, 1, 1, 1, 0], 4, 4, 51067, 4⟩, 0⟩ :=
    reachable_step _ _ ⟨3, 0⟩ [] s2 (by decide) (by decide) (by decide)
  have s4 : Reachable ⟨⟨[1, 1, 1, 0, 0], 4, 4, 51067, 4⟩, 0⟩ :=
    reachable_step _ _ ⟨3, 0⟩ [] s3 (by decide) (by decide) (by decide)
  refine ⟨s4, by decide, by decide, by decide, ?_, fun _ => rfl, fun _ => rfl⟩
  intro c cand0 hwa hR hlen hpre hgood
  exact yield_win_detection c cand0 hwa hlen hpre
    (Nat.lt_of_le_of_lt (computer_play_sum_le c.game cand0 hR hlen hgood) hpre)

/-- Instance of the general part of C5: the level-3 opening `(1,3,5,7)` after
the human took one stick of row 4. -/
theorem C5_loser_announced_with_257_sticks_witness :
    (yield_step ⟨⟨[1, 3, 5, 6, 0], 3, 4, 1, 4⟩, 0⟩ [0, 0, 0, 0, 0]).1.game
        = computer_play ⟨[1, 3, 5, 6, 0], 3, 4, 1, 4⟩ [0, 0, 0, 0, 0] ∧
    (yield_step ⟨⟨[1, 3, 5, 6, 0], 3, 4, 1, 4⟩, 0⟩ [0, 0, 0, 0, 0]).2 = [] :=
  have h := (C5_loser_announced_with_257_sticks.2.2.2.2.1
    ⟨⟨[1, 3, 5, 6, 0], 3, 4, 1, 4⟩, 0⟩ [0, 0, 0, 0, 0]
    rfl (by decide) (by decide) (by decide) (Or.inl (by decide))).2 (by decide)
  ⟨h.1, (h.2.2 (by decide)).1⟩

/-- C6, the claim as stated fails: on `(1,3,5,6)` at level 3 the nim-sum is 1,
rows 1, 2 and 3 are playable with quality 9 each, and the move is made in row
3, the highest-indexed of them: the result is `(1,3,4,6)`, not `(1,0,5,6)`. -/
theorem C6_tie_break_counterexample :
    nim_x [1, 3, 5, 6, 0] 4 = 1 ∧
    quality_table ⟨[1, 3, 5, 6, 0], 3, 4, 1, 0⟩ = [9, 9, 9, 0, 0] ∧
    heaps (computer_play ⟨[1, 3, 5, 6, 0], 3, 4, 1, 0⟩ [0, 0, 0, 0, 0]) = [1, 3, 4, 6] ∧
    heaps (computer_play ⟨[1, 3, 5, 6, 0], 3, 4, 1, 0⟩ [0, 0, 0, 0, 0]) ≠ [1, 0, 5, 6] := by
  decide

/-- C6 as amended.  At strict levels, when the nim-sum is not zero and several
playable rows share the highest quality, that quality being positive,
`computer_play` moves in the highest-indexed of them (the peak search scans
the rows upward and `>=` lets a later row replace an earlier one): that row
receives its candidate.  On `(1,3,5,6)` the result is `(1,3,4,6)`. -/
theorem C6_tie_break_highest_index :
    (∀ (g : Game) (cand0 : List Nat) (i : Nat),
      (g.level = 3 ∨ g.level = 4 ∨ g.level = 5) →
      g.rows ≤ MAXROWS →
      0 < nim_x g.numsticks g.rows →
      i < g.rows →
      nim_x g.numsticks g.rows ^^^ g.numsticks.getD i 0 < g.numsticks.getD i 0 →
      0 < (quality_table g).getD i 0 →
      (∀ j, j < g.rows →
        nim_x g.numsticks g.rows ^^^ g.numsticks.getD j 0 < g.numsticks.getD j 0 →
        (quality_table g).getD j 0 ≤ (quality_table g).getD i 0) →
      (∀ j, j < g.rows → i < j →
        nim_x g.numsticks g.rows ^^^ g.numsticks.getD j 0 < g.numsticks.getD j 0 →
        (quality_table g).getD j 0 < (quality_table g).getD i 0) →
      ∃ v, (candidate_table g).getD i none = some v ∧
        (computer_play g cand0).numsticks = g.numsticks.set i v) ∧
    (∀ cand0 : List Nat,
      heaps (computer_play ⟨[1, 3, 5, 6, 0], 3, 4, 1, 0⟩ cand0) = [1, 3, 4, 6]) := by
  refine ⟨?_, fun _ => rfl⟩
  intro g cand0 i hlevel hR hx hi hplay hpos hmax hlast
  have hR8 : g.rows ≤ 8 := by unfold MAXROWS at hR; omega
  unfold quality_table at hpos hmax hlast
  have hzero : ∀ j, j < g.rows →
      ¬ (nim_x g.numsticks g.rows ^^^ g.numsticks.getD j 0 < g.numsticks.getD j 0) →
      (candidate_loop g.numsticks g.rows (nim_x g.numsticks g.rows)
        (playable_rows_bitmap g.numsticks g.rows (nim_x g.numsticks g.rows))).quality.getD j 0
        = 0 := by
    intro j hj hnp
    apply candidate_loop_unplayable g.numsticks g.rows (nim_x g.numsticks g.rows) _ hR j hj
    intro hbit
    exact hnp ((bitmap_test g.numsticks g.rows (nim_x g.numsticks g.rows) j hR8).mp hbit).2
  obtain ⟨v, hv⟩ := candidate_loop_assigned g.numsticks g.rows (nim_x g.numsticks g.rows) _ hR
    i hi hpos
  refine ⟨v, hv, ?_⟩
  have hmax2 : ∀ j, j < g.rows →
      (candidate_loop g.numsticks g.rows (nim_x g.numsticks g.rows)
        (playable_rows_bitmap g.numsticks g.rows (nim_x g.numsticks g.rows))).quality.getD j 0
      ≤ (candidate_loop g.numsticks g.rows (nim_x g.numsticks g.rows)
        (playable_rows_bitmap g.numsticks g.rows (nim_x g.numsticks g.rows))).quality.getD i 0 := by
    intro j hj
    by_cases hp : nim_x g.numsticks g.rows ^^^ g.numsticks.getD j 0 < g.numsticks.getD j 0
    · exact hmax j hj hp
    · rw [hzero j hj hp]; exact Nat.zero_le _
  have hlast2 : ∀ j, i < j → j < g.rows →
      (candidate_loop g.numsticks g.rows (nim_x g.numsticks g.rows)
        (playable_rows_bitmap g.numsticks g.rows (nim_x g.numsticks g.rows))).quality.getD j 0
      < (candidate_loop g.numsticks g.rows (nim_x g.numsticks g.rows)
        (playable_rows_bitmap g.numsticks g.rows (nim_x g.numsticks g.rows))).quality.getD i 0 := by
    intro j hij hj
    by_cases hp : nim_x g.numsticks g.rows ^^^ g.numsticks.getD j 0 < g.numsticks.getD j 0
    · exact hlast j hj hij hp
    · rw [hzero j hj hp]; exact hpos
  rw [strict_numsticks g cand0 (by omega) (by omega),
    strict_play_pick g.numsticks g.rows cand0 hR hx i hi hplay,
    find_peak_eq _ g.rows i hi hmax2 hlast2]
  simp only
  rw [hv]
  rfl

/-- Witness of C6 as amended, on `(1,3,5,6)` with row 3 (index 2). -/
theorem C6_tie_break_highest_index_witness :
    ∃ v, (candidate_table ⟨[1, 3, 5, 6, 0], 3, 4, 1, 0⟩).getD 2 none = some v ∧
      (computer_play ⟨[1, 3, 5, 6, 0], 3, 4, 1, 0⟩ [0, 0, 0, 0, 0]).numsticks
        = [1, 3, 5, 6, 0].set 2 v :=
  C6_tie_break_highest_index.1 ⟨[1, 3, 5, 6, 0], 3, 4, 1, 0⟩ [0, 0, 0, 0, 0] 2
    (by decide) (by decide) (by decide) (by decide) (by decide) (by decide) (by decide)
    (by decide)

/-- C7.  Zero nim-sum fallback: on every heap vector with nim-sum 0 that is
not all zero, `computer_play` (at every level, so also at the strict ones)
returns the input with the lowest-indexed nonempty heap decremented by
exactly one and every other entry unchanged; `(1,2,3)` becomes `(0,2,3)`. -/
theorem C7_zero_nim_sum_fallback :
    (∀ (g : Game) (cand0 : List Nat),
      g.rows ≤ g.numsticks.length →
      nim_sum (heaps g) = 0 →
      (∃ i, i < g.rows ∧ 0 < g.numsticks.getD i 0) →
      ∃ i, i < g.rows ∧ 0 < g.numsticks.getD i 0 ∧
        (∀ j, j < i → g.numsticks.getD j 0 = 0) ∧
        (computer_play g cand0).numsticks
          = g.numsticks.set i (g.numsticks.getD i 0 - 1)) ∧
    (∀ cand0 : List Nat,
      heaps (computer_play ⟨[1, 2, 3, 7, 0], 3, 3, 1, 0⟩ cand0) = [0, 2, 3]) := by
  refine ⟨?_, fun _ => rfl⟩
  intro g cand0 hlen hsum hex
  have hR : 0 < g.rows := by
    obtain ⟨i, hi, _⟩ := hex
    omega
  have hx : ¬ (nim_x g.numsticks g.rows > 0) := by
    rw [nim_x_heaps g hR hlen, hsum]; omega
  obtain ⟨i, hi, hpos, hz, hplay⟩ := play_any_spec g.numsticks g.rows hex
  refine ⟨i, hi, hpos, hz, ?_⟩
  unfold computer_play
  dsimp only
  rw [if_neg hx]
  exact hplay

/-- Witness of C7 on `(1,2,3)`. -/
theorem C7_zero_nim_sum_fallback_witness :
    ∃ i, i < 3 ∧ 0 < [1, 2, 3, 7, 0].getD i 0 ∧
      (∀ j, j < i → [1, 2, 3, 7, 0].getD j 0 = 0) ∧
      (computer_play ⟨[1, 2, 3, 7, 0], 3, 3, 1, 0⟩ [0, 0, 0, 0, 0]).numsticks
        = [1, 2, 3, 7, 0].set i ([1, 2, 3, 7, 0].getD i 0 - 1) :=
  C7_zero_nim_sum_fallback.1 ⟨[1, 2, 3, 7, 0], 3, 3, 1, 0⟩ [0, 0, 0, 0, 0]
    (by decide) (by decide) ⟨0, by decide, by decide⟩

/-- C8.  Misere endgame at strict levels: on every heap vector (at most
`MAXROWS` rows, any heap sizes) in which exactly one heap, row `i`, is larger
than one and all other heaps are 0 or 1, `computer_play` changes only that
heap, to 0 or 1, and leaves every heap at most one with an odd number of unit
heaps; `(1,1,1,2)` becomes `(1,1,1,0)`. -/
theorem C8_misere_endgame :
    (∀ (g : Game) (cand0 : List Nat) (i : Nat),
      (g.level = 3 ∨ g.level = 4 ∨ g.level = 5) →
      g.rows ≤ MAXROWS →
      g.rows ≤ g.numsticks.length →
      i < g.rows →
      1 < (heaps g).getD i 0 →
      (∀ j, j < g.rows → j ≠ i → (heaps g).getD j 0 ≤ 1) →
      ∃ v, v ≤ 1 ∧ heaps (computer_play g cand0) = (heaps g).set i v ∧
        (∀ a ∈ heaps (computer_play g cand0), a ≤ 1) ∧
        unity_count (heaps (computer_play g cand0)) % 2 = 1) ∧
    (∀ cand0 : List Nat,
      heaps (computer_play ⟨[1, 1, 1, 2, 0], 3, 4, 1, 0⟩ cand0) = [1, 1, 1, 0]) := by
  refine ⟨?_, fun _ => rfl⟩
  intro g cand0 i hlevel hrows hlen hi hbig hothers
  have hl := heaps_length g hlen
  obtain ⟨v, hv, hplay, hsm, hodd⟩ := strict_play_one_big (heaps g) cand0 i
    (by rw [hl]; exact hrows) (by rw [hl]; exact hi) hbig
    (by rw [hl]; exact hothers)
  have hh : heaps (computer_play g cand0) = (heaps g).set i v := by
    rw [heaps_computer_play g cand0 (by omega) (by omega) (by omega), ← hl]
    exact hplay
  rw [hh]
  exact ⟨v, hv, rfl, hsm, hodd⟩

/-- Witness of C8 on `(1,1,1,2)`, row 4. -/
theorem C8_misere_endgame_witness :
    ∃ v, v ≤ 1 ∧
      heaps (computer_play ⟨[1, 1, 1, 2, 0], 3, 4, 1, 0⟩ [5, 5, 5, 5, 5])
        = (heaps ⟨[1, 1, 1, 2, 0], 3, 4, 1, 0⟩).set 3 v ∧
      (∀ a ∈ heaps (computer_play ⟨[1, 1, 1, 2, 0], 3, 4, 1, 0⟩ [5, 5, 5, 5, 5]), a ≤ 1) ∧
      unity_count (heaps (computer_play ⟨[1, 1, 1, 2, 0], 3, 4, 1, 0⟩ [5, 5, 5, 5, 5])) % 2
        = 1 :=
  C8_misere_endgame.1 ⟨[1, 1, 1, 2, 0], 3, 4, 1, 0⟩ [5, 5, 5, 5, 5] 3
    (by decide) (by decide) (by decide) (by decide) (by decide) (by decide)

/-- C9.  At strict levels, on every heap vector whose nonempty heaps are
exactly two heaps of size 1, `computer_play` removes one of them: the result
has every heap at most one and exactly one heap of size 1. -/
theorem C9_two_unit_heaps (g : Game) (cand0 : List Nat)
    (hlevel : g.level = 3 ∨ g.level = 4 ∨ g.level = 5)
    (hlen : g.rows ≤ g.numsticks.length)
    (hsmall : ∀ h ∈ heaps g, h ≤ 1)
    (htwo : unity_count (heaps g) = 2) :
    (∀ h ∈ heaps (computer_play g cand0), h ≤ 1) ∧
    unity_count (heaps (computer_play g cand0)) = 1 := by
  have hl := heaps_length g hlen
  have hpos : 0 < g.rows := by
    rcases Nat.eq_zero_or_pos g.rows with h0 | h0
    · have hnil : heaps g = [] := List.length_eq_zero.mp (by rw [hl, h0])
      rw [hnil] at htwo
      exact absurd htwo (by decide)
    · exact h0
  obtain ⟨i, _, _, hplay, hsm, hcount⟩ := strict_play_no_big (heaps g) cand0 hsmall
    (by omega) (by omega)
  have hh : heaps (computer_play g cand0) = (heaps g).set i 0 := by
    rw [heaps_computer_play g cand0 (by omega) (by omega) hpos, ← hl]
    exact hplay
  rw [hh]
  exact ⟨hsm, by omega⟩

/-- Witness of C9 on `(0,1,0,1)`. -/
theorem C9_two_unit_heaps_witness :
    unity_count (heaps (computer_play ⟨[0, 1, 0, 1, 0], 4, 4, 1, 2⟩ [5, 5, 5, 5, 5])) = 1 :=
  (C9_two_unit_heaps ⟨[0, 1, 0, 1, 0], 4, 4, 1, 2⟩ [5, 5, 5, 5, 5]
    (by decide) (by decide) (by decide) (by decide)).2

/-- C10.  `RowSelect(r)` for `r >= 1`, in the desktop `user_play` (any `r`) and
in the firmware `user_play` (row buttons 1..5): if `r <= rows`, the row lock is
0 or `r`, and heap `r` is nonempty, heap `r` is decremented by exactly one,
every other heap is unchanged and the row lock becomes `r`; in every other case
the state is unchanged. -/
theorem C10_row_select (g : Game) (r : Nat) (hr : 1 ≤ r) :
    ((r ≤ g.rows ∧ (g.current_selection = 0 ∨ g.current_selection = r) ∧
        0 < g.numsticks.getD (r - 1) 0) →
      (user_play_desktop g (r : Int)).1
        = { g with
            numsticks := g.numsticks.set (r - 1) (g.numsticks.getD (r - 1) 0 - 1)
            current_selection := r } ∧
      (r ≤ 5 → (user_play g ⟨r - 1, 0⟩).1
        = { g with
            numsticks := g.numsticks.set (r - 1) (g.numsticks.getD (r - 1) 0 - 1)
            current_selection := r })) ∧
    (¬ (r ≤ g.rows ∧ (g.current_selection = 0 ∨ g.current_selection = r) ∧
        0 < g.numsticks.getD (r - 1) 0) →
      (user_play_desktop g (r : Int)).1 = g ∧
      (r ≤ 5 → (user_play g ⟨r - 1, 0⟩).1 = g)) := by
  obtain ⟨h1, h2⟩ := row_select_spec g r hr
  constructor
  · intro h
    refine ⟨h1 h, fun hr5 => ?_⟩
    rw [user_play_row g r hr hr5]
    exact h1 h
  · intro h
    refine ⟨h2 h, fun hr5 => ?_⟩
    rw [user_play_row g r hr hr5]
    exact h2 h

/-- Witness of C10: row 2 of `(1,3,5,7)` with the lock free, firmware variant. -/
theorem C10_row_select_witness :
    (user_play ⟨[1, 3, 5, 7, 0], 3, 4, 1, 0⟩ ⟨1, 0⟩).1 = ⟨[1, 2, 5, 7, 0], 3, 4, 1, 2⟩ :=
  ((C10_row_select ⟨[1, 3, 5, 7, 0], 3, 4, 1, 0⟩ 2 (by decide)).1 (by decide)).2 (by decide)

/-- C11.  Row-lock invariant: after any sequence of row selections processed
by `user_play` within one human turn that starts with the row lock free
(desktop: any integers read; firmware: any buttons pressed without command),
either the lock is still 0 and no heap has changed, or the lock is a row
`1..rows`, every entry other than that row's heap has its value of the start
of the turn, and that heap is smaller.  From `(1,3,5,7)` the presses of rows
2, 3, 2 give `(1,2,5,7)`, `(1,2,5,7)`, `(1,1,5,7)`. -/
theorem C11_row_lock_invariant :
    (∀ (g : Game) (rs : List Int), g.current_selection = 0 →
      ((select_rows g rs).current_selection = 0 →
        (select_rows g rs).numsticks = g.numsticks) ∧
      ((select_rows g rs).current_selection ≠ 0 →
        (select_rows g rs).current_selection ≤ g.rows ∧
        (∀ j, j ≠ (select_rows g rs).current_selection - 1 →
          (select_rows g rs).numsticks.getD j 0 = g.numsticks.getD j 0) ∧
        (select_rows g rs).numsticks.getD ((select_rows g rs).current_selection - 1) 0
          < g.numsticks.getD ((select_rows g rs).current_selection - 1) 0)) ∧
    (∀ (g : Game) (bs : List Nat), g.current_selection = 0 →
      ((press_rows g bs).current_selection = 0 →
        (press_rows g bs).numsticks = g.numsticks) ∧
      ((press_rows g bs).current_selection ≠ 0 →
        (press_rows g bs).current_selection ≤ g.rows ∧
        (∀ j, j ≠ (press_rows g bs).current_selection - 1 →
          (press_rows g bs).numsticks.getD j 0 = g.numsticks.getD j 0) ∧
        (press_rows g bs).numsticks.getD ((press_rows g bs).current_selection - 1) 0
          < g.numsticks.getD ((press_rows g bs).current_selection - 1) 0)) ∧
    press_rows ⟨[1, 3, 5, 7, 0], 3, 4, 1, 0⟩ [1] = ⟨[1, 2, 5, 7, 0], 3, 4, 1, 2⟩ ∧
    press_rows ⟨[1, 3, 5, 7, 0], 3, 4, 1, 0⟩ [1, 2] = ⟨[1, 2, 5, 7, 0], 3, 4, 1, 2⟩ ∧
    press_rows ⟨[1, 3, 5, 7, 0], 3, 4, 1, 0⟩ [1, 2, 1] = ⟨[1, 1, 5, 7, 0], 3, 4, 1, 2⟩ := by
  have start : ∀ g : Game, g.current_selection = 0 → LockInv g g :=
    fun g h => ⟨rfl, Or.inl ⟨h, rfl⟩⟩
  refine ⟨?_, ?_, by decide, by decide, by decide⟩
  · intro g rs h0
    obtain ⟨_, hc⟩ := select_rows_lock g rs g (start g h0)
    constructor
    · intro hz
      rcases hc with ⟨_, h⟩ | ⟨hne, _⟩
      · exact h
      · exact absurd hz hne
    · intro hnz
      rcases hc with ⟨hz, _⟩ | ⟨_, h⟩
      · exact absurd hz hnz
      · exact h
  · intro g bs h0
    obtain ⟨_, hc⟩ := press_rows_lock g bs g (start g h0)
    constructor
    · intro hz
      rcases hc with ⟨_, h⟩ | ⟨hne, _⟩
      · exact h
      · exact absurd hz hne
    · intro hnz
      rcases hc with ⟨hz, _⟩ | ⟨_, h⟩
      · exact absurd hz hnz
      · exact h

/-- Witness of C11: rows 2, 3, 2 pressed on `(1,3,5,7)`. -/
theorem C11_row_lock_invariant_witness :
    (press_rows ⟨[1, 3, 5, 7, 0], 3, 4, 1, 0⟩ [1, 2, 1]).current_selection ≤ 4 ∧
    (∀ j, j ≠ (press_rows ⟨[1, 3, 5, 7, 0], 3, 4, 1, 0⟩ [1, 2, 1]).current_selection - 1 →
      (press_rows ⟨[1, 3, 5, 7, 0], 3, 4, 1, 0⟩ [1, 2, 1]).numsticks.getD j 0
        = [1, 3, 5, 7, 0].getD j 0) ∧
    (press_rows ⟨[1, 3, 5, 7, 0], 3, 4, 1, 0⟩ [1, 2, 1]).numsticks.getD
        ((press_rows ⟨[1, 3, 5, 7, 0], 3, 4, 1, 0⟩ [1, 2, 1]).current_selection - 1) 0
      < [1, 3, 5, 7, 0].getD
        ((press_rows ⟨[1, 3, 5, 7, 0], 3, 4, 1, 0⟩ [1, 2, 1]).current_selection - 1) 0 :=
  ((C11_row_lock_invariant.2.1 ⟨[1, 3, 5, 7, 0], 3, 4, 1, 0⟩ [1, 2, 1] rfl).2 (by decide))

/-- C12, the claim as stated fails: the human yields on `(0,0,0,1)` with the
row lock on row 4; the human is announced as winner, `computer_play` is not
run, and the row lock is still 4 after the Yield step. -/
theorem C12_yield_keeps_lock_counterexample :
    (yield_step ⟨⟨[0, 0, 0, 1, 0], 3, 4, 1, 4⟩, 0⟩ [0, 0, 0, 0, 0]).2 = [Outcome.you_win] ∧
    (yield_step ⟨⟨[0, 0, 0, 1, 0], 3, 4, 1, 4⟩, 0⟩ [0, 0, 0, 0, 0]).1.game.current_selection
      = 4 := by
  decide

/-- C12 as amended.  The row lock is cleared by `computer_play` only.  The
Yield step counts the sticks in the `char` variable `check_winner`, which
holds the total modulo 256 (the total itself when it is below 256): with no
winner announced and a count other than 1 the step runs the opponent and
leaves the row lock 0; when the count is exactly 1 and the human is declared
the winner, or when a winner had been announced before, the step leaves the
game state, and with it the row lock, unchanged. -/
theorem C12_yield_clears_lock_when_opponent_moves (c : Ctl) (cand0 : List Nat)
    (hlen : c.game.rows ≤ c.game.numsticks.length) :
    check_sum c.game 0 = (heaps c.game).sum % 256 ∧
    ((heaps c.game).sum < 256 →
      ((heaps c.game).sum % 256 = 1 ↔ (heaps c.game).sum = 1)) ∧
    (c.winner_announced = 0 → (heaps c.game).sum % 256 ≠ 1 →
      (yield_step c cand0).1.game = computer_play c.game cand0 ∧
      (yield_step c cand0).1.game.current_selection = 0) ∧
    ((c.winner_announced ≠ 0 ∨ (heaps c.game).sum % 256 = 1) →
      (yield_step c cand0).1.game = c.game ∧
      (yield_step c cand0).1.game.current_selection = c.game.current_selection) := by
  have hcs := check_sum_eq c.game hlen
  refine ⟨hcs, ?_, ?_, ?_⟩
  · intro hlt
    rw [Nat.mod_eq_of_lt hlt]
  · intro hwa hsum
    have hcall : yield_calls_computer c = true := by
      unfold yield_calls_computer
      have : ¬ check_sum c.game 0 = 1 := by rw [hcs]; exact hsum
      simp [this, hwa]
    have hg := yield_step_game c cand0
    rw [hcall, if_pos rfl] at hg
    exact ⟨hg, by rw [hg]; exact computer_play_lock _ _⟩
  · intro h
    have hcall : yield_calls_computer c = false := by
      unfold yield_calls_computer
      rcases h with h | h
      · by_cases h1 : check_sum c.game 0 = 1
        · simp [h1, h]
        · simp [h1, h]
      · have h1 : check_sum c.game 0 = 1 := by rw [hcs]; exact h
        by_cases h2 : c.winner_announced = 0
        · simp [h1, h2]
        · simp [h1, h2]
    have hg := yield_step_game c cand0
    rw [hcall, if_neg (by decide)] at hg
    exact ⟨hg, by rw [hg]⟩

/-- Witness of C12 as amended: Yield on `(1,3,5,6)` with the lock on row 4
clears the lock; Yield on `(1,1,1,254)`, total 257 and count 1, with the lock
on row 4 leaves the lock at 4. -/
theorem C12_yield_clears_lock_when_opponent_moves_witness :
    (yield_step ⟨⟨[1, 3, 5, 6, 0], 3, 4, 1, 4⟩, 0⟩ [0, 0, 0, 0, 0]).1.game.current_selection
      = 0 ∧
    (yield_step ⟨⟨[1, 1, 1, 254, 0], 4, 4, 1, 4⟩, 0⟩
      [0, 0, 0, 0, 0]).1.game.current_selection = 4 :=
  ⟨((C12_yield_clears_lock_when_opponent_moves ⟨⟨[1, 3, 5, 6, 0], 3, 4, 1, 4⟩, 0⟩
      [0, 0, 0, 0, 0] (by decide)).2.2.1 rfl (by decide)).2,
    ((C12_yield_clears_lock_when_opponent_moves ⟨⟨[1, 1, 1, 254, 0], 4, 4, 1, 4⟩, 0⟩
      [0, 0, 0, 0, 0] (by decide)).2.2.2 (Or.inr (by decide))).2⟩

/-- C13.  `Restart(k)` for `k` in 1..5 (a button event with `command_press = k`)
on every controller state with at most 100 rows: after the pass of the main
loop the game state is the one `setup_game` produces at level `k` from the
prior state with the row lock freed, so the level is `k`, the row lock is 0,
no winner is announced, nothing is announced by the pass, and `user_play`
itself has decremented no heap. -/
theorem C13_restart (c : Ctl) (p : Press) (cand0 : List Nat) (k : Nat)
    (hk1 : 1 ≤ k) (hk5 : k ≤ 5) (hp : p.command_press = k)
    (hrows : c.game.rows ≤ 100) :
    main_step c p cand0
      = ({ game := setup_game { c.game with level := k, current_selection := 0 },
           winner_announced := 0 }, []) ∧
    (main_step c p cand0).1.game.level = k ∧
    (main_step c p cand0).1.game.rows
      = (setup_game { c.game with level := k, current_selection := 0 }).rows ∧
    heaps (main_step c p cand0).1.game
      = heaps (setup_game { c.game with level := k, current_selection := 0 }) ∧
    (main_step c p cand0).1.game.current_selection = 0 ∧
    (user_play c.game p).1.numsticks = c.game.numsticks := by
  have hu := user_play_command c.game p (by omega) hrows
  have hm : main_step c p cand0
      = ({ game := setup_game { c.game with level := k, current_selection := 0 },
           winner_announced := 0 }, []) := by
    unfold main_step
    dsimp only
    rw [hu, hp]
    dsimp only
    rw [if_neg (by omega), if_pos (by omega)]
    have : ((100 : Int) + (k : Int) - 100).toNat = k := by omega
    rw [this]
  refine ⟨hm, ?_, ?_, ?_, ?_, ?_⟩
  · rw [hm]; exact setup_game_level _
  · rw [hm]
  · rw [hm]
  · rw [hm]; exact setup_game_lock _
  · rw [hu]

/-- Witness of C13: `Restart(1)` in the middle of a level-3 game. -/
theorem C13_restart_witness :
    main_step ⟨⟨[1, 2, 5, 7, 0], 3, 4, 1, 2⟩, 0⟩ ⟨5, 1⟩ [0, 0, 0, 0, 0]
      = (⟨⟨[1, 3, 5, 7, 0], 1, 3, 1, 0⟩, 0⟩, []) :=
  (C13_restart ⟨⟨[1, 2, 5, 7, 0], 3, 4, 1, 2⟩, 0⟩ ⟨5, 1⟩ [0, 0, 0, 0, 0] 1
    (by decide) (by decide) rfl (by decide)).1

/-- C14.  Deterministic setup: on every prior state (the array `numsticks`
having its `MAXROWS` entries), `setup_game` at level 1 yields 3 rows with
heaps `(1,3,5)`, at levels 2 and 3 yields 4 rows with heaps `(1,3,5,7)`, in
both cases without touching the random register; at these levels running it
twice gives the same state as running it once. -/
theorem C14_deterministic_setup (g : Game) (hlen : g.numsticks.length = MAXROWS) :
    (g.level = 1 →
      (setup_game g).rows = 3 ∧ heaps (setup_game g) = [1, 3, 5] ∧
      (setup_game g).randreg = g.randreg) ∧
    ((g.level = 2 ∨ g.level = 3) →
      (setup_game g).rows = 4 ∧ heaps (setup_game g) = [1, 3, 5, 7] ∧
      (setup_game g).randreg = g.randreg) ∧
    ((g.level = 1 ∨ g.level = 2 ∨ g.level = 3) →
      setup_game (setup_game g) = setup_game g) := by
  obtain ⟨a, b, c, d, e, hns⟩ := length_five g.numsticks hlen
  refine ⟨?_, ?_, ?_⟩
  · intro h1
    unfold heaps setup_game
    simp [h1, hns]
  · intro h23
    rcases h23 with h2 | h3
    · unfold heaps setup_game
      simp [h2, hns]
    · unfold heaps setup_game
      simp [h3, hns]
  · intro h
    rcases h with h | h | h
    · unfold setup_game
      simp [h, hns]
    · unfold setup_game
      simp [h, hns]
    · unfold setup_game
      simp [h, hns]

/-- Witness of C14: level-3 setup over the remains of a level-5 game. -/
theorem C14_deterministic_setup_witness :
    (setup_game ⟨[2, 0, 4, 1, 6], 3, 5, 777, 2⟩).rows = 4 ∧
    heaps (setup_game ⟨[2, 0, 4, 1, 6], 3, 5, 777, 2⟩) = [1, 3, 5, 7] ∧
    (setup_game ⟨[2, 0, 4, 1, 6], 3, 5, 777, 2⟩).randreg = 777 :=
  (C14_deterministic_setup ⟨[2, 0, 4, 1, 6], 3, 5, 777, 2⟩ (by decide)).2.1
    (Or.inr (by decide))

/-- C15.  Random setup: for every value of the random register (and every
prior content of the `MAXROWS` entries of `numsticks`), `setup_game` at level 4
yields 4 rows and at level 5 yields 5 rows, and every heap of the heap vector
is in `[1, 8]`. -/
theorem C15_random_setup (g : Game) (hlen : g.numsticks.length = MAXROWS) :
    (g.level = 4 →
      (setup_game g).rows = 4 ∧ (heaps (setup_game g)).length = 4 ∧
      ∀ h ∈ heaps (setup_game g), 1 ≤ h ∧ h ≤ 8) ∧
    (g.level = 5 →
      (setup_game g).rows = 5 ∧ (heaps (setup_game g)).length = 5 ∧
      ∀ h ∈ heaps (setup_game g), 1 ≤ h ∧ h ≤ 8) := by
  unfold MAXROWS at hlen
  constructor
  · intro h4
    obtain ⟨hl, hin, _⟩ := setup_row_fold 4 (g.numsticks, g.randreg) (by simp; omega)
    have hg : setup_game g
        = { g with rows := 4
                   numsticks := ((List.range 4).foldl setup_row (g.numsticks, g.randreg)).1
                   randreg := ((List.range 4).foldl setup_row (g.numsticks, g.randreg)).2 } := by
      unfold setup_game
      rw [if_neg (by omega), if_pos h4]
    rw [hg]
    refine ⟨rfl, ?_, ?_⟩
    · unfold heaps
      simp only [List.length_take]
      simp only at hl
      omega
    · unfold heaps
      exact mem_take_bound _ 4 1 8 hin
  · intro h5
    obtain ⟨hl, hin, _⟩ := setup_row_fold 5 (g.numsticks, g.randreg) (by simp; omega)
    have hg : setup_game g
        = { g with rows := 5
                   numsticks := ((List.range 5).foldl setup_row (g.numsticks, g.randreg)).1
                   randreg := ((List.range 5).foldl setup_row (g.numsticks, g.randreg)).2 } := by
      unfold setup_game
      rw [if_pos h5]
    rw [hg]
    refine ⟨rfl, ?_, ?_⟩
    · unfold heaps
      simp only [List.length_take]
      simp only at hl
      omega
    · unfold heaps
      exact mem_take_bound _ 5 1 8 hin

/-- Witness of C15: level-4 setup with random register 1173. -/
theorem C15_random_setup_witness :
    (setup_game ⟨[1, 3, 5, 7, 0], 4, 4, 1173, 0⟩).rows = 4 ∧
    (heaps (setup_game ⟨[1, 3, 5, 7, 0], 4, 4, 1173, 0⟩)).length = 4 ∧
    ∀ h ∈ heaps (setup_game ⟨[1, 3, 5, 7, 0], 4, 4, 1173, 0⟩), 1 ≤ h ∧ h ≤ 8 :=
  (C15_random_setup ⟨[1, 3, 5, 7, 0], 4, 4, 1173, 0⟩ (by decide)).1 (by decide)

/-- C16 (code defect, the one of C1).  A reachable state with a heap larger
than 9: `setup_game` at level 4 with random register 1173 deals `(1,1,1,4)`,
the human takes the four sticks of row 4 and yields, and `computer_play`
stores the unassigned slot `candidate[3]`, here holding the stack byte 77,
into row 4.  The heap vector is then `(1,1,1,77)`. -/
theorem C16_reachable_heap_above_nine :
    Reachable ⟨⟨[1, 1, 1, 77, 0], 4, 4, 51067, 0⟩, 0⟩ ∧
    heaps ⟨[1, 1, 1, 77, 0], 4, 4, 51067, 0⟩ = [1, 1, 1, 77] ∧
    ∃ h ∈ heaps ⟨[1, 1, 1, 77, 0], 4, 4, 51067, 0⟩, 9 < h := by
  have s0 : Reachable ⟨⟨[1, 1, 1, 4, 0], 4, 4, 51067, 0⟩, 0⟩ :=
    reachable_setup ⟨[0, 0, 0, 0, 0], 4, 4, 1173, 0⟩ _ (by decide) (by decide) (by decide)
      (by decide) (by decide)
  have s1 : Reachable ⟨⟨[1, 1, 1, 3, 0], 4, 4, 51067, 4⟩, 0⟩ :=
    reachable_step _ _ ⟨3, 0⟩ [] s0 (by decide) (by decide) (by decide)
  have s2 : Reachable ⟨⟨[1, 1, 1, 2, 0], 4, 4, 51067, 4⟩, 0⟩ :=
    reachable_step _ _ ⟨3, 0⟩ [] s1 (by decide) (by decide) (by decide)
  have s3 : Reachable ⟨⟨[1, 1, 1, 1, 0], 4, 4, 51067, 4⟩, 0⟩ :=
    reachable_step _ _ ⟨3, 0⟩ [] s2 (by decide) (by decide) (by decide)
  have s4 : Reachable ⟨⟨[1, 1, 1, 0, 0], 4, 4, 51067, 4⟩, 0⟩ :=
    reachable_step _ _ ⟨3, 0⟩ [] s3 (by decide) (by decide) (by decide)
  have s5 : Reachable ⟨⟨[1, 1, 1, 77, 0], 4, 4, 51067, 0⟩, 0⟩ :=
    reachable_step _ _ ⟨5, 0⟩ [0, 0, 0, 77, 0] s4 (by decide) (by decide) (by decide)
  exact ⟨s5, by decide, 77, by decide, by decide⟩

/-- C17 (code defect, the one of C4).  A reachable state with no stick left
and no winner announced, on which the Yield step calls `computer_play`: the
level-1 game `(1,3,5)` set up with random register 3, in which the human
empties row 2, the weakened opponent plays `(1,0,4)`, the human takes row 1,
the weakened opponent plays `(0,0,3)` and the human takes the three sticks of
row 3.  Pressing the computer button then runs `computer_play` on `(0,0,0)`,
which it leaves as it is. -/
theorem C17_opponent_called_on_empty_board :
    Reachable ⟨⟨[0, 0, 0, 0, 0], 1, 3, 52490, 3⟩, 0⟩ ∧
    (∀ h ∈ heaps ⟨[0, 0, 0, 0, 0], 1, 3, 52490, 3⟩, h = 0) ∧
    yield_calls_computer ⟨⟨[0, 0, 0, 0, 0], 1, 3, 52490, 3⟩, 0⟩ = true ∧
    (∀ cand0 : List Nat,
      main_step ⟨⟨[0, 0, 0, 0, 0], 1, 3, 52490, 3⟩, 0⟩ ⟨5, 0⟩ cand0
        = (⟨computer_play ⟨[0, 0, 0, 0, 0], 1, 3, 52490, 3⟩ cand0, 0⟩, [])) ∧
    (∀ cand0 : List Nat,
      computer_play ⟨[0, 0, 0, 0, 0], 1, 3, 52490, 3⟩ cand0
        = ⟨[0, 0, 0, 0, 0], 1, 3, 52490, 0⟩) := by
  have s0 : Reachable ⟨⟨[1, 3, 5, 0, 0], 1, 3, 3, 0⟩, 0⟩ :=
    reachable_setup ⟨[0, 0, 0, 0, 0], 1, 4, 3, 0⟩ _ (by decide) (by decide) (by decide)
      (by decide) (by decide)
  have s1 : Reachable ⟨⟨[1, 2, 5, 0, 0], 1, 3, 3, 2⟩, 0⟩ :=
    reachable_step _ _ ⟨1, 0⟩ [] s0 (by decide) (by decide) (by decide)
  have s2 : Reachable ⟨⟨[1, 1, 5, 0, 0], 1, 3, 3, 2⟩, 0⟩ :=
    reachable_step _ _ ⟨1, 0⟩ [] s1 (by decide) (by decide) (by decide)
  have s3 : Reachable ⟨⟨[1, 0, 5, 0, 0], 1, 3, 3, 2⟩, 0⟩ :=
    reachable_step _ _ ⟨1, 0⟩ [] s2 (by decide) (by decide) (by decide)
  have s4 : Reachable ⟨⟨[1, 0, 4, 0, 0], 1, 3, 45351, 0⟩, 0⟩ :=
    reachable_step _ _ ⟨5, 0⟩ [] s3 (by decide) (by decide) (by decide)
  have s5 : Reachable ⟨⟨[0, 0, 4, 0, 0], 1, 3, 45351, 1⟩, 0⟩ :=
    reachable_step _ _ ⟨0, 0⟩ [] s4 (by decide) (by decide) (by decide)
  have s6 : Reachable ⟨⟨[0, 0, 3, 0, 0], 1, 3, 52490, 0⟩, 0⟩ :=
    reachable_step _ _ ⟨5, 0⟩ [] s5 (by decide) (by decide) (by decide)
  have s7 : Reachable ⟨⟨[0, 0, 2, 0, 0], 1, 3, 52490, 3⟩, 0⟩ :=
    reachable_step _ _ ⟨2, 0⟩ [] s6 (by decide) (by decide) (by decide)
  have s8 : Reachable ⟨⟨[0, 0, 1, 0, 0], 1, 3, 52490, 3⟩, 0⟩ :=
    reachable_step _ _ ⟨2, 0⟩ [] s7 (by decide) (by decide) (by decide)
  have s9 : Reachable ⟨⟨[0, 0, 0, 0, 0], 1, 3, 52490, 3⟩, 0⟩ :=
    reachable_step _ _ ⟨2, 0⟩ [] s8 (by decide) (by decide) (by decide)
  exact ⟨s9, by decide, by decide, fun _ => rfl, fun _ => rfl⟩

/-- C18.  Every heap vector with nim-sum `x > 0` has a playable row, an index
`i` with `(x XOR heaps[i]) < heaps[i]`, for any number of rows and any heap
sizes; consequently `computer_play` (with at most 8 rows, the width of the
byte `playable_rows_bitmap`) finds `num_playable_rows >= 1` whenever `x > 0`
and never takes the fallback inside the `x > 0` case: its result is the store
of `pick_move`. -/
theorem C18_playable_row_exists :
    (∀ hs : List Nat, 0 < nim_sum hs →
      ∃ i, i < hs.length ∧ nim_sum hs ^^^ hs.getD i 0 < hs.getD i 0) ∧
    (∀ (g : Game) (cand0 : List Nat), g.rows ≤ 8 → g.rows ≤ g.numsticks.length →
      0 < nim_sum (heaps g) →
      count_ones (playable_rows_bitmap g.numsticks g.rows (nim_x g.numsticks g.rows)) ≥ 1 ∧
      computer_play g cand0
        = { g with
            numsticks := g.numsticks.set
              (pick_move g (nim_x g.numsticks g.rows)
                (playable_rows_bitmap g.numsticks g.rows (nim_x g.numsticks g.rows))).1
              (read_candidate
                (pick_move g (nim_x g.numsticks g.rows)
                  (playable_rows_bitmap g.numsticks g.rows (nim_x g.numsticks g.rows))).2.1
                cand0
                (pick_move g (nim_x g.numsticks g.rows)
                  (playable_rows_bitmap g.numsticks g.rows (nim_x g.numsticks g.rows))).1)
            randreg := (pick_move g (nim_x g.numsticks g.rows)
              (playable_rows_bitmap g.numsticks g.rows (nim_x g.numsticks g.rows))).2.2
            current_selection := 0 }) := by
  refine ⟨exists_playable, ?_⟩
  intro g cand0 hR8 hlen hx
  have hl := heaps_length g hlen
  have hR : 0 < g.rows := by
    rcases Nat.eq_zero_or_pos g.rows with h0 | h0
    · have hnil : heaps g = [] := List.length_eq_zero.mp (by rw [hl, h0])
      rw [hnil] at hx
      exact absurd hx (by decide)
    · exact h0
  have hxe := nim_x_heaps g hR hlen
  obtain ⟨i, hi, hplay⟩ := exists_playable (heaps g) hx
  rw [hl] at hi
  have hget : (heaps g).getD i 0 = g.numsticks.getD i 0 := getD_take_lt _ hi
  rw [hget, ← hxe] at hplay
  have hbit := (bitmap_test g.numsticks g.rows (nim_x g.numsticks g.rows) i hR8).mpr
    ⟨hi, hplay⟩
  have hcount := count_ones_pos _ i (by omega) hbit
  refine ⟨hcount, ?_⟩
  unfold computer_play
  dsimp only
  rw [if_pos (by rw [hxe]; exact hx), if_pos hcount]

/-- Witness of C18 on `(1,3,5,6)`. -/
theorem C18_playable_row_exists_witness :
    count_ones (playable_rows_bitmap [1, 3, 5, 6, 0] 4 (nim_x [1, 3, 5, 6, 0] 4)) ≥ 1 :=
  (C18_playable_row_exists.2 ⟨[1, 3, 5, 6, 0], 3, 4, 1, 0⟩ [] (by decide) (by decide)
    (by decide)).1

/-- C19.  Quality table agreement.  On a state of at most `MAXROWS` rows with
nim-sum `x > 0`, for every playable row `i`, with `U` (`spec_U`) and `M`
(`spec_M`) computed freshly from the heaps excluding `i` as the spec defines
them, the quality and candidate that the candidate loop of `computer_play`
leaves for row `i` are those of the table (`spec_table`):
`target_i > 1` or `M` true gives candidate `target_i` with quality 9;
`target_i = 1`, `M` false, `U` even gives candidate 0 with quality 5;
`target_i = 0`, `M` false, `U` even, `heaps[i] > 1` gives candidate 1 with
quality 9; the counter `unityheaps` not being reset between rows changes
nothing. -/
theorem C19_quality_table_agreement (g : Game) (i : Nat)
    (hR : g.rows ≤ MAXROWS) (hlen : g.rows ≤ g.numsticks.length)
    (_hx : 0 < nim_sum (heaps g)) (hi : i < g.rows)
    (hplay : spec_playable (heaps g) i = true) :
    ((1 < spec_target (heaps g) i ∨ spec_M (heaps g) i = true) →
      (quality_table g).getD i 0 = 9 ∧
      (candidate_table g).getD i none = some (spec_target (heaps g) i) ∧
      spec_table (heaps g) i = (spec_target (heaps g) i, 9)) ∧
    ((spec_target (heaps g) i = 1 ∧ spec_M (heaps g) i = false ∧
        spec_U (heaps g) i % 2 = 0) →
      (quality_table g).getD i 0 = 5 ∧
      (candidate_table g).getD i none = some 0 ∧
      spec_table (heaps g) i = (0, 5)) ∧
    ((spec_target (heaps g) i = 0 ∧ spec_M (heaps g) i = false ∧
        spec_U (heaps g) i % 2 = 0 ∧ 1 < (heaps g).getD i 0) →
      (quality_table g).getD i 0 = 9 ∧
      (candidate_table g).getD i none = some 1 ∧
      spec_table (heaps g) i = (1, 9)) := by
  have hR0 : 0 < g.rows := by omega
  have hl := heaps_length g hlen
  have hloop := candidate_loop_heaps g hR0 hlen
  have hR5 : (heaps g).length ≤ MAXROWS := by rw [hl]; exact hR
  have hR8 : (heaps g).length ≤ 8 := by unfold MAXROWS at hR5; omega
  have hil : i < (heaps g).length := by rw [hl]; exact hi
  have hp : nim_sum (heaps g) ^^^ (heaps g).getD i 0 < (heaps g).getD i 0 := by
    unfold spec_playable spec_target at hplay
    exact of_decide_eq_true hplay
  have hbit := (bitmap_test (heaps g) (heaps g).length (nim_sum (heaps g)) i hR8).mpr
    ⟨hil, hp⟩
  unfold quality_table candidate_table
  rw [hloop]
  refine ⟨?_, ?_, ?_⟩
  · intro h
    have hq : (candidate_loop (heaps g) (heaps g).length (nim_sum (heaps g))
          (playable_rows_bitmap (heaps g) (heaps g).length
            (nim_sum (heaps g)))).quality.getD i 0 = 9 ∧
        (candidate_loop (heaps g) (heaps g).length (nim_sum (heaps g))
          (playable_rows_bitmap (heaps g) (heaps g).length
            (nim_sum (heaps g)))).candidate.getD i none
          = some (nim_sum (heaps g) ^^^ (heaps g).getD i 0) := by
      rcases h with h | h
      · exact candidate_loop_far _ _ _ _ hR5 i hil hbit h
      · exact candidate_loop_big _ _ _ _ hR5 i hil hbit (spec_M_true _ _ h)
    refine ⟨hq.1, hq.2, ?_⟩
    unfold spec_table
    rw [if_neg]
    rintro ⟨h1, h2⟩
    rcases h with h | h
    · omega
    · rw [h2] at h; exact absurd h (by decide)
  · rintro ⟨ht, hM, hU⟩
    have ht2 : nim_sum (heaps g) ^^^ (heaps g).getD i 0 = 1 := ht
    have hothers := spec_M_false _ _ hM
    have h := candidate_loop_one_big (heaps g) i hR5 hil (by omega) hothers hp
    rw [if_pos ht2, if_pos ht2] at h
    refine ⟨h.1, h.2, ?_⟩
    unfold spec_table
    rw [if_pos ⟨by omega, hM⟩, if_neg (by omega), if_pos ht]
  · rintro ⟨ht, hM, hU, hbig⟩
    have ht2 : nim_sum (heaps g) ^^^ (heaps g).getD i 0 = 0 := ht
    have hothers := spec_M_false _ _ hM
    have h := candidate_loop_one_big (heaps g) i hR5 hil hbig hothers hp
    rw [if_neg (by omega), if_neg (by omega)] at h
    refine ⟨h.1, h.2, ?_⟩
    unfold spec_table
    rw [if_pos ⟨by omega, hM⟩, if_neg (by omega), if_neg (by omega),
      if_pos ⟨ht, hbig⟩]

/-- Witness of C19 on `(1,1,1,2)`, row 4 (index 3): target 1, `M` false,
`U = 4`, so candidate 0 with quality 5. -/
theorem C19_quality_table_agreement_witness :
    spec_playable (heaps ⟨[1, 1, 1, 2, 0], 3, 4, 1, 0⟩) 3 = true ∧
    spec_target (heaps ⟨[1, 1, 1, 2, 0], 3, 4, 1, 0⟩) 3 = 1 ∧
    spec_M (heaps ⟨[1, 1, 1, 2, 0], 3, 4, 1, 0⟩) 3 = false ∧
    spec_U (heaps ⟨[1, 1, 1, 2, 0], 3, 4, 1, 0⟩) 3 = 4 ∧
    (quality_table ⟨[1, 1, 1, 2, 0], 3, 4, 1, 0⟩).getD 3 0 = 5 ∧
    (candidate_table ⟨[1, 1, 1, 2, 0], 3, 4, 1, 0⟩).getD 3 none = some 0 ∧
    spec_table (heaps ⟨[1, 1, 1, 2, 0], 3, 4, 1, 0⟩) 3 = (0, 5) :=
  ⟨by decide, by decide, by decide, by decide,
    (C19_quality_table_agreement ⟨[1, 1, 1, 2, 0], 3, 4, 1, 0⟩ 3 (by decide) (by decide)
      (by decide) (by decide) (by decide)).2.1 ⟨by decide, by decide, by decide⟩⟩

/-- C20 (code defect, the one of C1).  The degenerate table row: on a state of
at most `MAXROWS` rows, for a playable row `i` with `target_i = 0`,
`heaps[i] = 1`, `M` false (and `U` even), the table of the spec gives candidate
`target_i = 0` with quality 1, and the comment of the code says so too ("this
won't be a nice move to make. But it is a valid move."); but that `else`
belongs to `if (temp==0)`, so the candidate loop of `computer_play` assigns
row `i` nothing: its quality stays 0 and `candidate[i]` stays unassigned, and
so does every other row, so that the move taken stores the unassigned slot
`candidate[rows-1]`. -/
theorem C20_degenerate_row_unassigned (g : Game) (i : Nat)
    (hR : g.rows ≤ MAXROWS) (hlen : g.rows ≤ g.numsticks.length) (hi : i < g.rows)
    (hplay : spec_playable (heaps g) i = true)
    (ht : spec_target (heaps g) i = 0) (hone : (heaps g).getD i 0 = 1)
    (hM : spec_M (heaps g) i = false) :
    spec_U (heaps g) i % 2 = 0 ∧
    spec_table (heaps g) i = (0, 1) ∧
    (quality_table g).getD i 0 = 0 ∧
    (candidate_table g).getD i none = none ∧
    (∀ j, (quality_table g).getD j 0 = 0 ∧ (candidate_table g).getD j none = none) := by
  have hR0 : 0 < g.rows := by omega
  have hl := heaps_length g hlen
  have hloop := candidate_loop_heaps g hR0 hlen
  have hR8 : (heaps g).length ≤ 8 := by rw [hl]; unfold MAXROWS at hR; omega
  have hil : i < (heaps g).length := by rw [hl]; exact hi
  have hothers := spec_M_false _ _ hM
  have hsmall : ∀ a ∈ heaps g, a ≤ 1 := by
    intro a ha
    obtain ⟨j, hj, hja⟩ := List.mem_iff_getElem.mp ha
    have hget : (heaps g).getD j 0 = a := by rw [List.getD_eq_getElem _ _ hj, hja]
    by_cases hji : j = i
    · subst hji; omega
    · have := hothers j hj hji; omega
  have hx : nim_sum (heaps g) = 1 := by
    have h1 : nim_sum (heaps g) ^^^ (heaps g).getD i 0 = 0 := ht
    rw [hone] at h1
    exact Nat.xor_eq_zero.mp h1
  have hodd : unity_count (heaps g) % 2 = 1 := by
    rw [← nim_sum_small _ hsmall]; exact hx
  have hcount := unity_count_set (heaps g) i 0 hil
  rw [hone, if_pos rfl, if_neg (by omega)] at hcount
  have herase := unity_count_eraseIdx (heaps g) i hil
  rw [hone, if_pos rfl] at herase
  have hU : spec_U (heaps g) i % 2 = 0 := by
    unfold spec_U heaps_excluding
    rw [ht, if_neg (by omega)]
    omega
  have hunits := candidate_loop_units (heaps g) hR8 hsmall hodd
  have hall : ∀ j, (quality_table g).getD j 0 = 0 ∧
      (candidate_table g).getD j none = none := by
    intro j
    unfold quality_table candidate_table
    rw [hloop, hunits.1, hunits.2]
    exact ⟨replicate_getD_zero j, replicate_getD_none j⟩
  refine ⟨hU, ?_, (hall i).1, (hall i).2, hall⟩
  unfold spec_table
  rw [if_pos ⟨by omega, hM⟩, if_neg (by omega), if_neg (by omega), if_neg (by omega), ht]

/-- Instance of C20 on the board `(1,1,1)`, row 1 (index 0). -/
theorem C20_degenerate_row_unassigned_witness :
    spec_table (heaps ⟨[1, 1, 1, 7, 0], 1, 3, 1, 0⟩) 0 = (0, 1) ∧
    (quality_table ⟨[1, 1, 1, 7, 0], 1, 3, 1, 0⟩).getD 0 0 = 0 ∧
    (candidate_table ⟨[1, 1, 1, 7, 0], 1, 3, 1, 0⟩).getD 0 none = none :=
  have h := C20_degenerate_row_unassigned ⟨[1, 1, 1, 7, 0], 1, 3, 1, 0⟩ 0 (by decide)
    (by decide) (by decide) (by decide) (by decide) (by decide) (by decide)
  ⟨h.2.1, h.2.2.1, h.2.2.2.1⟩

/-- C21.  Weakening substitution: at levels 1 and 2, on a state of at most
`MAXROWS` rows with nim-sum `x > 0`, if in the weakening loop at least one row
of size larger than one draws a byte above `WEAKNESS` (200), the move played
is a `-1` move on one of those rows: `numsticks` after `computer_play` is
`numsticks` before with that row reduced by exactly one, whatever the stack
holds. -/
theorem C21_weakening_substitution (g : Game) (cand0 : List Nat)
    (hlevel : g.level = 1 ∨ g.level = 2)
    (hR : g.rows ≤ MAXROWS) (hlen : g.rows ≤ g.numsticks.length)
    (hx : 0 < nim_sum (heaps g))
    (hfired : weaken_fired g.numsticks g.rows g.randreg ≠ []) :
    ∃ i, i ∈ weaken_fired g.numsticks g.rows g.randreg ∧ i < g.rows ∧
      1 < g.numsticks.getD i 0 ∧
      (computer_play g cand0).numsticks = g.numsticks.set i (g.numsticks.getD i 0 - 1) ∧
      (∀ j, j ≠ i → (computer_play g cand0).numsticks.getD j 0 = g.numsticks.getD j 0) ∧
      (computer_play g cand0).numsticks.getD i 0 + 1 = g.numsticks.getD i 0 := by
  have hR8 : g.rows ≤ 8 := by unfold MAXROWS at hR; omega
  obtain ⟨i, hmem, hi, hbig, hp1, hp2⟩ := pick_move_fired g (nim_x g.numsticks g.rows)
    (playable_rows_bitmap g.numsticks g.rows (nim_x g.numsticks g.rows)) hlevel hR hfired
  have hplay : (computer_play g cand0).numsticks
      = g.numsticks.set i (g.numsticks.getD i 0 - 1) := by
    rw [computer_play_pick g cand0 hR8 hlen hx]
    simp only [hp1, hp2]
    rfl
  refine ⟨i, hmem, hi, hbig, hplay, ?_, ?_⟩
  · intro j hj
    rw [hplay]
    exact getD_set_ne _ _ _ (Ne.symm hj)
  · rw [hplay, getD_set_self _ _ _ _ (by omega)]
    omega

/-- Witness of C21: level 1, `(1,0,5)` with register 3; row 3 draws a byte
above 200 and the move is `(1,0,4)`. -/
theorem C21_weakening_substitution_witness :
    weaken_fired [1, 0, 5, 7, 0] 3 3 = [2] ∧
    ∃ i, i ∈ weaken_fired [1, 0, 5, 7, 0] 3 3 ∧ i < 3 ∧ 1 < [1, 0, 5, 7, 0].getD i 0 ∧
      (computer_play ⟨[1, 0, 5, 7, 0], 1, 3, 3, 2⟩ []).numsticks
        = [1, 0, 5, 7, 0].set i ([1, 0, 5, 7, 0].getD i 0 - 1) ∧
      (∀ j, j ≠ i → (computer_play ⟨[1, 0, 5, 7, 0], 1, 3, 3, 2⟩ []).numsticks.getD j 0
        = [1, 0, 5, 7, 0].getD j 0) ∧
      (computer_play ⟨[1, 0, 5, 7, 0], 1, 3, 3, 2⟩ []).numsticks.getD i 0 + 1
        = [1, 0, 5, 7, 0].getD i 0 :=
  ⟨by decide, C21_weakening_substitution ⟨[1, 0, 5, 7, 0], 1, 3, 3, 2⟩ [] (by decide)
    (by decide) (by decide) (by decide) (by decide)⟩

/-- C22 (code defect, the one of C1).  In the level-1 game where setup (with
register 3) deals `(1,3,5)`, the human takes two sticks of row 2, the weakened
opponent plays `(1,1,4)` and the human takes three sticks of row 3, the
opponent is called on `(1,1,1)`: the nim-sum is 1 and no row is larger than
one, so no byte is drawn in the weakening loop.  At level 1 and at the strict
level 3 alike no candidate is assigned and the store writes the unassigned
slot `candidate[2]`: the result is `(1,1,b)` for the byte `b` the stack holds
at that call, so the two calls do not determine the same heap vector (stack
bytes 5 and 7 give `(1,1,5)` and `(1,1,7)`).  On every other board (a heap
larger than one, or nim-sum 0) the claim holds whatever the stack holds at
either call; on all boards it holds for equal stack content. -/
theorem C22_weakened_versus_strict :
    Reachable ⟨⟨[1, 1, 1, 0, 0], 1, 3, 45351, 3⟩, 0⟩ ∧
    nim_sum (heaps ⟨[1, 1, 1, 0, 0], 1, 3, 45351, 3⟩) = 1 ∧
    weaken_fired [1, 1, 1, 0, 0] 3 45351 = [] ∧
    (∀ b : Nat,
      heaps (computer_play ⟨[1, 1, 1, 0, 0], 1, 3, 45351, 3⟩ [0, 0, b, 0, 0]) = [1, 1, b]) ∧
    (∀ b : Nat,
      heaps (computer_play ⟨[1, 1, 1, 0, 0], 3, 3, 45351, 3⟩ [0, 0, b, 0, 0]) = [1, 1, b]) ∧
    heaps (computer_play ⟨[1, 1, 1, 0, 0], 1, 3, 45351, 3⟩ [0, 0, 5, 0, 0])
      ≠ heaps (computer_play ⟨[1, 1, 1, 0, 0], 3, 3, 45351, 3⟩ [0, 0, 7, 0, 0]) ∧
    (∀ (g : Game) (c1 c2 : List Nat) (k : Nat),
      (g.level = 1 ∨ g.level = 2) → (k = 3 ∨ k = 4 ∨ k = 5) →
      g.rows ≤ MAXROWS → 0 < g.rows → g.rows ≤ g.numsticks.length →
      (nim_sum (heaps g) = 0 ∨ weaken_fired g.numsticks g.rows g.randreg = []) →
      (has_nonunity (heaps g) = true ∨ nim_sum (heaps g) = 0) →
      (computer_play g c1).numsticks = (computer_play { g with level := k } c2).numsticks ∧
      heaps (computer_play g c1) = heaps (computer_play { g with level := k } c2)) ∧
    (∀ (g : Game) (cand0 : List Nat) (k : Nat),
      (g.level = 1 ∨ g.level = 2) → (k = 3 ∨ k = 4 ∨ k = 5) →
      g.rows ≤ MAXROWS → 0 < g.rows → g.rows ≤ g.numsticks.length →
      (nim_sum (heaps g) = 0 ∨ weaken_fired g.numsticks g.rows g.randreg = []) →
      (computer_play g cand0).numsticks
        = (computer_play { g with level := k } cand0).numsticks ∧
      heaps (computer_play g cand0)
        = heaps (computer_play { g with level := k } cand0)) := by
  have s0 : Reachable ⟨⟨[1, 3, 5, 0, 0], 1, 3, 3, 0⟩, 0⟩ :=
    reachable_setup ⟨[0, 0, 0, 0, 0], 1, 4, 3, 0⟩ _ (by decide) (by decide) (by decide)
      (by decide) (by decide)
  have s1 : Reachable ⟨⟨[1, 2, 5, 0, 0], 1, 3, 3, 2⟩, 0⟩ :=
    reachable_step _ _ ⟨1, 0⟩ [] s0 (by decide) (by decide) (by decide)
  have s2 : Reachable ⟨⟨[1, 1, 5, 0, 0], 1, 3, 3, 2⟩, 0⟩ :=
    reachable_step _ _ ⟨1, 0⟩ [] s1 (by decide) (by decide) (by decide)
  have s3 : Reachable ⟨⟨[1, 1, 4, 0, 0], 1, 3, 45351, 0⟩, 0⟩ :=
    reachable_step _ _ ⟨5, 0⟩ [] s2 (by decide) (by decide) (by decide)
  have s4 : Reachable ⟨⟨[1, 1, 3, 0, 0], 1, 3, 45351, 3⟩, 0⟩ :=
    reachable_step _ _ ⟨2, 0⟩ [] s3 (by decide) (by decide) (by decide)
  have s5 : Reachable ⟨⟨[1, 1, 2, 0, 0], 1, 3, 45351, 3⟩, 0⟩ :=
    reachable_step _ _ ⟨2, 0⟩ [] s4 (by decide) (by decide) (by decide)
  have s6 : Reachable ⟨⟨[1, 1, 1, 0, 0], 1, 3, 45351, 3⟩, 0⟩ :=
    reachable_step _ _ ⟨2, 0⟩ [] s5 (by decide) (by decide) (by decide)
  have hsame : ∀ (g : Game) (cand0 : List Nat) (k : Nat),
      (g.level = 1 ∨ g.level = 2) → (k = 3 ∨ k = 4 ∨ k = 5) →
      g.rows ≤ MAXROWS → 0 < g.rows → g.rows ≤ g.numsticks.length →
      (nim_sum (heaps g) = 0 ∨ weaken_fired g.numsticks g.rows g.randreg = []) →
      (computer_play g cand0).numsticks
        = (computer_play { g with level := k } cand0).numsticks ∧
      heaps (computer_play g cand0)
        = heaps (computer_play { g with level := k } cand0) := by
    intro g cand0 k hlevel hk hR hR0 hlen hquiet
    have hmain := weakened_eq_strict_same_stack g cand0 k hlevel hk hR hR0 hlen hquiet
    refine ⟨hmain, ?_⟩
    unfold heaps
    rw [hmain, computer_play_rows, computer_play_rows]
  refine ⟨s6, by decide, by decide, fun _ => rfl, fun _ => rfl, by decide, ?_, hsame⟩
  intro g c1 c2 k hlevel hk hR hR0 hlen hquiet hgood
  have h1 := hsame g c1 k hlevel hk hR hR0 hlen hquiet
  have h2 : computer_play { g with level := k } c1 = computer_play { g with level := k } c2 :=
    computer_play_stack_free { g with level := k } c1 c2 hR hlen hgood
  rw [← h2]
  exact h1

/-- Instance of the general part of C22: level 2 on `(1,3,5,6)` with register
1, where no row fires: the move is the strict move `(1,3,4,6)`, whatever the
stack holds at either call. -/
theorem C22_weakened_versus_strict_witness :
    weaken_fired [1, 3, 5, 6, 0] 4 1 = [] ∧
    (computer_play ⟨[1, 3, 5, 6, 0], 2, 4, 1, 0⟩ []).numsticks = [1, 3, 4, 6, 0] ∧
    (computer_play ⟨[1, 3, 5, 6, 0], 2, 4, 1, 0⟩ [9, 9, 9, 9, 9]).numsticks
      = (computer_play ⟨[1, 3, 5, 6, 0], 3, 4, 1, 0⟩ [7, 7, 7, 7, 7]).numsticks :=
  ⟨by decide, by decide,
    (C22_weakened_versus_strict.2.2.2.2.2.2.1 ⟨[1, 3, 5, 6, 0], 2, 4, 1, 0⟩
      [9, 9, 9, 9, 9] [7, 7, 7, 7, 7] 3 (by decide) (by decide) (by decide) (by decide)
      (by decide) (Or.inr (by decide)) (Or.inl (by decide))).1⟩

/-- C23, the claim as stated fails: the test is the strict comparison
`random_num()>WEAKNESS`, so the byte 200 does not pass it, and the number of
byte values that pass is not 56. -/
theorem C23_weakening_count_counterexample :
    weakening_fires 200 = false ∧
    ((List.range 256).filter weakening_fires).length ≠ 56 := by
  decide

/-- C23 as amended.  Weakening probability: `WEAKNESS` is 200, and exactly
`255 - 200 = 55` of the 256 byte values (201 to 255) make the test
`random_num()>WEAKNESS` succeed, i.e. `P = 55/256`; on a row larger than one
the weakening loop substitutes the `-1` move exactly when the byte drawn
passes that test. -/
theorem C23_weakening_probability :
    WEAKNESS = 200 ∧
    ((List.range 256).filter weakening_fires).length = 55 ∧
    (∀ b, weakening_fires b = true ↔ 200 < b) ∧
    (∀ (ns : List Nat) (pq : Nat) (st : List Nat × List (Option Nat) × Nat) (i : Nat),
      1 < ns.getD i 0 →
      (weakening_fires (random_num st.2.2).1 = true →
        (weaken_row ns pq st i).2.1 = st.2.1.set i (some (ns.getD i 0 - 1))) ∧
      (weakening_fires (random_num st.2.2).1 = false →
        (weaken_row ns pq st i).1 = st.1 ∧ (weaken_row ns pq st i).2.1 = st.2.1)) := by
  refine ⟨rfl, by decide, ?_, ?_⟩
  · intro b
    unfold weakening_fires WEAKNESS
    exact decide_eq_true_iff
  · intro ns pq st i hbig
    unfold weakening_fires
    constructor
    · intro h
      have h1 : (random_num st.2.2).1 > WEAKNESS := of_decide_eq_true h
      unfold weaken_row
      rw [if_pos hbig]
      dsimp only
      rw [if_pos h1]
      split_ifs <;> rfl
    · intro h
      have h1 : ¬ (random_num st.2.2).1 > WEAKNESS := of_decide_eq_false h
      unfold weaken_row
      rw [if_pos hbig]
      dsimp only
      rw [if_neg h1]
      exact ⟨rfl, rfl⟩

/-- C24.  Frame of the opponent move: on every state and for every stack
content, `computer_play` sets the row lock to 0 and leaves the level and the
row count unchanged; at the strict levels 3, 4, 5 it also leaves the random
register unchanged. -/
theorem C24_opponent_frame (g : Game) (cand0 : List Nat) :
    (computer_play g cand0).current_selection = 0 ∧
    (computer_play g cand0).level = g.level ∧
    (computer_play g cand0).rows = g.rows ∧
    ((g.level = 3 ∨ g.level = 4 ∨ g.level = 5) →
      (computer_play g cand0).randreg = g.randreg) := by
  refine ⟨computer_play_lock g cand0, ?_, computer_play_rows g cand0, ?_⟩
  · unfold computer_play
    dsimp only
    split_ifs <;> rfl
  · intro hl
    have h12 : ¬ (g.level = 1 ∨ g.level = 2) := by omega
    unfold computer_play pick_move
    dsimp only
    rw [if_neg h12]
    split_ifs <;> rfl

/-- C25.  Debounce serialisation: in every state of the button handling
reached from the initial state of `main` (all entries `UNPRESSED`) by ticks of
`fast_tick` with any pin values, runs of the button loop of `user_play` (which
marks a `FIRST_PRESS` entry `PRESS_ACTIONED`) and resets of `command_press`,
the array `button_status` has its `NUM_BUTTONS` entries and at most one of
them differs from `UNPRESSED`. -/
theorem C25_debounce_serialisation (b : Buttons) (h : ButtonsReachable b) :
    b.button_status.length = NUM_BUTTONS ∧ registered_count b ≤ 1 :=
  buttons_invariant b h

/-- Witness of C25: button 2 goes down while the button 5 is held too; only
the higher-indexed one is registered, `user_play` marks it, and the next tick
registers nothing more. -/
theorem C25_debounce_serialisation_witness :
    ButtonsReachable ⟨[0, 0, 0, 0, 2, 0], 0, 1, 0⟩ ∧
    registered_count ⟨[0, 0, 0, 0, 2, 0], 0, 1, 0⟩ ≤ 1 :=
  have s0 : ButtonsReachable ⟨[0, 0, 0, 0, 0, 0], 0, 0, 0⟩ := ButtonsReachable.init
  have s1 : ButtonsReachable ⟨[0, 0, 0, 0, 1, 0], 0, 0, 0⟩ :=
    buttons_tick _ _ (fun i => if i = 1 ∨ i = 4 then 0 else 1) 1 s0 (by decide)
  have s2 : ButtonsReachable ⟨[0, 0, 0, 0, 2, 0], 0, 0, 0⟩ :=
    buttons_mark _ _ s1 (by decide)
  have s3 : ButtonsReachable ⟨[0, 0, 0, 0, 2, 0], 0, 1, 0⟩ :=
    buttons_tick _ _ (fun i => if i = 1 ∨ i = 4 then 0 else 1) 1 s2 (by decide)
  ⟨s3, (C25_debounce_serialisation _ s3).2⟩

/-- C26, the claim as stated fails on boards of nim-sum 0: on `(2,2,0)` a
heap is larger than one, but `computer_play` takes the branch of `x == 0`,
where the candidate search is not run: on return every quality is 0 and no
candidate is assigned, although the board is not made of unit heaps.  The move
made, `(1,2,0)`, is the fallback. -/
theorem C26_zero_nim_sum_counterexample :
    has_nonunity (heaps ⟨[2, 2, 0, 0, 0], 3, 3, 1, 0⟩) = true ∧
    nim_sum (heaps ⟨[2, 2, 0, 0, 0], 3, 3, 1, 0⟩) = 0 ∧
    final_tables ⟨[2, 2, 0, 0, 0], 3, 3, 1, 0⟩
      = ([0, 0, 0, 0, 0], [none, none, none, none, none]) ∧
    (computer_play ⟨[2, 2, 0, 0, 0], 3, 3, 1, 0⟩ []).numsticks = [1, 2, 0, 0, 0] := by
  decide

/-- C26 as amended.  On a state of at most `MAXROWS` rows, at every level, for
every value of the random register and every stack content: whenever some
heap is larger than one, `computer_play` makes a legal move (the array
`numsticks` changes in exactly one active row, to a strictly smaller value);
when moreover the nim-sum is positive, some active row has positive quality on
return and the row finally selected has an assigned candidate, which is the
value stored; when the nim-sum is 0 the move is the fallback.  With a positive
nim-sum, the boards on which the candidate loop assigns no candidate at all
are exactly those with all heaps at most one (and then an odd number of unit
heaps). -/
theorem C26_legal_move_with_large_heap (g : Game) (cand0 : List Nat)
    (hR : g.rows ≤ MAXROWS) (hlen : g.rows ≤ g.numsticks.length) :
    (has_nonunity (heaps g) = true →
      (∃ i v, i < g.rows ∧ v < g.numsticks.getD i 0 ∧
        (computer_play g cand0).numsticks = g.numsticks.set i v ∧
        (∀ j, j ≠ i → (computer_play g cand0).numsticks.getD j 0 = g.numsticks.getD j 0) ∧
        (computer_play g cand0).numsticks.getD i 0 < g.numsticks.getD i 0) ∧
      (0 < nim_sum (heaps g) →
        (∃ j, j < g.rows ∧ 0 < (quality_table g).getD j 0) ∧
        (∃ j, j < g.rows ∧ 0 < (final_tables g).1.getD j 0) ∧
        ∃ v, (pick_move g (nim_x g.numsticks g.rows)
            (playable_rows_bitmap g.numsticks g.rows (nim_x g.numsticks g.rows))).2.1
            = some v ∧
          (computer_play g cand0).numsticks
            = g.numsticks.set (pick_move g (nim_x g.numsticks g.rows)
                (playable_rows_bitmap g.numsticks g.rows (nim_x g.numsticks g.rows))).1 v) ∧
      (nim_sum (heaps g) = 0 →
        (computer_play g cand0).numsticks = play_any g.numsticks g.rows)) ∧
    (0 < nim_sum (heaps g) →
      ((∀ j, (candidate_table g).getD j none = none) ↔
        (has_nonunity (heaps g) = false ∧ unity_count (heaps g) % 2 = 1))) := by
  have hR8 : g.rows ≤ 8 := by unfold MAXROWS at hR; omega
  have hl := heaps_length g hlen
  have hmove : has_nonunity (heaps g) = true → 0 < nim_sum (heaps g) →
      ∃ v, (pick_move g (nim_x g.numsticks g.rows)
          (playable_rows_bitmap g.numsticks g.rows (nim_x g.numsticks g.rows))).2.1
          = some v ∧
        (pick_move g (nim_x g.numsticks g.rows)
          (playable_rows_bitmap g.numsticks g.rows (nim_x g.numsticks g.rows))).1 < g.rows ∧
        v < g.numsticks.getD (pick_move g (nim_x g.numsticks g.rows)
          (playable_rows_bitmap g.numsticks g.rows (nim_x g.numsticks g.rows))).1 0 ∧
        (computer_play g cand0).numsticks
          = g.numsticks.set (pick_move g (nim_x g.numsticks g.rows)
              (playable_rows_bitmap g.numsticks g.rows (nim_x g.numsticks g.rows))).1 v := by
    intro hbig hx
    obtain ⟨v, h1, h2, h3⟩ := pick_move_legal g hR hlen hx hbig
    refine ⟨v, h1, h2, h3, ?_⟩
    rw [computer_play_pick g cand0 hR8 hlen hx]
    simp only [h1]
    rfl
  have hframe : ∀ i v, i < g.rows → v < g.numsticks.getD i 0 →
      (computer_play g cand0).numsticks = g.numsticks.set i v →
      ∃ i v, i < g.rows ∧ v < g.numsticks.getD i 0 ∧
        (computer_play g cand0).numsticks = g.numsticks.set i v ∧
        (∀ j, j ≠ i → (computer_play g cand0).numsticks.getD j 0 = g.numsticks.getD j 0) ∧
        (computer_play g cand0).numsticks.getD i 0 < g.numsticks.getD i 0 := by
    intro i v hi hv hplay
    refine ⟨i, v, hi, hv, hplay, ?_, ?_⟩
    · intro j hj
      rw [hplay]
      exact getD_set_ne _ _ _ (Ne.symm hj)
    · rw [hplay, getD_set_self _ _ _ _ (by omega)]
      exact hv
  constructor
  · intro hbig
    obtain ⟨jb, hjb, hjbig⟩ := has_nonunity_exists _ hbig
    rw [hl] at hjb
    have hjget : (heaps g).getD jb 0 = g.numsticks.getD jb 0 := getD_take_lt _ hjb
    rw [hjget] at hjbig
    constructor
    · rcases Nat.eq_zero_or_pos (nim_sum (heaps g)) with hz | hpos
      · have hxe := nim_x_heaps g (by omega) hlen
        have hx : ¬ (nim_x g.numsticks g.rows > 0) := by rw [hxe]; omega
        obtain ⟨i, hi, hipos, _, hplay⟩ := play_any_spec g.numsticks g.rows
          ⟨jb, hjb, by omega⟩
        apply hframe i (g.numsticks.getD i 0 - 1) hi (by omega)
        rw [computer_play_fallback g cand0 hx]
        exact hplay
      · obtain ⟨v, _, h2, h3, h4⟩ := hmove hbig hpos
        exact hframe _ v h2 h3 h4
    · constructor
      · intro hpos
        obtain ⟨hp, hq, _⟩ := peak_assigned_game g hR hlen hpos hbig
        obtain ⟨v, h1, _, _, h4⟩ := hmove hbig hpos
        exact ⟨⟨_, hp, hq⟩, final_quality_pos g hR hlen hpos hbig, v, h1, h4⟩
      · intro hz
        have hxe := nim_x_heaps g (by omega) hlen
        have hx : ¬ (nim_x g.numsticks g.rows > 0) := by rw [hxe]; omega
        rw [computer_play_fallback g cand0 hx]
  · intro hpos
    have hR0 : 0 < g.rows := by
      rcases Nat.eq_zero_or_pos g.rows with h0 | h0
      · have hnil : heaps g = [] := List.length_eq_zero.mp (by rw [hl, h0])
        rw [hnil] at hpos
        exact absurd hpos (by decide)
      · exact h0
    constructor
    · intro hnone
      have hnb : has_nonunity (heaps g) = false := by
        cases hb : has_nonunity (heaps g) with
        | false => rfl
        | true =>
          obtain ⟨_, _, v, _, hc⟩ := peak_assigned_game g hR hlen hpos hb
          rw [hnone] at hc
          exact absurd hc (by simp)
      refine ⟨hnb, ?_⟩
      have := nim_sum_small _ (has_nonunity_small _ hnb)
      have h2 := Nat.mod_two_eq_zero_or_one (unity_count (heaps g))
      omega
    · rintro ⟨hnb, hodd⟩ j
      unfold candidate_table
      rw [candidate_loop_heaps g hR0 hlen,
        (candidate_loop_units (heaps g) (by rw [hl]; exact hR8)
          (has_nonunity_small _ hnb) hodd).2]
      exact replicate_getD_none j

/-- Witness of C26 as amended: level 1 on `(1,0,5)` with register 3 (row 3 fires, the
move is `(1,0,4)`), a board with a heap larger than one. -/
theorem C26_legal_move_with_large_heap_witness :
    has_nonunity (heaps ⟨[1, 0, 5, 7, 0], 1, 3, 3, 2⟩) = true ∧
    (computer_play ⟨[1, 0, 5, 7, 0], 1, 3, 3, 2⟩ []).numsticks = [1, 0, 4, 7, 0] ∧
    ∃ i v, i < 3 ∧ v < [1, 0, 5, 7, 0].getD i 0 ∧
      (computer_play ⟨[1, 0, 5, 7, 0], 1, 3, 3, 2⟩ []).numsticks = [1, 0, 5, 7, 0].set i v ∧
      (∀ j, j ≠ i → (computer_play ⟨[1, 0, 5, 7, 0], 1, 3, 3, 2⟩ []).numsticks.getD j 0
        = [1, 0, 5, 7, 0].getD j 0) ∧
      (computer_play ⟨[1, 0, 5, 7, 0], 1, 3, 3, 2⟩ []).numsticks.getD i 0
        < [1, 0, 5, 7, 0].getD i 0 :=
  ⟨by decide, by decide,
    ((C26_legal_move_with_large_heap ⟨[1, 0, 5, 7, 0], 1, 3, 3, 2⟩ [] (by decide)
      (by decide)).1 (by decide)).1⟩

/-- C27.  A human turn can be passed: on every controller state of at most
`MAXROWS` rows with no winner announced and a total stick count other than 1
(totals fitting the `char` accumulator), whatever the row lock, so in
particular with the row lock 0, pressing the computer button makes
`user_play` return 9 without touching the state, and the pass of the main
loop runs `computer_play` on the unchanged game state; on the desktop the
selection 9 runs `computer_play` on the unchanged state, whatever the total. -/
theorem C27_turn_can_be_passed (c : Ctl) (cand0 : List Nat)
    (hrows : c.game.rows ≤ MAXROWS) (hlen : c.game.rows ≤ c.game.numsticks.length)
    (hpre : (heaps c.game).sum < 256)
    (hwa : c.winner_announced = 0) (hsum : (heaps c.game).sum ≠ 1) :
    user_play c.game ⟨COMPUTER_BUTTON, 0⟩ = (c.game, 9) ∧
    yield_calls_computer c = true ∧
    (main_step c ⟨COMPUTER_BUTTON, 0⟩ cand0).1.game = computer_play c.game cand0 ∧
    user_play_desktop c.game 9 = (c.game, 9) ∧
    main_step_desktop c.game 9 cand0 = computer_play_desktop c.game cand0 := by
  have hr9 : c.game.rows < 9 := by unfold MAXROWS at hrows; omega
  have hu := user_play_computer_button c.game hr9
  have hd := user_play_desktop_nine c.game hr9
  have hiff := check_sum_one_iff c.game hlen hpre
  have hcall : yield_calls_computer c = true := by
    unfold yield_calls_computer
    have : ¬ check_sum c.game 0 = 1 := fun h => hsum (hiff.mp h)
    simp [this, hwa]
  refine ⟨hu, hcall, ?_, hd, ?_⟩
  · unfold main_step
    dsimp only
    rw [hu]
    dsimp only
    rw [if_pos rfl]
    have hg := yield_step_game ⟨c.game, c.winner_announced⟩ cand0
    rw [hcall, if_pos rfl] at hg
    exact hg
  · unfold main_step_desktop
    dsimp only
    rw [hd]
    dsimp only
    rw [if_pos rfl]

/-- Witness of C27: the opening `(1,3,5,7)` of level 3 passed to the
opponent, which (the nim-sum being 0) takes the stick of row 1. -/
theorem C27_turn_can_be_passed_witness :
    (main_step ⟨⟨[1, 3, 5, 7, 0], 3, 4, 1, 0⟩, 0⟩ ⟨COMPUTER_BUTTON, 0⟩ []).1.game
      = computer_play ⟨[1, 3, 5, 7, 0], 3, 4, 1, 0⟩ [] ∧
    computer_play ⟨[1, 3, 5, 7, 0], 3, 4, 1, 0⟩ [] = ⟨[0, 3, 5, 7, 0], 3, 4, 1, 0⟩ :=
  ⟨(C27_turn_can_be_passed ⟨⟨[1, 3, 5, 7, 0], 3, 4, 1, 0⟩, 0⟩ [] (by decide) (by decide)
    (by decide) rfl (by decide)).2.2.1, by decide⟩

/-- C28.  Zero is the only absorbing value of the random register: for every
16-bit register value, the register after `random_num` is 0 if and only if it
was 0 before (and it stays a 16-bit value); with register 0 the byte returned
is 0, so `setup_game` at level 4 gives the heaps `(1,1,1,1)` and at level 5
the heaps `(1,1,1,1,1)`, the register staying 0. -/
theorem C28_zero_register_absorbing :
    (∀ r, r < 65536 → ((random_num r).2 = 0 ↔ r = 0)) ∧
    (∀ r, r < 65536 → (random_num r).2 < 65536) ∧
    random_num 0 = (0, 0) ∧
    (∀ g : Game, g.numsticks.length = MAXROWS → g.randreg = 0 →
      (g.level = 4 →
        heaps (setup_game g) = [1, 1, 1, 1] ∧ (setup_game g).randreg = 0) ∧
      (g.level = 5 →
        heaps (setup_game g) = [1, 1, 1, 1, 1] ∧ (setup_game g).randreg = 0)) := by
  refine ⟨fun r hr => (random_num_zero_iff r hr).2, fun r hr => (random_num_zero_iff r hr).1,
    by decide, ?_⟩
  intro g hlen hz
  obtain ⟨a, b, c, d, e, hl⟩ := length_five g.numsticks hlen
  obtain ⟨h4, h5⟩ := setup_rows_zero a b c d e
  constructor
  · intro hlev
    unfold setup_game heaps
    rw [if_neg (by omega), if_pos hlev]
    dsimp only
    rw [hl, hz, h4]
    exact ⟨rfl, rfl⟩
  · intro hlev
    unfold setup_game heaps
    rw [if_pos hlev]
    dsimp only
    rw [hl, hz, h5]
    exact ⟨rfl, rfl⟩

/-- Witness of C28: the register 1 is not absorbed, and level-5 setup with
register 0 over the remains of a game. -/
theorem C28_zero_register_absorbing_witness :
    (random_num 1).2 ≠ 0 ∧
    heaps (setup_game ⟨[2, 0, 4, 1, 6], 5, 4, 0, 2⟩) = [1, 1, 1, 1, 1] :=
  ⟨fun h => absurd ((C28_zero_register_absorbing.1 1 (by decide)).mp h) (by decide),
    ((C28_zero_register_absorbing.2.2.2 ⟨[2, 0, 4, 1, 6], 5, 4, 0, 2⟩ (by decide) rfl).2
      (by decide)).1⟩

/-- C29 (code defect, the one of C1, present in both programs).  The board
`(1,1,1,0)` with 4 rows is reached on the firmware in the level-4 game of C1,
and on the desktop from its opening `(1,3,5,7)` by the selections 2, 2, 9
(the opponent plays `(1,1,5,5)`), 3, 3, 3, 3, 9 (the opponent plays
`(1,1,1,0)`); a further selection 9 calls the opponent on it.  There the
desktop `computer_play` and the firmware `computer_play` at level 4 both
assign no candidate and store their own unassigned slot `candidate[3]`: each
leaves `(1,1,1,b)` for the byte `b` its stack holds, so the two programs do
not determine the same heap vector (stack bytes 5 and 7 give `(1,1,1,5)` and
`(1,1,1,7)`).  On every other board (a heap larger than one, or nim-sum 0) of
1 to `MAXROWS` rows with byte-sized heaps the desktop function (where
`char temp` is a signed byte) and the firmware function at a strict level
leave the same state whatever the stack holds in either; on all boards they
leave the same state for equal stack content, and both leave the row lock
0. -/
theorem C29_desktop_versus_strict_firmware :
    Reachable ⟨⟨[1, 1, 1, 0, 0], 4, 4, 51067, 4⟩, 0⟩ ∧
    ([2, 2, 9, 3, 3, 3, 3, 9] : List Int).foldl (fun s r => main_step_desktop s r [])
        ⟨[1, 3, 5, 7, 0], 2, 4, 1, 0⟩
      = ⟨[1, 1, 1, 0, 0], 2, 4, 1, 0⟩ ∧
    heaps ⟨[1, 1, 1, 0, 0], 2, 4, 1, 0⟩ = [1, 1, 1, 0] ∧
    heaps ⟨[1, 1, 1, 0, 0], 4, 4, 51067, 4⟩ = [1, 1, 1, 0] ∧
    (∀ b : Nat,
      heaps (main_step_desktop ⟨[1, 1, 1, 0, 0], 2, 4, 1, 0⟩ 9 [0, 0, 0, b, 0])
        = [1, 1, 1, b]) ∧
    (∀ b : Nat,
      heaps (computer_play_desktop ⟨[1, 1, 1, 0, 0], 2, 4, 1, 0⟩ [0, 0, 0, b, 0])
        = [1, 1, 1, b]) ∧
    (∀ b : Nat,
      heaps (computer_play ⟨[1, 1, 1, 0, 0], 4, 4, 51067, 4⟩ [0, 0, 0, b, 0])
        = [1, 1, 1, b]) ∧
    heaps (computer_play_desktop ⟨[1, 1, 1, 0, 0], 2, 4, 1, 0⟩ [0, 0, 0, 5, 0])
      ≠ heaps (computer_play ⟨[1, 1, 1, 0, 0], 4, 4, 51067, 4⟩ [0, 0, 0, 7, 0]) ∧
    (∀ (g : Game) (c1 c2 : List Nat),
      (g.level = 3 ∨ g.level = 4 ∨ g.level = 5) → 0 < g.rows → g.rows ≤ MAXROWS →
      g.rows ≤ g.numsticks.length → (∀ a ∈ heaps g, a < 256) →
      (has_nonunity (heaps g) = true ∨ nim_sum (heaps g) = 0) →
      computer_play_desktop g c1 = computer_play g c2 ∧
      heaps (computer_play_desktop g c1) = heaps (computer_play g c2)) ∧
    (∀ (g : Game) (cand0 : List Nat),
      (g.level = 3 ∨ g.level = 4 ∨ g.level = 5) → 0 < g.rows →
      g.rows ≤ g.numsticks.length → (∀ a ∈ heaps g, a < 256) →
      computer_play_desktop g cand0 = computer_play g cand0 ∧
      (computer_play_desktop g cand0).current_selection = 0 ∧
      (computer_play g cand0).current_selection = 0) := by
  have s0 : Reachable ⟨⟨[1, 1, 1, 4, 0], 4, 4, 51067, 0⟩, 0⟩ :=
    reachable_setup ⟨[0, 0, 0, 0, 0], 4, 4, 1173, 0⟩ _ (by decide) (by decide) (by decide)
      (by decide) (by decide)
  have s1 : Reachable ⟨⟨[1, 1, 1, 3, 0], 4, 4, 51067, 4⟩, 0⟩ :=
    reachable_step _ _ ⟨3, 0⟩ [] s0 (by decide) (by decide) (by decide)
  have s2 : Reachable ⟨⟨[1, 1, 1, 2, 0], 4, 4, 51067, 4⟩, 0⟩ :=
    reachable_step _ _ ⟨3, 0⟩ [] s1 (by decide) (by decide) (by decide)
  have s3 : Reachable ⟨⟨[1, 1, 1, 1, 0], 4, 4, 51067, 4⟩, 0⟩ :=
    reachable_step _ _ ⟨3, 0⟩ [] s2 (by decide) (by decide) (by decide)
  have s4 : Reachable ⟨⟨[1, 1, 1, 0, 0], 4, 4, 51067, 4⟩, 0⟩ :=
    reachable_step _ _ ⟨3, 0⟩ [] s3 (by decide) (by decide) (by decide)
  refine ⟨s4, by decide, by decide, by decide, fun _ => rfl, fun _ => rfl, fun _ => rfl,
    by decide, ?_, ?_⟩
  · intro g c1 c2 hlevel hR hR5 hlen hbyte hgood
    have h1 := computer_play_desktop_eq g c1 (by omega) hR hlen hbyte
    have h2 := computer_play_stack_free g c1 c2 hR5 hlen hgood
    exact ⟨h1.trans h2, by rw [h1, h2]⟩
  · intro g cand0 hlevel hR hlen hbyte
    have h := computer_play_desktop_eq g cand0 (by omega) hR hlen hbyte
    refine ⟨h, ?_, computer_play_lock g cand0⟩
    rw [h]
    exact computer_play_lock g cand0

/-- Instance of the general part of C29 on `(1,3,5,6)` with 4 rows. -/
theorem C29_desktop_versus_strict_firmware_witness :
    heaps (computer_play_desktop ⟨[1, 3, 5, 6, 0], 3, 4, 1, 2⟩ [9, 9, 9, 9, 9])
      = [1, 3, 4, 6] ∧
    computer_play_desktop ⟨[1, 3, 5, 6, 0], 3, 4, 1, 2⟩ [9, 9, 9, 9, 9]
      = computer_play ⟨[1, 3, 5, 6, 0], 3, 4, 1, 2⟩ [7, 7, 7, 7, 7] :=
  ⟨by decide,
    (C29_desktop_versus_strict_firmware.2.2.2.2.2.2.2.2.1 ⟨[1, 3, 5, 6, 0], 3, 4, 1, 2⟩
      [9, 9, 9, 9, 9] [7, 7, 7, 7, 7] (by decide) (by decide) (by decide) (by decide)
      (by decide) (Or.inl (by decide))).1⟩

/-- C30.  The quality-10 branch of `computer_play` is dead.  On a state of at
most `MAXROWS` rows with nim-sum `x > 0`: for every playable row `i` with
`target_i <= 1` and no other heap larger than one, the count `U` of the spec
is even and so is the value of `unityheaps` that the test
`(unityheaps & 1) != 0` reads in iteration `i` of the candidate loop (the
counter not being reset between rows); every entry of the array `quality`
after the candidate loop, so before the weakening, is 0, 5 or 9, none is 10. -/
theorem C30_quality_ten_dead (g : Game)
    (hR : g.rows ≤ MAXROWS) (hlen : g.rows ≤ g.numsticks.length)
    (hx : 0 < nim_sum (heaps g)) :
    (∀ i, i < g.rows → spec_playable (heaps g) i = true →
      spec_target (heaps g) i ≤ 1 → spec_M (heaps g) i = false →
      spec_U (heaps g) i % 2 = 0 ∧
      unityheaps_at g.numsticks g.rows (nim_x g.numsticks g.rows)
        (playable_rows_bitmap g.numsticks g.rows (nim_x g.numsticks g.rows)) i % 2 = 0 ∧
      ¬ (unityheaps_at g.numsticks g.rows (nim_x g.numsticks g.rows)
        (playable_rows_bitmap g.numsticks g.rows (nim_x g.numsticks g.rows)) i &&& 1 ≠ 0)) ∧
    (∀ j, (quality_table g).getD j 0 = 0 ∨ (quality_table g).getD j 0 = 5 ∨
      (quality_table g).getD j 0 = 9) ∧
    (∀ j, (quality_table g).getD j 0 ≠ 10) ∧
    (∀ i, i < g.rows →
      candidate_loop g.numsticks g.rows (nim_x g.numsticks g.rows)
          (playable_rows_bitmap g.numsticks g.rows (nim_x g.numsticks g.rows))
        = ((List.range i).reverse).foldl
            (candidate_row g.numsticks g.rows (nim_x g.numsticks g.rows)
              (playable_rows_bitmap g.numsticks g.rows (nim_x g.numsticks g.rows)))
            (candidate_row g.numsticks g.rows (nim_x g.numsticks g.rows)
              (playable_rows_bitmap g.numsticks g.rows (nim_x g.numsticks g.rows))
              (candidate_loop_before g.numsticks g.rows (nim_x g.numsticks g.rows)
                (playable_rows_bitmap g.numsticks g.rows (nim_x g.numsticks g.rows)) i)
              i)) := by
  have hl := heaps_length g hlen
  have hR0 : 0 < g.rows := by
    rcases Nat.eq_zero_or_pos g.rows with h0 | h0
    · have hnil : heaps g = [] := List.length_eq_zero.mp (by rw [hl, h0])
      rw [hnil] at hx
      exact absurd hx (by decide)
    · exact h0
  have hR5 : (heaps g).length ≤ MAXROWS := by rw [hl]; exact hR
  have hq : ∀ j, (quality_table g).getD j 0 = 0 ∨ (quality_table g).getD j 0 = 5 ∨
      (quality_table g).getD j 0 = 9 := by
    intro j
    unfold quality_table
    rw [candidate_loop_heaps g hR0 hlen]
    exact quality_values (heaps g) hR5 hx j
  refine ⟨?_, hq, ?_, fun i hi => candidate_loop_split _ _ _ _ i hi⟩
  · intro i hi hplay _ hM
    have hil : i < (heaps g).length := by rw [hl]; exact hi
    have hp : nim_sum (heaps g) ^^^ (heaps g).getD i 0 < (heaps g).getD i 0 := by
      unfold spec_playable spec_target at hplay
      exact of_decide_eq_true hplay
    have heven : unityheaps_at g.numsticks g.rows (nim_x g.numsticks g.rows)
        (playable_rows_bitmap g.numsticks g.rows (nim_x g.numsticks g.rows)) i % 2 = 0 := by
      rw [unityheaps_at_heaps g hR0 hlen i]
      exact unityheaps_at_even (heaps g) hR5 i hil hp (spec_M_false _ _ hM)
    refine ⟨spec_U_even (heaps g) i hil hM, heven, ?_⟩
    rw [Nat.and_one_is_mod]
    omega
  · intro j
    rcases hq j with h | h | h <;> omega

/-- Witness of C30 on `(1,1,1,2)`, row 4 (index 3): target 1, no other heap
larger than one; the count read is 4 and the quality is 5. -/
theorem C30_quality_ten_dead_witness :
    spec_U (heaps ⟨[1, 1, 1, 2, 0], 3, 4, 1, 0⟩) 3 = 4 ∧
    unityheaps_at [1, 1, 1, 2, 0] 4 (nim_x [1, 1, 1, 2, 0] 4)
      (playable_rows_bitmap [1, 1, 1, 2, 0] 4 (nim_x [1, 1, 1, 2, 0] 4)) 3 = 4 ∧
    (quality_table ⟨[1, 1, 1, 2, 0], 3, 4, 1, 0⟩).getD 3 0 = 5 ∧
    (spec_U (heaps ⟨[1, 1, 1, 2, 0], 3, 4, 1, 0⟩) 3 % 2 = 0 ∧
      unityheaps_at [1, 1, 1, 2, 0] 4 (nim_x [1, 1, 1, 2, 0] 4)
        (playable_rows_bitmap [1, 1, 1, 2, 0] 4 (nim_x [1, 1, 1, 2, 0] 4)) 3 % 2 = 0 ∧
      ¬ (unityheaps_at [1, 1, 1, 2, 0] 4 (nim_x [1, 1, 1, 2, 0] 4)
        (playable_rows_bitmap [1, 1, 1, 2, 0] 4 (nim_x [1, 1, 1, 2, 0] 4)) 3 &&& 1 ≠ 0)) :=
  ⟨by decide, by decide, by decide,
    (C30_quality_ten_dead ⟨[1, 1, 1, 2, 0], 3, 4, 1, 0⟩ (by decide) (by decide)
      (by decide)).1 3 (by decide) (by decide) (by decide) (by decide)⟩

end PocketNim
